import Mathlib

/-!
# Vantage-point tree of `src/src/vptree.cpp`

A shallow embedding of the VP tree (construction, save / reload, k-nearest-neighbour search)
and theorems about it.

Conventions of the embedding.

* `double` is an arbitrary linearly ordered commutative ring `R` with a floor function, with exact
  arithmetic.  `std::sqrt` and `DBL_MAX` are parameters (`sqrt`, `DBL_MAX`) of the functions that
  use them; theorems about Euclidean distance instantiate `R := ℝ`, `sqrt := Real.sqrt`.
* `const double*` is the list of numbers the pointer addresses (a column of the matrix).
* `std::vector`, `std::deque` are lists.  `std::priority_queue<std::pair<double, int>>` is the list
  of its elements in descending order, so that `top` is the head.
* `R::unif_rand()` is a stream `unif_rand : ℕ → R` read through a counter; `std::nth_element` is an
  arbitrary function `nth_element`, and theorems assume of it only the postcondition
  `nth_element_post` of the C++ standard.
* Recursive functions carry a recursion budget `fuel`; results are in `Except Fault`, where a
  `Fault` is an exhausted budget, a thrown `std::runtime_error` or undefined behaviour of C++.
* Rounding and overflow of `double` are not modelled.  Theorems that depend only on the order of
  the computed numbers are not affected; theorems on the values of distances are theorems on the
  algorithm over exact numbers; the closed evaluations use small integers and perfect squares,
  on which the arithmetic of `double` is exact.
-/

namespace Kmknn

/-- Ways in which a call does not return normally. -/
inductive Fault where
  /-- the recursion budget of the embedding is exhausted -/
  | out_of_fuel
  /-- undefined behaviour: `nearest.pop()` or `nearest.top()` on an empty queue -/
  | pop_empty
  /-- undefined behaviour: `nodes[i]` outside the node array -/
  | nodes_out_of_range
  /-- undefined behaviour: `items[i]` (or an iterator) outside the point array -/
  | items_out_of_range
  /-- the exception "VP tree index list must have 4 elements" -/
  | index_list_size
  /-- the exception "VP tree node index vector lengths are not consistent" -/
  | lengths_not_consistent
  /-- the exception "VP tree node indices out of range" -/
  | node_indices_out_of_range
  /-- the exception "cell index out of range" -/
  | cell_out_of_range
  /-- undefined behaviour: the `int` sum `k + 1` is above `INT_MAX` -/
  | int_overflow
  deriving DecidableEq, Repr

/-- The constant `INT_MAX` of `<climits>`: the greatest value of the 32-bit `int`. -/
def INT_MAX : Int := 2147483647

/-- Modelled from the spec: the sentinel `LEAF` ("no subtree") of the absent `vptree.h`; it is
distinct from every offset into the node array. -/
def LEAF_MARKER : Int := -1

/-- The `DataPoint` of `vptree.cpp`: the original identifier and the coordinates `ptr` points
to. -/
structure DataPoint (R : Type) where
  ptr : List R
  index : Int
  deriving DecidableEq, Repr

/-- Modelled from the spec: the `Node` of the absent `vptree.h`, with fields `threshold`, `index`
(the pivot offset), `left` and `right`. -/
structure Node (R : Type) where
  threshold : R
  index : Int
  left : Int
  right : Int
  deriving DecidableEq, Repr

/-- Modelled from the spec: the constructor `Node(int i)` of the absent `vptree.h`: pivot offset
`i`, `LEAF` children and threshold 0. -/
def Node.ofIndex {R : Type} [Zero R] (i : Int) : Node R :=
  { threshold := 0, index := i, left := LEAF_MARKER, right := LEAF_MARKER }

/-- An `Rcpp::NumericMatrix`, column by column: `cols[i]` is what `begin() + i * nrow` points
to. -/
structure NumericMatrix (R : Type) where
  nrow : Nat
  cols : List (List R)
  deriving DecidableEq, Repr

/-- The number of columns of a matrix. -/
def NumericMatrix.ncol {R : Type} (m : NumericMatrix R) : Nat := m.cols.length

/-- An element of an `Rcpp::List`: an integer or a numeric vector. -/
inductive RVector (R : Type) where
  | IntegerVector (v : List Int)
  | NumericVector (v : List R)
  deriving DecidableEq, Repr

/-- The members of the class `VpTree` (declared in the absent `vptree.h`, used in `vptree.cpp`). -/
structure VpTree (R : Type) where
  reference : NumericMatrix R
  ndim : Nat
  items : List (DataPoint R)
  nodes : List (Node R)
  tau : R
  nearest : List (R × Int)
  neighbors : List Nat
  distances : List R
  deriving DecidableEq, Repr

section Defs

variable {R : Type} [LinearOrderedCommRing R] [FloorRing R]

/-- The conversion `static_cast<int>` of a `double`: truncation towards zero. -/
def static_cast_int (x : R) : Int := if 0 ≤ x then ⌊x⌋ else ⌈x⌉

/-- The element `v[i]` of a vector `v` at a C++ `int` offset `i`; `none` outside the vector. -/
def at? {α : Type} (v : List α) (i : Int) : Option α :=
  if 0 ≤ i then v[i.toNat]? else none

/-- The loop `for (i = 0; i < d; ++i, ++x, ++y)` of `euclidean_dist2`, started with `dist`. A read
past the end of a column yields 0. -/
def euclidean_dist2_loop : Nat → List R → List R → R → R
  | 0, _, _, dist => dist
  | d + 1, x, y, dist =>
    let diff := x.headD 0 - y.headD 0
    euclidean_dist2_loop d x.tail y.tail (dist + diff * diff)

/-- The function `euclidean_dist2(x, y, d)`. -/
def euclidean_dist2 (x y : List R) (d : Nat) : R := euclidean_dist2_loop d x y 0

/-- The comparison `DistanceComparator(item, ndim)(a, b)`. -/
def DistanceComparator (item : DataPoint R) (ndim : Nat) (a b : DataPoint R) : Bool :=
  decide (euclidean_dist2 item.ptr a.ptr ndim < euclidean_dist2 item.ptr b.ptr ndim)

/-- The postcondition of `std::nth_element(first, nth, last, comp)`: `output` is the new content
of `[first, last)`, a rearrangement of `input`, in which no element from offset `nth` on is less
than the element at offset `nth` or an element before it. -/
def nth_element_post {α : Type} (comp : α → α → Bool) (input : List α) (nth : Nat)
    (output : List α) : Prop :=
  output.Perm input ∧
    ∀ i j a b, i ≤ nth → nth ≤ j → output[i]? = some a → output[j]? = some b → comp b a = false

/-- The elements of the vector `l` at the offsets `lo ≤ j < hi` (an iterator range). -/
def seg {α : Type} (l : List α) (lo hi : Nat) : List α := (l.drop lo).take (hi - lo)

/-- The assignment `node.field = value` through the reference `Node& node = nodes.back()` taken
when the node was
appended at offset `pos`. -/
def modifyNode (nodes : List (Node R)) (pos : Nat) (f : Node R → Node R) : List (Node R) :=
  match nodes[pos]? with
  | some nd => nodes.set pos (f nd)
  | none => nodes

/-- Lines 66 to 78 of `VpTree::buildFromPoints`, for the node appended at offset `pos`: a point is
drawn and swapped to `lower`, the rest of `[lower, upper)` is partitioned around the median and the
threshold of the node is set. `rng` is the number of random draws made so far. -/
def buildFromPoints_partition (sqrt : R → R) (unif_rand : Nat → R)
    (nth_element : Nat → (DataPoint R → DataPoint R → Bool) → List (DataPoint R) → Nat →
      List (DataPoint R))
    (lower upper pos : Nat) (t : VpTree R) (rng : Nat) : Except Fault (VpTree R) :=
  let i := static_cast_int (unif_rand rng * (((upper - lower - 1 : Nat) : Int) : R)) + lower
  match t.items[lower]?, at? t.items i with
  | some a, some b =>
    let items1 := (t.items.set lower b).set i.toNat a
    let median := (upper + lower) / 2
    if items1.length < upper then .error .items_out_of_range
    else
      match items1[lower]? with
      | none => .error .items_out_of_range
      | some pivot =>
        let items2 := items1.take (lower + 1) ++
          nth_element rng (DistanceComparator pivot t.ndim)
            (seg items1 (lower + 1) upper) (median - (lower + 1)) ++
          items1.drop upper
        match items2[lower]?, items2[median]? with
        | some p, some m =>
          .ok { t with
            items := items2
            nodes := modifyNode t.nodes pos (fun nd =>
              { nd with threshold := sqrt (euclidean_dist2 p.ptr m.ptr t.ndim) }) }
        | _, _ => .error .items_out_of_range
  | _, _ => .error .items_out_of_range

/-- The method `VpTree::buildFromPoints(lower, upper)`, threading the tree and the number `rng`
of random
draws made so far. The constructor calls it with `lower = 0`, so the bounds are naturals. -/
def buildFromPoints (sqrt : R → R) (unif_rand : Nat → R)
    (nth_element : Nat → (DataPoint R → DataPoint R → Bool) → List (DataPoint R) → Nat →
      List (DataPoint R)) :
    Nat → Nat → Nat → VpTree R × Nat → Except Fault (Int × (VpTree R × Nat))
  | 0, _, _, _ => .error .out_of_fuel
  | fuel + 1, lower, upper, (t, rng) =>
    if upper = lower then .ok (LEAF_MARKER, (t, rng))
    else
      let pos := t.nodes.length
      let t1 := { t with nodes := t.nodes ++ [Node.ofIndex (lower : Int)] }
      if upper - lower > 1 then
        match buildFromPoints_partition sqrt unif_rand nth_element lower upper pos t1 rng with
        | .error e => .error e
        | .ok t2 =>
          let median := (upper + lower) / 2
          match buildFromPoints sqrt unif_rand nth_element fuel (lower + 1) median
              (t2, rng + 1) with
          | .error e => .error e
          | .ok (l, (t3, rng3)) =>
            let t4 := { t3 with nodes := modifyNode t3.nodes pos (fun nd =>
              { nd with left := l }) }
            match buildFromPoints sqrt unif_rand nth_element fuel median upper (t4, rng3) with
            | .error e => .error e
            | .ok (r, (t5, rng5)) =>
              .ok ((pos : Int), ({ t5 with nodes := modifyNode t5.nodes pos (fun nd =>
                { nd with right := r }) }, rng5))
      else .ok ((pos : Int), (t1, rng))

/-- The loop of both constructors that fills `items`: `DataPoint(i, ptr)` for column `i`. -/
def fillItems (vals : NumericMatrix R) : List (DataPoint R) :=
  vals.cols.enum.map (fun ic => { ptr := ic.2, index := (ic.1 : Int) })

/-- The constructor `VpTree::VpTree(Rcpp::NumericMatrix vals)`. The members `tau`, `nearest`,
`neighbors` and
`distances` start out as 0 and empty. -/
def VpTree_of_vals (sqrt : R → R) (unif_rand : Nat → R)
    (nth_element : Nat → (DataPoint R → DataPoint R → Bool) → List (DataPoint R) → Nat →
      List (DataPoint R))
    (fuel : Nat) (vals : NumericMatrix R) : Except Fault (VpTree R) :=
  let t : VpTree R :=
    { reference := vals, ndim := vals.nrow, items := fillItems vals, nodes := [],
      tau := 0, nearest := [], neighbors := [], distances := [] }
  match buildFromPoints sqrt unif_rand nth_element fuel 0 vals.ncol (t, 0) with
  | .error e => .error e
  | .ok (_, (t1, _)) => .ok t1

/-- The method `VpTree::save()`. -/
def save (t : VpTree R) : List (RVector R) :=
  [ .IntegerVector (t.items.map (fun I => I.index + 1)),
    .IntegerVector (t.nodes.map (fun N => N.index)),
    .IntegerVector (t.nodes.map (fun N => N.left)),
    .IntegerVector (t.nodes.map (fun N => N.right)),
    .NumericVector (t.nodes.map (fun N => N.threshold)) ]

/-- Conversion of a list element to `Rcpp::IntegerVector` (a numeric vector is truncated). -/
def asIntegerVector : RVector R → List Int
  | .IntegerVector v => v
  | .NumericVector v => v.map static_cast_int

/-- Conversion of a list element to `Rcpp::NumericVector`. -/
def asNumericVector : RVector R → List R
  | .IntegerVector v => v.map (fun z => (z : R))
  | .NumericVector v => v

/-- The loop `for (int i=0; i<nnodes; ++i)` of the loading constructor, from offset `i` on, the
nodes pushed so far being `nodes`. -/
def fillNodes (node_index node_left node_right : List Int) (node_thresholds : List R)
    (nnodes : Nat) : Nat → Nat → List (Node R) → Except Fault (List (Node R))
  | 0, _, nodes => .ok nodes
  | n + 1, i, nodes =>
    match node_index[i]?, node_left[i]?, node_right[i]?, node_thresholds[i]? with
    | some ix, some l, some r, some th =>
      let curnode : Node R := { (Node.ofIndex ix : Node R) with left := l, right := r }
      if curnode.index < 0 ∨ curnode.index ≥ nnodes ∨
          (curnode.left ≠ LEAF_MARKER ∧ (curnode.left < 0 ∨ curnode.left ≥ nnodes)) ∨
          (curnode.right ≠ LEAF_MARKER ∧ (curnode.right < 0 ∨ curnode.right ≥ nnodes)) then
        .error .node_indices_out_of_range
      else
        fillNodes node_index node_left node_right node_thresholds nnodes n (i + 1)
          (nodes ++ [{ curnode with threshold := th }])
    | _, _, _, _ => .error .nodes_out_of_range

/-- The constructor `VpTree::VpTree(Rcpp::NumericMatrix vals, Rcpp::List node_data)`. -/
def VpTree_of_node_data (vals : NumericMatrix R) (node_data : List (RVector R)) :
    Except Fault (VpTree R) :=
  match node_data with
  | [d0, d1, d2, d3] =>
    let node_index := asIntegerVector d0
    let node_left := asIntegerVector d1
    let node_right := asIntegerVector d2
    let node_thresholds := asNumericVector d3
    let nnodes := node_index.length
    if node_left.length ≠ nnodes ∨ node_right.length ≠ nnodes ∨
        node_thresholds.length ≠ nnodes then
      .error .lengths_not_consistent
    else
      match fillNodes node_index node_left node_right node_thresholds nnodes nnodes 0 [] with
      | .error e => .error e
      | .ok nodes =>
        .ok { reference := vals, ndim := vals.nrow, items := fillItems vals, nodes := nodes,
              tau := 0, nearest := [], neighbors := [], distances := [] }
  | _ => .error .index_list_size

/-- The order `operator<` of `std::pair<double, int>` turned around: `a` is not less than `b`.
The queue
`nearest` is kept in this (descending) order. -/
def pairGe (a b : R × Int) : Prop := b.1 < a.1 ∨ (b.1 = a.1 ∧ b.2 ≤ a.2)

instance pairGe_decidable : DecidableRel (pairGe : R × Int → R × Int → Prop) :=
  fun a b => by unfold pairGe; exact inferInstance

/-- The call `nearest.push(x)`. -/
def pq_push (x : R × Int) (q : List (R × Int)) : List (R × Int) := q.orderedInsert pairGe x

/-- The body of `if (dist < tau)` in `VpTree::search` (lines 194 to 202). -/
def search_within_tau (dist : R) (index : Int) (k : Int) (t : VpTree R) :
    Except Fault (VpTree R) :=
  let popped : Except Fault (List (R × Int)) :=
    if (t.nearest.length : Int) = k then
      match t.nearest with
      | [] => .error .pop_empty
      | _ :: rest => .ok rest
    else .ok t.nearest
  match popped with
  | .error e => .error e
  | .ok q =>
    let q1 := pq_push (dist, index) q
    if (q1.length : Int) = k then
      match q1 with
      | [] => .error .pop_empty
      | top :: _ => .ok { t with nearest := q1, tau := top.1 }
    else .ok { t with nearest := q1 }

/-- The method `VpTree::search(curnode_index, target, k)`. -/
def search (sqrt : R → R) : Nat → Int → List R → Int → VpTree R → Except Fault (VpTree R)
  | 0, _, _, _, _ => .error .out_of_fuel
  | fuel + 1, curnode_index, target, k, t =>
    if curnode_index = LEAF_MARKER then .ok t
    else
      match at? t.nodes curnode_index with
      | none => .error .nodes_out_of_range
      | some curnode =>
        match at? t.items curnode.index with
        | none => .error .items_out_of_range
        | some item =>
          let dist := sqrt (euclidean_dist2 item.ptr target t.ndim)
          match (if dist < t.tau then search_within_tau dist curnode.index k t else .ok t) with
          | .error e => .error e
          | .ok t1 =>
            if curnode.left = LEAF_MARKER ∧ curnode.right = LEAF_MARKER then .ok t1
            else if dist < curnode.threshold then
              match (if dist - t1.tau ≤ curnode.threshold then
                  search sqrt fuel curnode.left target k t1 else .ok t1) with
              | .error e => .error e
              | .ok t2 =>
                if dist + t2.tau ≥ curnode.threshold then
                  search sqrt fuel curnode.right target k t2
                else .ok t2
            else
              match (if dist + t1.tau ≥ curnode.threshold then
                  search sqrt fuel curnode.right target k t1 else .ok t1) with
              | .error e => .error e
              | .ok t2 =>
                if dist - t2.tau ≤ curnode.threshold then
                  search sqrt fuel curnode.left target k t2
                else .ok t2

/-- Modelled from the spec: `queue2deque(nearest, neighbors, distances, index, dist, discard_self,
self)` of the absent `queue2deque.h`. It drains the accumulator in ascending order, leaving it
empty, into the two optional outputs. With `discard_self` the accumulator was filled with capacity
`k + 1`: the entry whose identifier is `self` is excluded and the rest is truncated to `k`, that is,
the farthest entry is dropped when no entry was excluded. -/
def queue2deque (t : VpTree R) (index dist discard_self : Bool) (self : Nat) : VpTree R :=
  let drained := t.nearest.reverse
  let kept :=
    if discard_self then
      let others := drained.filter (fun e => decide (e.2 ≠ (self : Int)))
      if others.length = drained.length then others.dropLast else others
    else drained
  { t with
    nearest := []
    neighbors := if index then kept.map (fun e => e.2.toNat) else t.neighbors
    distances := if dist then kept.map (fun e => e.1) else t.distances }

/-- The method `VpTree::find_nearest_neighbors(size_t cell, int k, bool index, bool dist)`. A
failure comes with the state of the object at that moment. The sum `k + 1` is an `int`: above
`INT_MAX` it overflows, which is undefined behaviour. -/
def find_nearest_neighbors_cell (sqrt : R → R) (DBL_MAX : R) (fuel : Nat) (cell : Nat) (k : Int)
    (index dist : Bool) (t : VpTree R) : Except (Fault × VpTree R) (VpTree R) :=
  if cell ≥ t.reference.ncol then .error (.cell_out_of_range, t)
  else
    let t1 := { t with tau := DBL_MAX }
    let curcol := t.reference.cols.getD cell []
    if k + 1 > INT_MAX then .error (.int_overflow, t1)
    else
      match search sqrt fuel 0 curcol (k + 1) t1 with
      | .error e => .error (e, t1)
      | .ok t2 => .ok (queue2deque t2 index dist true cell)

/-- The method
`VpTree::find_nearest_neighbors(const double* current, int k, bool index, bool dist)`. -/
def find_nearest_neighbors_current (sqrt : R → R) (DBL_MAX : R) (fuel : Nat) (current : List R)
    (k : Int) (index dist : Bool) (t : VpTree R) : Except (Fault × VpTree R) (VpTree R) :=
  let t1 := { t with tau := DBL_MAX }
  match search sqrt fuel 0 current k t1 with
  | .error e => .error (e, t1)
  | .ok t2 => .ok (queue2deque t2 index dist false 0)

/-- The shape `buildFromPoints(lo, hi)` leaves behind: `c` is the root of a subtree that covers
the points at the offsets `lo ≤ j < hi`; the node of the point at offset `j` is at offset `j`, the
points of the left subtree are no farther from the pivot than the threshold and those of the
right subtree no nearer. -/
inductive Built {R : Type} [LinearOrderedCommRing R] (sqrt : R → R) (ndim : Nat)
    (nodes : List (Node R)) (items : List (DataPoint R)) : Int → Nat → Nat → Prop where
  | leaf (lo : Nat) : Built sqrt ndim nodes items LEAF_MARKER lo lo
  | single (lo : Nat) (nd : Node R) (p : DataPoint R) :
      nodes[lo]? = some nd → nd.index = (lo : Int) → nd.left = LEAF_MARKER →
      nd.right = LEAF_MARKER → nd.threshold = 0 → items[lo]? = some p →
      Built sqrt ndim nodes items (lo : Int) lo (lo + 1)
  | node (lo hi : Nat) (nd : Node R) (p : DataPoint R) :
      lo + 2 ≤ hi →
      nodes[lo]? = some nd → nd.index = (lo : Int) → items[lo]? = some p →
      Built sqrt ndim nodes items nd.left (lo + 1) ((hi + lo) / 2) →
      Built sqrt ndim nodes items nd.right ((hi + lo) / 2) hi →
      (∀ j x, lo + 1 ≤ j → j < (hi + lo) / 2 → items[j]? = some x →
        sqrt (euclidean_dist2 p.ptr x.ptr ndim) ≤ nd.threshold) →
      (∀ j x, (hi + lo) / 2 ≤ j → j < hi → items[j]? = some x →
        nd.threshold ≤ sqrt (euclidean_dist2 p.ptr x.ptr ndim)) →
      Built sqrt ndim nodes items (lo : Int) lo hi

/-- The oracle for `R::unif_rand()` yields numbers in `[0, 1)`. -/
def UnifRandOk {R : Type} [LinearOrderedCommRing R] (unif_rand : Nat → R) : Prop :=
  ∀ n, 0 ≤ unif_rand n ∧ unif_rand n < 1

/-- The oracle for `std::nth_element` meets the postcondition whenever it is called with a
`DistanceComparator` and an offset `nth` inside the range. -/
def NthElementOk {R : Type} [LinearOrderedCommRing R]
    (nth_element : Nat → (DataPoint R → DataPoint R → Bool) → List (DataPoint R) →
      Nat → List (DataPoint R)) : Prop :=
  ∀ n pivot ndim l nth, nth < l.length →
    nth_element_post (DistanceComparator pivot ndim) l nth
      (nth_element n (DistanceComparator pivot ndim) l nth)

/-- What a call `buildFromPoints(lower, upper)` that starts from `t` and returns `c` has done when
it leaves `t1`. -/
structure BuildPost {R : Type} [LinearOrderedCommRing R] (sqrt : R → R) (t : VpTree R)
    (lower upper : Nat) (c : Int) (t1 : VpTree R) : Prop where
  reference : t1.reference = t.reference
  ndim : t1.ndim = t.ndim
  tau : t1.tau = t.tau
  nearest : t1.nearest = t.nearest
  neighbors : t1.neighbors = t.neighbors
  distances : t1.distances = t.distances
  items_length : t1.items.length = t.items.length
  items_out : ∀ j, j < lower ∨ upper ≤ j → t1.items[j]? = t.items[j]?
  items_perm : (seg t1.items lower upper).Perm (seg t.items lower upper)
  nodes_length : t1.nodes.length = upper
  nodes_old : ∀ j, j < lower → t1.nodes[j]? = t.nodes[j]?
  root : c = if lower = upper then LEAF_MARKER else (lower : Int)
  built : Built sqrt t.ndim t1.nodes t1.items c lower upper

/-- The brute-force scan: for every offset `j` of the point array, the distance from the point at
`j` to `target` together with `j`, as `search` would push it. -/
def candidates {R : Type} [LinearOrderedCommRing R] (sqrt : R → R) (ndim : Nat)
    (items : List (DataPoint R)) (target : List R) : List (R × Int) :=
  items.enum.map (fun jx => (sqrt (euclidean_dist2 jx.2.ptr target ndim), (jx.1 : Int)))

/-- The state of a search with capacity `k` after the candidates `S` have been dealt with
(pushed, rejected or skipped with their subtree): the queue `Q` holds the `k` least of them, `tau`
is the greatest distance in a full queue and `DBL_MAX` otherwise. -/
structure SearchInv {R : Type} [LinearOrderedCommRing R] (k : Int) (DBL_MAX : R)
    (S : List (R × Int)) (tau : R) (Q : List (R × Int)) : Prop where
  sorted : Q.Sorted pairGe
  top : (Q.length : Int) = k → ∃ e rest, Q = e :: rest ∧ tau = e.1
  notfull : (Q.length : Int) ≠ k → tau = DBL_MAX ∧ (Q.length : Int) < k
  le_tau : ∀ e ∈ Q, e.1 ≤ tau
  rest : ∃ rest, S.Perm (Q ++ rest) ∧ (rest ≠ [] → (Q.length : Int) = k) ∧ ∀ r ∈ rest, tau ≤ r.1

/-- One admissible outcome of `std::nth_element`: the range sorted by `comp`. -/
def nth_element_sort {α : Type} (_ : Nat) (comp : α → α → Bool) (l : List α) (_ : Nat) :
    List α :=
  l.insertionSort (fun a b => comp b a = false)

/-- The brute-force linear scan: the distances from `target` to all columns of the reference
matrix, in ascending order. -/
def brute_force_distances {R : Type} [LinearOrderedCommRing R] (sqrt : R → R)
    (vals : NumericMatrix R) (target : List R) : List R :=
  (vals.cols.map (fun col => sqrt (euclidean_dist2 col target vals.nrow))).insertionSort (· ≤ ·)

/-- The square root of `std::sqrt` on perfect squares, for examples over the integers. -/
def int_sqrt (z : Int) : Int :=
  ((List.range (z.toNat + 1)).filter (fun i => decide (i * i ≤ z.toNat))).length - 1

/-- The claim's condition on node `i` of the arrays given to the loading constructor: the pivot
offset is outside `[0, nodeCount)`, or a child is neither `LEAF` nor inside `[0, nodeCount)`. -/
def node_rejected (nodeCount : Nat) (index left right : Int) : Prop :=
  ¬ (0 ≤ index ∧ index < nodeCount) ∨
    (left ≠ LEAF_MARKER ∧ ¬ (0 ≤ left ∧ left < nodeCount)) ∨
    (right ≠ LEAF_MARKER ∧ ¬ (0 ≤ right ∧ right < nodeCount))

/-- The reference matrix with its columns in the saved point order: column `j` is the column of
`vals` whose one-based number is entry `j` of `item_index`, the first array of `save()`. -/
def reorder_columns {R : Type} (vals : NumericMatrix R) (item_index : List Int) :
    NumericMatrix R :=
  { nrow := vals.nrow, cols := item_index.map (fun id => vals.cols.getD (id - 1).toNat []) }

/-- What the caller of a query reads afterwards: `get_neighbors()` and `get_distances()`, or the
failure. -/
def query_result {R : Type} (r : Except (Fault × VpTree R) (VpTree R)) :
    Except Fault (List Nat × List R) :=
  match r with
  | .ok t => .ok (t.neighbors, t.distances)
  | .error e => .error e.1

/-- The outcome of a search in `t`, read as an outcome for another object `t1` that is searched
the same way: `tau` and the accumulator are those of the outcome. -/
def transfer_search {R : Type} (t1 : VpTree R) (r : Except Fault (VpTree R)) :
    Except Fault (VpTree R) :=
  match r with
  | .ok s => .ok { t1 with tau := s.tau, nearest := s.nearest }
  | .error e => .error e

/-- The relation between `tau` and the accumulator of capacity `k` that holds when
`find_nearest_neighbors` starts a search and after every step of it: the accumulator is ordered
and holds at most `k` candidates, none farther than `tau`, and `tau` is the distance of its top
when it is full. -/
structure TauInv {R : Type} [LinearOrderedCommRing R] (k : Int) (tau : R)
    (Q : List (R × Int)) : Prop where
  sorted : Q.Sorted pairGe
  top : (Q.length : Int) = k → ∃ e rest, Q = e :: rest ∧ tau = e.1
  le_tau : ∀ e ∈ Q, e.1 ≤ tau
  length_le : (Q.length : Int) ≤ k

end Defs

end Kmknn

namespace Kmknn

/-! ## Further definitions: the calls of the build, the drawn index, the radius-search driver -/

/-- The calls made in the course of `buildFromPoints(lo, hi)` that allocate a node:
`BuildCall lo hi lower upper` says that `buildFromPoints(lower, upper)` is such a call. A call on
an empty range returns `LEAF` at once (line 55); a call on more than one point (line 64) makes
the calls of the lines 81 and 82. -/
inductive BuildCall : Nat → Nat → Nat → Nat → Prop where
  | root (lo hi : Nat) : lo < hi → BuildCall lo hi lo hi
  | left (lo hi lower upper : Nat) : hi - lo > 1 →
      BuildCall (lo + 1) ((hi + lo) / 2) lower upper → BuildCall lo hi lower upper
  | right (lo hi lower upper : Nat) : hi - lo > 1 →
      BuildCall ((hi + lo) / 2) hi lower upper → BuildCall lo hi lower upper

/-- The threshold of every node allocated under `buildFromPoints(lo, hi)` for a range
`[lower, upper)` of more than one point is the distance from the pivot, the point at `lower`, to
a point of the right range `[median, upper)`: the point that line 72 placed at `median`. -/
def ThresholdAtMedian {R : Type} [LinearOrderedCommRing R] (sqrt : R → R) (ndim : Nat)
    (nodes : List (Node R)) (items : List (DataPoint R)) (lo hi : Nat) : Prop :=
  ∀ lower upper, BuildCall lo hi lower upper → upper - lower > 1 →
    ∃ nd pivot j x, nodes[lower]? = some nd ∧ items[lower]? = some pivot ∧
      (upper + lower) / 2 ≤ j ∧ j < upper ∧ items[j]? = some x ∧
      nd.threshold = sqrt (euclidean_dist2 pivot.ptr x.ptr ndim)

/-- The index `i` of line 67 of `VpTree::buildFromPoints` for the draw `u` of `R::unif_rand()`:
`static_cast<int>(u * static_cast<double>(upper - lower - 1)) + lower`. -/
def buildFromPoints_i {R : Type} [LinearOrderedCommRing R] [FloorRing R] (u : R)
    (lower upper : Nat) : Int :=
  static_cast_int (u * (((upper - lower - 1 : Nat) : Int) : R)) + lower

/-- The links of a node array go forward: a child of the node at offset `p` is `LEAF` or an
offset after `p` inside the array. -/
def LinksForward {R : Type} (nodes : List (Node R)) : Prop :=
  ∀ (p : Nat) (nd : Node R), nodes[p]? = some nd →
    (nd.left = LEAF_MARKER ∨ ((p : Int) < nd.left ∧ nd.left < (nodes.length : Int))) ∧
    (nd.right = LEAF_MARKER ∨ ((p : Int) < nd.right ∧ nd.right < (nodes.length : Int)))

/-- Ways in which the driver `find_neighbors` of `find_neighbors.cpp` does not return normally. -/
inductive DriverFault where
  /-- the exception "job indices out of range" -/
  | job_indices_out_of_range
  /-- undefined behaviour: `out_idx[ix] = ...` or `out_dist[ix] = ...` outside the list -/
  | list_out_of_range
  deriving DecidableEq, Repr

/-- The constant `NA_INTEGER` of R, the least 32-bit integer. -/
def NA_INTEGER : Int := -2147483648

/-- Modelled from the spec: the searcher of the absent `objects.h` that `generate_holder`
returns, as far as `find_neighbors` uses it: `get_nobs()`, the radius search
`find_neighbors(cell, threshold, store_distances)`, which leaves its results in the object, and
the accessors `get_neighbors()` and `get_distances()`. `S` is the state of the object. -/
structure Searcher (S R : Type) where
  get_nobs : S → Nat
  find_neighbors : S → Int → R → Bool → S
  get_neighbors : S → List Nat
  get_distances : S → List R

/-- The assignment `out[ix] = v` to an element of an `Rcpp::List`, a list whose elements are
`NULL` (`none`) or hold a vector. -/
def list_assign {α : Type} (out : List (Option α)) (ix : Nat) (v : α) :
    Except DriverFault (List (Option α)) :=
  if ix < out.length then .ok (out.set ix (some v)) else .error .list_out_of_range

/-- The loop `for (auto h : points)` of lines 35 to 50 of `find_neighbors`, from the query
number `ix` on. -/
def find_neighbors_loop {S R : Type} (ops : Searcher S R) (threshold : R)
    (store_neighbors store_distances : Bool) :
    List Int → Nat → S → List (Option (List Int)) → List (Option (List R)) →
      Except DriverFault (List (Option (List Int)) × List (Option (List R)))
  | [], _, _, out_idx, out_dist => .ok (out_idx, out_dist)
  | h :: points, ix, searcher, out_idx, out_dist =>
    let searcher1 := ops.find_neighbors searcher h threshold store_distances
    let idx1 : Except DriverFault (List (Option (List Int))) :=
      if store_neighbors then
        let output := (ops.get_neighbors searcher1).map (fun o => (o : Int) + 1)
        list_assign out_idx ix output
      else .ok out_idx
    match idx1 with
    | .error e => .error e
    | .ok out_idx1 =>
      let dist1 : Except DriverFault (List (Option (List R))) :=
        if store_neighbors then list_assign out_dist ix (ops.get_distances searcher1)
        else .ok out_dist
      match dist1 with
      | .error e => .error e
      | .ok out_dist1 =>
        find_neighbors_loop ops threshold store_neighbors store_distances points (ix + 1)
          searcher1 out_idx1 out_dist1

/-- The driver `find_neighbors` of `find_neighbors.cpp`, after the conversion of its arguments:
`searcher` is the object made by `generate_holder`, `threshold`, `get_index` and `get_distance`
the checked scalars and `to_check` the integer vector. It returns `out_idx` and `out_dist`. -/
def find_neighbors {S R : Type} (ops : Searcher S R) (searcher : S) (to_check : List Int)
    (threshold : R) (get_index get_distance : Bool) :
    Except DriverFault (List (Option (List Int)) × List (Option (List R))) :=
  let total_obs := ops.get_nobs searcher
  if to_check.any (fun h => decide (h = NA_INTEGER ∨ h < 0 ∨ h ≥ (total_obs : Int))) then
    .error .job_indices_out_of_range
  else
    let nobs := to_check.length
    let store_neighbors := get_index
    let store_distances := get_distance
    let out_dist : List (Option (List R)) :=
      if store_distances then List.replicate nobs none else []
    let out_idx : List (Option (List Int)) :=
      if store_neighbors then List.replicate nobs none else []
    find_neighbors_loop ops threshold store_neighbors store_distances to_check 0 searcher
      out_idx out_dist

/-- A searcher for examples: the state is the last query; the neighbors of query `h` are `h` and
`h + 1`, at the distances 0 and 1. -/
def example_searcher : Searcher Int Int :=
  { get_nobs := fun _ => 3
    find_neighbors := fun _ h _ _ => h
    get_neighbors := fun s => [s.toNat, s.toNat + 1]
    get_distances := fun _ => [0, 1] }

end Kmknn

namespace Kmknn

/-! ## Lists: segments, splicing, swapping -/

section ListLemmas

variable {α : Type}

theorem getElem?_seg (l : List α) (lo hi i : Nat) :
    (seg l lo hi)[i]? = if i < hi - lo then l[lo + i]? else none := by
  simp [seg, List.getElem?_take, List.getElem?_drop]

theorem length_seg (l : List α) (lo hi : Nat) (h : hi ≤ l.length) :
    (seg l lo hi).length = hi - lo := by
  simp [seg]; omega

theorem mem_seg {l : List α} {lo hi : Nat} {x : α} :
    x ∈ seg l lo hi ↔ ∃ j, lo ≤ j ∧ j < hi ∧ l[j]? = some x := by
  rw [List.mem_iff_getElem?]
  constructor
  · rintro ⟨n, hn⟩
    rw [getElem?_seg] at hn
    split at hn
    · exact ⟨lo + n, by omega, by omega, hn⟩
    · cases hn
  · rintro ⟨j, h1, h2, h3⟩
    refine ⟨j - lo, ?_⟩
    rw [getElem?_seg, if_pos (by omega)]
    rw [show lo + (j - lo) = j by omega]
    exact h3

theorem seg_congr {l l' : List α} {lo hi : Nat}
    (h : ∀ j, lo ≤ j → j < hi → l'[j]? = l[j]?) : seg l' lo hi = seg l lo hi := by
  apply List.ext_getElem?
  intro n
  rw [getElem?_seg, getElem?_seg]
  split
  · exact h _ (by omega) (by omega)
  · rfl

theorem seg_decompose (l : List α) (lo hi : Nat) (h1 : lo ≤ hi) :
    l = l.take lo ++ seg l lo hi ++ l.drop hi := by
  apply List.ext_getElem?
  intro n
  simp only [List.getElem?_append, List.getElem?_take, List.getElem?_drop, getElem?_seg,
    List.length_append, List.length_take, seg, List.length_drop]
  by_cases hl : l.length ≤ n
  · have hn : l[n]? = none := List.getElem?_eq_none hl
    rw [hn]
    split_ifs <;> first | rfl | (symm; apply List.getElem?_eq_none; omega)
  · split_ifs <;> first | rfl | (congr 1; omega)

theorem seg_perm_of_perm {l l' : List α} {lo hi : Nat} (h1 : lo ≤ hi)
    (hp : l'.Perm l) (hout : ∀ j, j < lo ∨ hi ≤ j → l'[j]? = l[j]?) :
    (seg l' lo hi).Perm (seg l lo hi) := by
  have e1 : l'.take lo = l.take lo := by
    apply List.ext_getElem?
    intro n
    simp only [List.getElem?_take]
    split
    · exact hout n (Or.inl (by assumption))
    · rfl
  have e2 : l'.drop hi = l.drop hi := by
    apply List.ext_getElem?
    intro n
    simp only [List.getElem?_drop]
    exact hout _ (Or.inr (by omega))
  have d1 := seg_decompose l lo hi h1
  have d2 := seg_decompose l' lo hi h1
  rw [d1, d2, e1, e2] at hp
  exact (List.perm_append_left_iff _).1 ((List.perm_append_right_iff _).1
    (by simpa [List.append_assoc] using hp))

theorem perm_of_seg_perm {l l' : List α} (lo hi : Nat) (h1 : lo ≤ hi)
    (hp : (seg l' lo hi).Perm (seg l lo hi)) (hout : ∀ j, j < lo ∨ hi ≤ j → l'[j]? = l[j]?) :
    l'.Perm l := by
  have e1 : l'.take lo = l.take lo := by
    apply List.ext_getElem?
    intro n
    simp only [List.getElem?_take]
    split
    · exact hout n (Or.inl (by assumption))
    · rfl
  have e2 : l'.drop hi = l.drop hi := by
    apply List.ext_getElem?
    intro n
    simp only [List.getElem?_drop]
    exact hout _ (Or.inr (by omega))
  rw [seg_decompose l lo hi h1, seg_decompose l' lo hi h1, e1, e2]
  exact (hp.append_left _).append_right _

theorem set_cons_perm : ∀ (xs : List α) (j : Nat) (b x : α), xs[j]? = some b →
    (b :: xs.set j x).Perm (x :: xs)
  | [], j, b, x, h => by simp at h
  | y :: ys, 0, b, x, h => by
    simp at h
    subst h
    simpa using List.Perm.swap x y ys
  | y :: ys, j + 1, b, x, h => by
    simp at h
    have ih := set_cons_perm ys j b x h
    simp only [List.set_cons_succ]
    exact ((List.Perm.swap y b _).trans (ih.cons y)).trans (List.Perm.swap x y ys)

theorem swap_perm : ∀ (l : List α) (i j : Nat) (a b : α), l[i]? = some a → l[j]? = some b →
    ((l.set i b).set j a).Perm l
  | [], i, j, a, b, h, _ => by simp at h
  | x :: xs, 0, 0, a, b, h1, h2 => by
    simp at h1 h2
    subst h1
    simp
  | x :: xs, 0, j + 1, a, b, h1, h2 => by
    simp at h1 h2
    subst h1
    simpa using set_cons_perm xs j b x h2
  | x :: xs, i + 1, 0, a, b, h1, h2 => by
    simp at h1 h2
    subst h2
    simpa using set_cons_perm xs i a x h1
  | x :: xs, i + 1, j + 1, a, b, h1, h2 => by
    simp at h1 h2
    simpa using swap_perm xs i j a b h1 h2

theorem getElem?_swap_of_ne (l : List α) (i j n : Nat) (a b : α) (h1 : n ≠ i) (h2 : n ≠ j) :
    ((l.set i b).set j a)[n]? = l[n]? := by
  rw [List.getElem?_set, if_neg (Ne.symm h2), List.getElem?_set, if_neg (Ne.symm h1)]

/-- What `std::nth_element` leaves: `l` with the offsets `lo ≤ j < hi` replaced by `out`. -/
theorem getElem?_splice (l out : List α) (lo hi n : Nat) (h1 : lo ≤ hi) (h2 : hi ≤ l.length)
    (ho : out.length = hi - lo) :
    (l.take lo ++ out ++ l.drop hi)[n]? =
      if n < lo then l[n]? else if n < hi then out[n - lo]? else l[n]? := by
  simp only [List.getElem?_append, List.length_append, List.length_take, List.getElem?_take,
    List.getElem?_drop]
  have : min lo l.length = lo := by omega
  rw [this, ho]
  split_ifs <;> first | rfl | omega | (congr 1; omega)

theorem length_splice (l out : List α) (lo hi : Nat) (h1 : lo ≤ hi) (h2 : hi ≤ l.length)
    (ho : out.length = hi - lo) : (l.take lo ++ out ++ l.drop hi).length = l.length := by
  simp; omega

theorem seg_splice (l out : List α) (lo hi : Nat) (h1 : lo ≤ hi) (h2 : hi ≤ l.length)
    (ho : out.length = hi - lo) : seg (l.take lo ++ out ++ l.drop hi) lo hi = out := by
  apply List.ext_getElem?
  intro n
  rw [getElem?_seg, getElem?_splice l out lo hi _ h1 h2 ho]
  by_cases h : n < hi - lo
  · rw [if_pos h, if_neg (by omega), if_pos (by omega)]
    congr 1
    omega
  · rw [if_neg h]
    symm
    apply List.getElem?_eq_none
    omega

end ListLemmas

end Kmknn

namespace Kmknn

/-! ## Construction -/

section Build

variable {R : Type} [LinearOrderedCommRing R] [FloorRing R]

theorem static_cast_int_bounds (u : R) (h0 : 0 ≤ u) (h1 : u < 1) (N : Nat) (hN : 1 ≤ N) :
    0 ≤ static_cast_int (u * (((N : Nat) : Int) : R)) ∧
      static_cast_int (u * (((N : Nat) : Int) : R)) < (N : Int) := by
  have hN' : (0 : R) < (((N : Nat) : Int) : R) := by
    have : (0 : Int) < ((N : Nat) : Int) := by omega
    exact_mod_cast this
  have hx : 0 ≤ u * (((N : Nat) : Int) : R) := mul_nonneg h0 hN'.le
  unfold static_cast_int
  rw [if_pos hx]
  refine ⟨Int.floor_nonneg.2 hx, ?_⟩
  rw [Int.floor_lt]
  calc u * (((N : Nat) : Int) : R) < 1 * (((N : Nat) : Int) : R) :=
        mul_lt_mul_of_pos_right h1 hN'
    _ = _ := one_mul _

omit [LinearOrderedCommRing R] [FloorRing R] in
theorem modifyNode_eq (nodes : List (Node R)) (pos : Nat) (f : Node R → Node R) (nd : Node R)
    (h : nodes[pos]? = some nd) : modifyNode nodes pos f = nodes.set pos (f nd) := by
  simp [modifyNode, h]

omit [LinearOrderedCommRing R] [FloorRing R] in
theorem exists_getElem? {α : Type} (l : List α) (i : Nat) (h : i < l.length) :
    ∃ a, l[i]? = some a := ⟨l[i], List.getElem?_eq_getElem h⟩

theorem buildFromPoints_partition_spec (sqrt : R → R) (unif_rand : Nat → R)
    (nth_element : Nat → (DataPoint R → DataPoint R → Bool) → List (DataPoint R) → Nat →
      List (DataPoint R))
    (hsqrt : Monotone sqrt) (hu : UnifRandOk unif_rand) (hnth : NthElementOk nth_element)
    (lower upper pos : Nat) (t : VpTree R) (rng : Nat)
    (h1 : lower + 2 ≤ upper) (h2 : upper ≤ t.items.length) (nd : Node R)
    (hpos : t.nodes[pos]? = some nd) :
    ∃ items2 thr p,
      buildFromPoints_partition sqrt unif_rand nth_element lower upper pos t rng =
        .ok { t with items := items2, nodes := t.nodes.set pos { nd with threshold := thr } } ∧
      items2.length = t.items.length ∧
      (∀ j, j < lower ∨ upper ≤ j → items2[j]? = t.items[j]?) ∧
      (seg items2 lower upper).Perm (seg t.items lower upper) ∧
      items2[lower]? = some p ∧
      (∀ j x, lower + 1 ≤ j → j < (upper + lower) / 2 → items2[j]? = some x →
        sqrt (euclidean_dist2 p.ptr x.ptr t.ndim) ≤ thr) ∧
      (∀ j x, (upper + lower) / 2 ≤ j → j < upper → items2[j]? = some x →
        thr ≤ sqrt (euclidean_dist2 p.ptr x.ptr t.ndim)) := by
  obtain ⟨hs0, hs1⟩ := static_cast_int_bounds (unif_rand rng) (hu rng).1 (hu rng).2
    (upper - lower - 1) (by omega)
  generalize hs : static_cast_int (unif_rand rng * (((upper - lower - 1 : Nat) : Int) : R)) = s
    at hs0 hs1
  obtain ⟨i, hi⟩ : ∃ i : Nat, s + (lower : Int) = (i : Int) := ⟨(s + lower).toNat, by omega⟩
  have hil : lower ≤ i := by omega
  have hiu : i + 1 < upper := by omega
  obtain ⟨a, ha⟩ := exists_getElem? t.items lower (by omega)
  obtain ⟨b, hb⟩ := exists_getElem? t.items i (by omega)
  have hb' : at? t.items (s + (lower : Int)) = some b := by
    rw [hi]; simp [at?, hb]
  set items1 := (t.items.set lower b).set i a with hitems1
  have hlen1 : items1.length = t.items.length := by simp [hitems1]
  have hperm1 : items1.Perm t.items := swap_perm _ _ _ _ _ ha hb
  have hout1 : ∀ j, j < lower ∨ upper ≤ j → items1[j]? = t.items[j]? := by
    intro j hj
    exact getElem?_swap_of_ne _ _ _ _ _ _ (by omega) (by omega)
  obtain ⟨pivot, hpiv⟩ := exists_getElem? items1 lower (by omega)
  have hseglen : (seg items1 (lower + 1) upper).length = upper - (lower + 1) :=
    length_seg _ _ _ (by omega)
  have hmed1 : lower + 1 ≤ (upper + lower) / 2 := by omega
  have hmed2 : (upper + lower) / 2 < upper := by omega
  obtain ⟨hpo, hpart⟩ := hnth rng pivot t.ndim (seg items1 (lower + 1) upper)
    ((upper + lower) / 2 - (lower + 1)) (by omega)
  set out := nth_element rng (DistanceComparator pivot t.ndim) (seg items1 (lower + 1) upper)
    ((upper + lower) / 2 - (lower + 1)) with hout
  have holen : out.length = upper - (lower + 1) := by rw [hpo.length_eq, hseglen]
  set items2 := items1.take (lower + 1) ++ out ++ items1.drop upper with hitems2
  have hget2 : ∀ n, items2[n]? =
      if n < lower + 1 then items1[n]? else if n < upper then out[n - (lower + 1)]?
      else items1[n]? :=
    fun n => getElem?_splice items1 out (lower + 1) upper n (by omega) (by omega) holen
  have hlen2 : items2.length = items1.length :=
    length_splice items1 out (lower + 1) upper (by omega) (by omega) holen
  have hp2 : items2[lower]? = some pivot := by rw [hget2, if_pos (by omega), hpiv]
  obtain ⟨m, hm⟩ := exists_getElem? out ((upper + lower) / 2 - (lower + 1)) (by omega)
  have hm2 : items2[(upper + lower) / 2]? = some m := by
    rw [hget2, if_neg (by omega), if_pos (by omega), hm]
  have hperm2 : items2.Perm items1 := by
    apply perm_of_seg_perm (lower + 1) (upper) (by omega)
    · rw [hitems2, seg_splice items1 out (lower + 1) upper (by omega) (by omega) holen]
      exact hpo
    · intro j hj
      rw [hget2]
      rcases hj with hj | hj
      · rw [if_pos hj]
      · rw [if_neg (by omega), if_neg (by omega)]
  have hout2 : ∀ j, j < lower ∨ upper ≤ j → items2[j]? = t.items[j]? := by
    intro j hj
    rw [hget2, ← hout1 j hj]
    rcases hj with hj | hj
    · rw [if_pos (by omega)]
    · rw [if_neg (by omega), if_neg (by omega)]
  refine ⟨items2, sqrt (euclidean_dist2 pivot.ptr m.ptr t.ndim), pivot, ?_, ?_, hout2, ?_, hp2,
    ?_, ?_⟩
  · unfold buildFromPoints_partition
    simp only [hs, ha, hb']
    rw [hi]
    simp only [Int.toNat_ofNat]
    rw [← hitems1, if_neg (by omega)]
    simp only [hpiv]
    rw [← hout, ← hitems2]
    simp only [hp2, hm2]
    rw [modifyNode_eq _ _ _ _ hpos]
  · rw [hlen2, hlen1]
  · exact seg_perm_of_perm (by omega) (hperm2.trans hperm1) hout2
  · intro j x hj1 hj2 hx
    rw [hget2, if_neg (by omega), if_pos (by omega)] at hx
    have := hpart (j - (lower + 1)) ((upper + lower) / 2 - (lower + 1)) x m (by omega) le_rfl hx hm
    simp only [DistanceComparator, decide_eq_false_iff_not, not_lt] at this
    exact hsqrt this
  · intro j x hj1 hj2 hx
    rw [hget2, if_neg (by omega), if_pos (by omega)] at hx
    have := hpart ((upper + lower) / 2 - (lower + 1)) (j - (lower + 1)) m x le_rfl (by omega) hm hx
    simp only [DistanceComparator, decide_eq_false_iff_not, not_lt] at this
    exact hsqrt this

omit [FloorRing R] in
theorem Built.congr {sqrt : R → R} {ndim : Nat} {nodes nodes1 : List (Node R)}
    {items items1 : List (DataPoint R)} {c : Int} {lo hi : Nat}
    (h : Built sqrt ndim nodes items c lo hi)
    (hn : ∀ j, lo ≤ j → j < hi → nodes1[j]? = nodes[j]?)
    (hi1 : ∀ j, lo ≤ j → j < hi → items1[j]? = items[j]?) :
    Built sqrt ndim nodes1 items1 c lo hi := by
  induction h with
  | leaf lo => exact Built.leaf lo
  | single lo nd p h1 h2 h3 h4 h5 h6 =>
    exact Built.single lo nd p ((hn lo le_rfl (by omega)).trans h1) h2 h3 h4 h5
      ((hi1 lo le_rfl (by omega)).trans h6)
  | node lo hi nd p h1 h2 h3 h4 hl hr hle hge ihl ihr =>
    refine Built.node lo hi nd p h1 ((hn lo le_rfl (by omega)).trans h2) h3
      ((hi1 lo le_rfl (by omega)).trans h4) ?_ ?_ ?_ ?_
    · exact ihl (fun j a b => hn j (by omega) (by omega)) (fun j a b => hi1 j (by omega) (by omega))
    · exact ihr (fun j a b => hn j (by omega) (by omega)) (fun j a b => hi1 j (by omega) (by omega))
    · intro j x a b hx
      exact hle j x a b ((hi1 j (by omega) (by omega)).symm.trans hx)
    · intro j x a b hx
      exact hge j x a b ((hi1 j (by omega) (by omega)).symm.trans hx)

theorem buildFromPoints_spec (sqrt : R → R) (unif_rand : Nat → R)
    (nth_element : Nat → (DataPoint R → DataPoint R → Bool) → List (DataPoint R) → Nat →
      List (DataPoint R))
    (hsqrt : Monotone sqrt) (hu : UnifRandOk unif_rand) (hnth : NthElementOk nth_element) :
    ∀ (fuel lower upper : Nat) (t : VpTree R) (rng : Nat), lower ≤ upper →
      upper ≤ t.items.length → t.nodes.length = lower → upper - lower < fuel →
      ∃ c t1 rng1,
        buildFromPoints sqrt unif_rand nth_element fuel lower upper (t, rng) = .ok (c, (t1, rng1)) ∧
        BuildPost sqrt t lower upper c t1 := by
  intro fuel
  induction fuel with
  | zero => intro lower upper t rng h1 h2 h3 h4; omega
  | succ fuel ih =>
    intro lower upper t rng h1 h2 h3 h4
    unfold buildFromPoints
    simp only [h3]
    by_cases he : upper = lower
    · subst he
      refine ⟨LEAF_MARKER, t, rng, by simp, ?_⟩
      exact { reference := rfl, ndim := rfl, tau := rfl, nearest := rfl, neighbors := rfl,
              distances := rfl, items_length := rfl, items_out := fun _ _ => rfl,
              items_perm := List.Perm.refl _, nodes_length := h3, nodes_old := fun _ _ => rfl,
              root := by simp, built := Built.leaf _ }
    · simp only [if_neg he]
      by_cases hgt : upper - lower > 1
      · simp only [if_pos hgt]
        have hpos : (t.nodes ++ [(Node.ofIndex (lower : Int) : Node R)])[lower]? =
            some (Node.ofIndex (lower : Int)) := by simp [← h3]
        obtain ⟨items2, thr, p, hpart, hlen2, hout2, hperm2, hp2, hle, hge⟩ :=
          buildFromPoints_partition_spec sqrt unif_rand nth_element hsqrt hu hnth lower upper
            lower { t with nodes := t.nodes ++ [Node.ofIndex (lower : Int)] } rng
            (by omega) h2 _ hpos
        simp only [hpart]
        simp only at hlen2 hout2 hperm2 hle hge
        set nd1 : Node R := { (Node.ofIndex (lower : Int) : Node R) with threshold := thr }
          with hnd1
        set nodes2 := (t.nodes ++ [Node.ofIndex (lower : Int)]).set lower nd1 with hnodes2
        set t2 : VpTree R := { t with items := items2, nodes := nodes2 } with ht2
        have hn2 : t2.nodes[lower]? = some nd1 := by
          simp [ht2, hnodes2, h3, List.getElem?_set]
        obtain ⟨l, t3, rng3, hl, post3⟩ := ih (lower + 1) ((upper + lower) / 2) t2 (rng + 1)
          (by omega) (by simp only [ht2]; omega) (by simp [ht2, hnodes2, h3]) (by omega)
        simp only [hl]
        have hn3 : t3.nodes[lower]? = some nd1 := by
          rw [post3.nodes_old lower (by omega), hn2]
        rw [modifyNode_eq _ _ _ _ hn3]
        set nd2 : Node R := { nd1 with left := l } with hnd2
        set t4 : VpTree R := { t3 with nodes := t3.nodes.set lower nd2 } with ht4
        have hlen3 := post3.nodes_length
        have hn4 : t4.nodes[lower]? = some nd2 := by
          simp [ht4, List.getElem?_set, hlen3]
          omega
        obtain ⟨r, t5, rng5, hr, post5⟩ := ih ((upper + lower) / 2) upper t4 rng3
          (by omega) (by simp only [ht4, post3.items_length, ht2, hlen2]; omega)
          (by simp [ht4, hlen3]) (by omega)
        simp only [hr]
        have hn5 : t5.nodes[lower]? = some nd2 := by
          rw [post5.nodes_old lower (by omega), hn4]
        rw [modifyNode_eq _ _ _ _ hn5]
        set nd3 : Node R := { nd2 with right := r } with hnd3
        refine ⟨_, _, _, rfl, ?_⟩
        have hlen5 := post5.nodes_length
        have hi53 : ∀ j, j < (upper + lower) / 2 → t5.items[j]? = t3.items[j]? := fun j hj =>
          post5.items_out j (Or.inl hj)
        have hi32 : ∀ j, j < lower + 1 ∨ (upper + lower) / 2 ≤ j → t3.items[j]? = items2[j]? :=
          fun j hj => post3.items_out j hj
        have hp3 : t3.items.Perm items2 :=
          perm_of_seg_perm (lower + 1) ((upper + lower) / 2) (by omega)
            post3.items_perm post3.items_out
        have hp5 : t5.items.Perm t3.items :=
          perm_of_seg_perm ((upper + lower) / 2) (upper) (by omega)
            post5.items_perm post5.items_out
        have hp2' : items2.Perm t.items :=
          perm_of_seg_perm (lower) (upper) (by omega) hperm2 hout2
        have hout5 : ∀ j, j < lower ∨ upper ≤ j → t5.items[j]? = t.items[j]? := by
          intro j hj
          rw [post5.items_out j (by omega)]
          show t3.items[j]? = _
          rw [post3.items_out j (by omega)]
          exact hout2 j hj
        exact {
          reference := by rw [show _ = t5.reference from rfl, post5.reference]
                          show t3.reference = _
                          rw [post3.reference]
          ndim := by rw [show _ = t5.ndim from rfl, post5.ndim]
                     show t3.ndim = _
                     rw [post3.ndim]
          tau := by rw [show _ = t5.tau from rfl, post5.tau]
                    show t3.tau = _
                    rw [post3.tau]
          nearest := by rw [show _ = t5.nearest from rfl, post5.nearest]
                        show t3.nearest = _
                        rw [post3.nearest]
          neighbors := by rw [show _ = t5.neighbors from rfl, post5.neighbors]
                          show t3.neighbors = _
                          rw [post3.neighbors]
          distances := by rw [show _ = t5.distances from rfl, post5.distances]
                          show t3.distances = _
                          rw [post3.distances]
          items_length := by
            show t5.items.length = _
            rw [post5.items_length]
            show t3.items.length = _
            rw [post3.items_length]
            exact hlen2
          items_out := hout5
          items_perm := seg_perm_of_perm (by omega) ((hp5.trans hp3).trans hp2') hout5
          nodes_length := by simp [hlen5]
          nodes_old := by
            intro j hj
            show (t5.nodes.set lower nd3)[j]? = _
            rw [List.getElem?_set, if_neg (by omega), post5.nodes_old j (by omega)]
            show (t3.nodes.set lower nd2)[j]? = _
            rw [List.getElem?_set, if_neg (by omega), post3.nodes_old j (by omega)]
            show ((t.nodes ++ [Node.ofIndex (lower : Int)]).set lower nd1)[j]? = _
            rw [List.getElem?_set, if_neg (by omega), List.getElem?_append_left (by omega)]
          root := by rw [if_neg (by omega)]
          built := by
            refine Built.node lower upper nd3 p (by omega) ?_ rfl ?_ ?_ ?_ ?_ ?_
            · show (t5.nodes.set lower nd3)[lower]? = _
              rw [List.getElem?_set, if_pos rfl, if_pos (by omega)]
            · show t5.items[lower]? = _
              rw [hi53 lower (by omega), hi32 lower (by omega), hp2]
            · have hb := post3.built
              refine hb.congr ?_ ?_
              · intro j hj1 hj2
                show (t5.nodes.set lower nd3)[j]? = _
                rw [List.getElem?_set, if_neg (by omega), post5.nodes_old j (by omega)]
                show (t3.nodes.set lower nd2)[j]? = _
                rw [List.getElem?_set, if_neg (by omega)]
              · intro j hj1 hj2
                exact hi53 j hj2
            · have hb := post5.built
              rw [show t4.ndim = t.ndim from post3.ndim] at hb
              refine hb.congr ?_ ?_
              · intro j hj1 hj2
                show (t5.nodes.set lower nd3)[j]? = _
                rw [List.getElem?_set, if_neg (by omega)]
              · intro j hj1 hj2
                rfl
            · intro j x hj1 hj2 hx
              have hx3 : t3.items[j]? = some x := by rw [← hi53 j hj2]; exact hx
              have hmem : x ∈ seg t3.items (lower + 1) ((upper + lower) / 2) :=
                mem_seg.2 ⟨j, hj1, hj2, hx3⟩
              obtain ⟨j2, h5, h6, h7⟩ := mem_seg.1 (post3.items_perm.mem_iff.1 hmem)
              exact hle j2 x h5 h6 h7
            · intro j x hj1 hj2 hx
              have hmem : x ∈ seg t5.items ((upper + lower) / 2) upper :=
                mem_seg.2 ⟨j, hj1, hj2, hx⟩
              obtain ⟨j2, h5, h6, h7⟩ := mem_seg.1 (post5.items_perm.mem_iff.1 hmem)
              have h8 : items2[j2]? = some x := by rw [← hi32 j2 (by omega)]; exact h7
              exact hge j2 x h5 h6 h8 }
      · simp only [if_neg hgt]
        obtain ⟨p, hp⟩ := exists_getElem? t.items lower (by omega)
        refine ⟨_, _, _, rfl, ?_⟩
        have hul : upper = lower + 1 := by omega
        subst hul
        exact { reference := rfl, ndim := rfl, tau := rfl, nearest := rfl, neighbors := rfl,
                distances := rfl, items_length := rfl, items_out := fun _ _ => rfl,
                items_perm := List.Perm.refl _, nodes_length := by simp [h3],
                nodes_old := fun j hj => List.getElem?_append_left (by omega),
                root := by rw [if_neg (by omega)],
                built := Built.single lower (Node.ofIndex (lower : Int)) p (by simp [← h3]) rfl
                  rfl rfl rfl hp }

end Build

end Kmknn

namespace Kmknn

/-! ## Search -/

section Search

variable {R : Type} [LinearOrderedCommRing R]

theorem pairGe_total (a b : R × Int) : pairGe a b ∨ pairGe b a := by
  unfold pairGe
  rcases lt_trichotomy a.1 b.1 with h | h | h
  · exact Or.inr (Or.inl h)
  · rcases le_total a.2 b.2 with h2 | h2
    · exact Or.inr (Or.inr ⟨h, h2⟩)
    · exact Or.inl (Or.inr ⟨h.symm, h2⟩)
  · exact Or.inl (Or.inl h)

theorem pairGe_trans (a b c : R × Int) (h1 : pairGe a b) (h2 : pairGe b c) : pairGe a c := by
  unfold pairGe at *
  rcases h1 with h1 | ⟨h1, h1'⟩ <;> rcases h2 with h2 | ⟨h2, h2'⟩
  · exact Or.inl (h2.trans h1)
  · exact Or.inl (h2 ▸ h1)
  · exact Or.inl (h1 ▸ h2)
  · exact Or.inr ⟨h2.trans h1, h2'.trans h1'⟩

instance pairGe_isTotal : IsTotal (R × Int) pairGe := ⟨pairGe_total⟩

instance pairGe_isTrans : IsTrans (R × Int) pairGe := ⟨pairGe_trans⟩

theorem pairGe_fst {a b : R × Int} (h : pairGe a b) : b.1 ≤ a.1 := by
  rcases h with h | ⟨h, _⟩
  · exact h.le
  · exact h.le

theorem sorted_head_fst {e : R × Int} {q : List (R × Int)} (h : (e :: q).Sorted pairGe)
    (x : R × Int) (hx : x ∈ e :: q) : x.1 ≤ e.1 := by
  rcases List.mem_cons.1 hx with rfl | hx
  · exact le_rfl
  · exact pairGe_fst (List.rel_of_sorted_cons h x hx)

theorem SearchInv.perm {k : Int} {DBL_MAX : R} {S S1 : List (R × Int)} {tau : R}
    {Q : List (R × Int)} (h : SearchInv k DBL_MAX S tau Q) (hp : S1.Perm S) :
    SearchInv k DBL_MAX S1 tau Q := by
  obtain ⟨rest, h1, h2, h3⟩ := h.rest
  exact { sorted := h.sorted, top := h.top, notfull := h.notfull, le_tau := h.le_tau,
          rest := ⟨rest, hp.trans h1, h2, h3⟩ }

/-- Candidates that are farther than `tau` can be left out. -/
theorem SearchInv.skip {k : Int} {DBL_MAX : R} {S P : List (R × Int)} {tau : R}
    {Q : List (R × Int)} (h : SearchInv k DBL_MAX S tau Q)
    (hP : ∀ e ∈ P, tau ≤ e.1 ∧ e.1 < DBL_MAX) : SearchInv k DBL_MAX (S ++ P) tau Q := by
  obtain ⟨rest, h1, h2, h3⟩ := h.rest
  refine { sorted := h.sorted, top := h.top, notfull := h.notfull, le_tau := h.le_tau,
           rest := ⟨rest ++ P, ?_, ?_, ?_⟩ }
  · rw [← List.append_assoc]
    exact h1.append_right P
  · intro hne
    by_contra hk
    obtain ⟨ht, _⟩ := h.notfull hk
    cases P with
    | nil => exact hk (h2 (by simpa using hne))
    | cons e P =>
      obtain ⟨h4, h5⟩ := hP e (List.mem_cons_self _ _)
      rw [ht] at h4
      exact absurd h5 (not_lt.2 h4)
  · intro r hr
    rcases List.mem_append.1 hr with hr | hr
    · exact h3 r hr
    · exact (hP r hr).1

/-- The step of `search` at one node: the body of `if (dist < tau)`, or nothing. -/
theorem search_within_tau_spec {k : Int} {DBL_MAX : R} (hk : 1 ≤ k) {S : List (R × Int)}
    (t : VpTree R) (h : SearchInv k DBL_MAX S t.tau t.nearest) (d : R) (j : Int)
    (hd : d < DBL_MAX) :
    ∃ tau1 Q1, (if d < t.tau then search_within_tau d j k t else .ok t) =
        .ok { t with tau := tau1, nearest := Q1 } ∧
      SearchInv k DBL_MAX (S ++ [(d, j)]) tau1 Q1 ∧ tau1 ≤ t.tau := by
  obtain ⟨rest, hr1, hr2, hr3⟩ := h.rest
  by_cases hlt : d < t.tau
  · rw [if_pos hlt]
    unfold search_within_tau
    by_cases hfull : (t.nearest.length : Int) = k
    · obtain ⟨e, Q, hQ, htau⟩ := h.top hfull
      have hs : (e :: Q).Sorted pairGe := hQ ▸ h.sorted
      have hsQ : Q.Sorted pairGe := hs.of_cons
      have hfull1 : ((e :: Q).length : Int) = k := hQ ▸ hfull
      have hlen : ((pq_push (d, j) Q).length : Int) = k := by
        rw [pq_push, List.orderedInsert_length, ← hfull, hQ]
        simp
      simp only [hQ, hfull1, if_true, hlen]
      have hs1 : (pq_push (d, j) Q).Sorted pairGe := hsQ.orderedInsert _ _
      have hp1 : (pq_push (d, j) Q).Perm ((d, j) :: Q) := List.perm_orderedInsert _ _ _
      cases hq1 : pq_push (d, j) Q with
      | nil => rw [hq1] at hlen; simp at hlen; omega
      | cons e1 Q1 =>
        rw [hq1] at hs1 hp1
        have he1 : e1.1 ≤ t.tau := by
          have : e1 ∈ (d, j) :: Q := hp1.mem_iff.1 (List.mem_cons_self _ _)
          rcases List.mem_cons.1 this with rfl | hm
          · exact hlt.le
          · exact h.le_tau e1 (hQ ▸ List.mem_cons_of_mem _ hm)
        refine ⟨e1.1, e1 :: Q1, rfl, ?_, he1⟩
        refine { sorted := hs1, top := fun _ => ⟨e1, Q1, rfl, rfl⟩,
                 notfull := fun hne => absurd (hq1 ▸ hlen) hne,
                 le_tau := sorted_head_fst hs1, rest := ⟨e :: rest, ?_, fun _ => hq1 ▸ hlen, ?_⟩ }
        · have h1 : (S ++ [(d, j)]).Perm ((d, j) :: S) := List.perm_append_singleton _ _
          have h2 : ((d, j) :: S).Perm ((d, j) :: (e :: Q ++ rest)) := (hQ ▸ hr1).cons _
          have h3 : ((d, j) :: (e :: Q ++ rest)).Perm (((d, j) :: Q) ++ e :: rest) := by
            simp only [List.cons_append]
            exact (List.Perm.swap _ _ _).trans
              ((@List.perm_middle _ e ((d, j) :: Q) rest).symm)
          exact (h1.trans (h2.trans h3)).trans (hp1.symm.append_right _)
        · intro r hr
          rcases List.mem_cons.1 hr with rfl | hr
          · rw [← htau]; exact he1
          · exact he1.trans (hr3 r hr)
    · obtain ⟨htau, hlen⟩ := h.notfull hfull
      have hrest : rest = [] := by
        by_contra hne
        exact hfull (hr2 hne)
      subst hrest
      simp only [hfull, if_false]
      have hs1 : (pq_push (d, j) t.nearest).Sorted pairGe := h.sorted.orderedInsert _ _
      have hp1 : (pq_push (d, j) t.nearest).Perm ((d, j) :: t.nearest) :=
        List.perm_orderedInsert _ _ _
      have hl1 : (pq_push (d, j) t.nearest).length = t.nearest.length + 1 :=
        List.orderedInsert_length _ _ _
      have hperm : (S ++ [(d, j)]).Perm (pq_push (d, j) t.nearest ++ []) := by
        rw [List.append_nil]
        refine (List.perm_append_singleton _ _).trans (List.Perm.trans ?_ hp1.symm)
        exact (by simpa using hr1 : S.Perm t.nearest).cons _
      by_cases hfull1 : ((pq_push (d, j) t.nearest).length : Int) = k
      · simp only [hfull1, if_true]
        cases hq1 : pq_push (d, j) t.nearest with
        | nil => rw [hq1] at hl1; simp at hl1
        | cons e1 Q1 =>
          rw [hq1] at hs1 hp1 hperm
          have he1 : e1.1 ≤ t.tau := by
            have : e1 ∈ (d, j) :: t.nearest := hp1.mem_iff.1 (List.mem_cons_self _ _)
            rcases List.mem_cons.1 this with rfl | hm
            · exact hlt.le
            · exact h.le_tau e1 hm
          refine ⟨e1.1, e1 :: Q1, rfl, ?_, he1⟩
          exact { sorted := hs1, top := fun _ => ⟨e1, Q1, rfl, rfl⟩,
                  notfull := fun hne => absurd (hq1 ▸ hfull1) hne,
                  le_tau := sorted_head_fst hs1,
                  rest := ⟨[], hperm, fun hne => absurd rfl hne, fun r hr => by simp at hr⟩ }
      · simp only [hfull1, if_false]
        refine ⟨t.tau, pq_push (d, j) t.nearest, rfl, ?_, le_rfl⟩
        refine { sorted := hs1, top := fun hc => absurd hc hfull1,
                 notfull := fun _ => ⟨htau, ?_⟩, le_tau := ?_,
                 rest := ⟨[], hperm, fun hne => absurd rfl hne, fun r hr => by simp at hr⟩ }
        · rw [hl1] at hfull1 ⊢
          push_cast at hfull1 ⊢
          omega
        · intro x hx
          rcases List.mem_cons.1 (hp1.mem_iff.1 hx) with rfl | hm
          · exact hlt.le
          · exact h.le_tau x hm
  · rw [if_neg hlt]
    refine ⟨t.tau, t.nearest, rfl, ?_, le_rfl⟩
    exact h.skip (fun e he => by
      rw [List.mem_singleton] at he
      subst he
      exact ⟨not_lt.1 hlt, hd⟩)

theorem euclidean_dist2_loop_comm : ∀ (d : Nat) (x y : List R) (acc : R),
    euclidean_dist2_loop d x y acc = euclidean_dist2_loop d y x acc
  | 0, _, _, _ => rfl
  | d + 1, x, y, acc => by
    simp only [euclidean_dist2_loop]
    rw [euclidean_dist2_loop_comm d x.tail y.tail]
    congr 1
    ring

theorem euclidean_dist2_comm (x y : List R) (d : Nat) :
    euclidean_dist2 x y d = euclidean_dist2 y x d :=
  euclidean_dist2_loop_comm d x y 0

omit [LinearOrderedCommRing R] in
theorem at?_natCast {α : Type} (v : List α) (i : Nat) : at? v (i : Int) = v[i]? := by
  simp [at?]

omit [LinearOrderedCommRing R] in
theorem natCast_ne_LEAF_MARKER (i : Nat) : (i : Int) ≠ LEAF_MARKER := by
  unfold LEAF_MARKER
  omega

theorem getElem?_candidates (sqrt : R → R) (ndim : Nat) (items : List (DataPoint R))
    (target : List R) (j : Nat) :
    (candidates sqrt ndim items target)[j]? =
      items[j]?.map (fun x => (sqrt (euclidean_dist2 x.ptr target ndim), (j : Int))) := by
  simp only [candidates, List.getElem?_map, List.getElem?_enum, Option.map_map]
  rfl

omit [LinearOrderedCommRing R] in
theorem seg_self {α : Type} (l : List α) (lo : Nat) : seg l lo lo = [] := by
  simp [seg]

omit [LinearOrderedCommRing R] in
theorem seg_single {α : Type} (l : List α) (lo : Nat) (x : α) (h : l[lo]? = some x) :
    seg l lo (lo + 1) = [x] := by
  apply List.ext_getElem?
  intro n
  rw [getElem?_seg]
  cases n with
  | zero => simpa using h
  | succ n => simp

omit [LinearOrderedCommRing R] in
theorem length_seg_le {α : Type} (l : List α) (lo hi : Nat) :
    (seg l lo hi).length ≤ hi - lo ∧ (seg l lo hi).length ≤ l.length - lo := by
  simp only [seg, List.length_take, List.length_drop]
  exact ⟨Nat.min_le_left _ _, Nat.min_le_right _ _⟩

omit [LinearOrderedCommRing R] in
theorem seg_split {α : Type} (l : List α) (lo m hi : Nat) (h1 : lo ≤ m) (h2 : m ≤ hi)
    (h3 : hi ≤ l.length) : seg l lo hi = seg l lo m ++ seg l m hi := by
  apply List.ext_getElem?
  intro n
  by_cases hl : l.length ≤ lo + n
  · have e1 : (seg l lo hi)[n]? = none := by
      rw [getElem?_seg]
      split
      · exact List.getElem?_eq_none hl
      · rfl
    have e2 : (seg l lo m ++ seg l m hi)[n]? = none := by
      apply List.getElem?_eq_none
      rw [List.length_append]
      have b1 := length_seg_le l lo m
      have b2 := length_seg_le l m hi
      omega
    rw [e1, e2]
  · have hlen : (seg l lo m).length = m - lo := by
      have b1 := length_seg_le l lo m
      have b2 : m - lo ≤ (seg l lo m).length := by
        simp only [seg, List.length_take, List.length_drop]
        exact Nat.le_min.2 ⟨le_rfl, by omega⟩
      omega
    rw [List.getElem?_append, hlen, getElem?_seg, getElem?_seg, getElem?_seg]
    by_cases h3 : n < m - lo
    · rw [if_pos h3, if_pos h3, if_pos (by omega)]
    · rw [if_neg h3]
      by_cases h4 : n < hi - lo
      · rw [if_pos h4, if_pos (by omega)]
        congr 1
        omega
      · rw [if_neg h4, if_neg (by omega)]

theorem Built.root_eq {sqrt : R → R} {ndim : Nat} {nodes : List (Node R)}
    {items : List (DataPoint R)} {c : Int} {lo hi : Nat}
    (h : Built sqrt ndim nodes items c lo hi) :
    lo ≤ hi ∧ c = if lo = hi then LEAF_MARKER else (lo : Int) := by
  cases h with
  | leaf => simp
  | single => simp
  | node _ _ _ _ h1 => exact ⟨by omega, by rw [if_neg (by omega)]⟩

theorem Built.le_length {sqrt : R → R} {ndim : Nat} {nodes : List (Node R)}
    {items : List (DataPoint R)} {c : Int} {lo hi : Nat}
    (h : Built sqrt ndim nodes items c lo hi) : lo < hi → hi ≤ items.length := by
  induction h with
  | leaf lo => intro h; omega
  | single lo nd p _ _ _ _ _ h6 =>
    intro _
    by_contra hc
    rw [List.getElem?_eq_none (by omega)] at h6
    cases h6
  | node lo hi nd p h1 _ _ _ _ _ _ _ _ ihr => intro _; exact ihr (by omega)

theorem mem_seg_candidates {sqrt : R → R} {ndim : Nat} {items : List (DataPoint R)}
    {target : List R} {lo hi : Nat} {e : R × Int}
    (h : e ∈ seg (candidates sqrt ndim items target) lo hi) :
    ∃ j x, lo ≤ j ∧ j < hi ∧ items[j]? = some x ∧
      e = (sqrt (euclidean_dist2 x.ptr target ndim), (j : Int)) := by
  obtain ⟨j, h1, h2, h3⟩ := mem_seg.1 h
  rw [getElem?_candidates] at h3
  cases hx : items[j]? with
  | none => rw [hx] at h3; cases h3
  | some x =>
    rw [hx] at h3
    exact ⟨j, x, h1, h2, hx, by simpa using h3.symm⟩

/-- One of the two guarded recursive calls of `search`: the subtree is searched, or skipped when
none of its candidates is nearer than `tau`. -/
theorem search_child (sqrt : R → R) (target : List R) (k : Int) (DBL_MAX : R)
    (cond : Prop) [Decidable cond] (child : Int) (fuel : Nat) (P : List (R × Int))
    (t : VpTree R) (S : List (R × Int)) (hinv : SearchInv k DBL_MAX S t.tau t.nearest)
    (ih : ∃ tau1 Q1, search sqrt fuel child target k t = .ok { t with tau := tau1, nearest := Q1 } ∧
        SearchInv k DBL_MAX (S ++ P) tau1 Q1 ∧ tau1 ≤ t.tau)
    (hP : ∀ e ∈ P, e.1 < DBL_MAX)
    (hprune : ¬cond → ∀ e ∈ P, t.tau ≤ e.1) :
    ∃ tau1 Q1, (if cond then search sqrt fuel child target k t else .ok t) =
        .ok { t with tau := tau1, nearest := Q1 } ∧
      SearchInv k DBL_MAX (S ++ P) tau1 Q1 ∧ tau1 ≤ t.tau := by
  by_cases hc : cond
  · rw [if_pos hc]
    exact ih
  · rw [if_neg hc]
    exact ⟨t.tau, t.nearest, rfl, hinv.skip (fun e he => ⟨hprune hc e he, hP e he⟩), le_rfl⟩

/-- A call of `search` on a subtree left by `buildFromPoints` returns, and deals with every
candidate of the subtree; `tau` does not grow. -/
theorem search_spec (sqrt : R → R) (target : List R) (k : Int) (DBL_MAX : R)
    (hk : 1 ≤ k) (t : VpTree R)
    (htri : ∀ x y z : List R, sqrt (euclidean_dist2 x z t.ndim) ≤
      sqrt (euclidean_dist2 x y t.ndim) + sqrt (euclidean_dist2 y z t.ndim))
    {c : Int} {lo hi : Nat}
    (hb : Built sqrt t.ndim t.nodes t.items c lo hi)
    (hmax : ∀ e ∈ candidates sqrt t.ndim t.items target, e.1 < DBL_MAX) :
    ∀ (fuel : Nat) (tau : R) (Q S : List (R × Int)), hi - lo < fuel →
      SearchInv k DBL_MAX S tau Q →
      ∃ tau1 Q1, search sqrt fuel c target k { t with tau := tau, nearest := Q } =
          .ok { t with tau := tau1, nearest := Q1 } ∧
        SearchInv k DBL_MAX (S ++ seg (candidates sqrt t.ndim t.items target) lo hi) tau1 Q1 ∧
        tau1 ≤ tau := by
  have hmaxseg : ∀ a b, ∀ e ∈ seg (candidates sqrt t.ndim t.items target) a b,
      e.1 < DBL_MAX := by
    intro a b e he
    obtain ⟨j, _, _, h3⟩ := mem_seg.1 he
    exact hmax e (List.mem_iff_getElem?.2 ⟨j, h3⟩)
  induction hb with
  | leaf lo =>
    intro fuel tau Q S hf hinv
    cases fuel with
    | zero => omega
    | succ fuel =>
      refine ⟨tau, Q, ?_, ?_, le_rfl⟩
      · simp only [search, if_true]
      · rw [seg_self, List.append_nil]
        exact hinv
  | single lo nd p h1 h2 h3 h4 h5 h6 =>
    intro fuel tau Q S hf hinv
    cases fuel with
    | zero => omega
    | succ fuel =>
      have hcand : (candidates sqrt t.ndim t.items target)[lo]? =
          some (sqrt (euclidean_dist2 p.ptr target t.ndim), (lo : Int)) := by
        rw [getElem?_candidates, h6]; rfl
      have hdm : sqrt (euclidean_dist2 p.ptr target t.ndim) < DBL_MAX :=
        hmax _ (List.mem_iff_getElem?.2 ⟨lo, hcand⟩)
      obtain ⟨tau1, Q1, hv, hinv1, hle1⟩ := search_within_tau_spec hk
        { t with tau := tau, nearest := Q } hinv _ (lo : Int) hdm
      dsimp only at hv
      refine ⟨tau1, Q1, ?_, ?_, hle1⟩
      · simp only [search, if_neg (natCast_ne_LEAF_MARKER lo), at?_natCast, h1, h2, h6,
          hv, h3, h4, and_self, if_true]
      · rw [seg_single _ _ _ hcand]
        exact hinv1
  | node lo hi nd p h1 h2 h3 h4 hl hr hle hge ihl ihr =>
    intro fuel tau Q S hf hinv
    cases fuel with
    | zero => omega
    | succ fuel =>
      have hlen : hi ≤ t.items.length := hr.le_length (by omega)
      have hcand : (candidates sqrt t.ndim t.items target)[lo]? =
          some (sqrt (euclidean_dist2 p.ptr target t.ndim), (lo : Int)) := by
        rw [getElem?_candidates, h4]; rfl
      have hdm : sqrt (euclidean_dist2 p.ptr target t.ndim) < DBL_MAX :=
        hmax _ (List.mem_iff_getElem?.2 ⟨lo, hcand⟩)
      obtain ⟨tau1, Q1, hv, hinv1, hle1⟩ := search_within_tau_spec hk
        { t with tau := tau, nearest := Q } hinv _ (lo : Int) hdm
      dsimp only at hv hle1
      have hright : nd.right ≠ LEAF_MARKER := by
        rw [hr.root_eq.2, if_neg (by omega)]
        exact natCast_ne_LEAF_MARKER _
      have hseg : seg (candidates sqrt t.ndim t.items target) lo hi =
          [(sqrt (euclidean_dist2 p.ptr target t.ndim), (lo : Int))] ++
            seg (candidates sqrt t.ndim t.items target) (lo + 1) ((hi + lo) / 2) ++
            seg (candidates sqrt t.ndim t.items target) ((hi + lo) / 2) hi := by
        have hcl : hi ≤ (candidates sqrt t.ndim t.items target).length := by
          simpa [candidates] using hlen
        rw [seg_split _ lo (lo + 1) hi (by omega) (by omega) hcl, seg_single _ _ _ hcand,
          seg_split _ (lo + 1) ((hi + lo) / 2) hi (by omega) (by omega) hcl, List.append_assoc]
      have hpl : ∀ tau : R,
          ¬ (sqrt (euclidean_dist2 p.ptr target t.ndim) - tau ≤ nd.threshold) →
          ∀ e ∈ seg (candidates sqrt t.ndim t.items target) (lo + 1) ((hi + lo) / 2),
            tau ≤ e.1 := by
        intro tau hc e he
        obtain ⟨j, x, hj1, hj2, hx, rfl⟩ := mem_seg_candidates he
        have e1 := hle j x hj1 hj2 hx
        have e2 := htri p.ptr x.ptr target
        have e3 := not_le.1 hc
        show tau ≤ sqrt (euclidean_dist2 x.ptr target t.ndim)
        linarith
      have hpr : ∀ tau : R,
          ¬ (sqrt (euclidean_dist2 p.ptr target t.ndim) + tau ≥ nd.threshold) →
          ∀ e ∈ seg (candidates sqrt t.ndim t.items target) ((hi + lo) / 2) hi, tau ≤ e.1 := by
        intro tau hc e he
        obtain ⟨j, x, hj1, hj2, hx, rfl⟩ := mem_seg_candidates he
        have e1 := hge j x hj1 hj2 hx
        have e2 := htri p.ptr target x.ptr
        have e3 := not_le.1 hc
        have e4 := euclidean_dist2_comm target x.ptr t.ndim
        rw [e4] at e2
        show tau ≤ sqrt (euclidean_dist2 x.ptr target t.ndim)
        linarith
      simp only [search, if_neg (natCast_ne_LEAF_MARKER lo), at?_natCast, h2, h3, h4,
        hv, hright, and_false, if_false]
      by_cases hlt : sqrt (euclidean_dist2 p.ptr target t.ndim) < nd.threshold
      · simp only [if_pos hlt]
        obtain ⟨tau2, Q2, hs2, hinv2, hle2⟩ := search_child sqrt target k DBL_MAX
          (sqrt (euclidean_dist2 p.ptr target t.ndim) - tau1 ≤ nd.threshold) nd.left fuel _
          { t with tau := tau1, nearest := Q1 } _ hinv1
          (ihl fuel _ _ _ (by omega) hinv1) (hmaxseg _ _) (hpl tau1)
        dsimp only at hs2 hle2
        simp only [hs2]
        obtain ⟨tau3, Q3, hs3, hinv3, hle3⟩ := search_child sqrt target k DBL_MAX
          (sqrt (euclidean_dist2 p.ptr target t.ndim) + tau2 ≥ nd.threshold) nd.right fuel _
          { t with tau := tau2, nearest := Q2 } _ hinv2
          (ihr fuel _ _ _ (by omega) hinv2) (hmaxseg _ _) (hpr tau2)
        dsimp only at hs3 hle3
        refine ⟨tau3, Q3, hs3, ?_, (hle3.trans hle2).trans hle1⟩
        rw [hseg, ← List.append_assoc, ← List.append_assoc]
        exact hinv3
      · simp only [if_neg hlt]
        obtain ⟨tau2, Q2, hs2, hinv2, hle2⟩ := search_child sqrt target k DBL_MAX
          (sqrt (euclidean_dist2 p.ptr target t.ndim) + tau1 ≥ nd.threshold) nd.right fuel _
          { t with tau := tau1, nearest := Q1 } _ hinv1
          (ihr fuel _ _ _ (by omega) hinv1) (hmaxseg _ _) (hpr tau1)
        dsimp only at hs2 hle2
        simp only [hs2]
        obtain ⟨tau3, Q3, hs3, hinv3, hle3⟩ := search_child sqrt target k DBL_MAX
          (sqrt (euclidean_dist2 p.ptr target t.ndim) - tau2 ≤ nd.threshold) nd.left fuel _
          { t with tau := tau2, nearest := Q2 } _ hinv2
          (ihl fuel _ _ _ (by omega) hinv2) (hmaxseg _ _) (hpl tau2)
        dsimp only at hs3 hle3
        refine ⟨tau3, Q3, hs3, ?_, (hle3.trans hle2).trans hle1⟩
        refine hinv3.perm ?_
        rw [hseg]
        simp only [List.append_assoc]
        exact List.Perm.append_left _ (List.Perm.append_left _ List.perm_append_comm)

end Search

end Kmknn

namespace Kmknn

/-! ## The result of a search -/

section Result

variable {R : Type} [LinearOrderedCommRing R]

theorem SearchInv.at_start (k : Int) (DBL_MAX : R) (hk : 1 ≤ k) :
    SearchInv k DBL_MAX [] DBL_MAX ([] : List (R × Int)) :=
  { sorted := List.sorted_nil
    top := fun h => by simp at h; omega
    notfull := fun _ => ⟨rfl, by simp; omega⟩
    le_tau := fun e he => by simp at he
    rest := ⟨[], by simp, fun h => absurd rfl h, fun r hr => by simp at hr⟩ }

theorem SearchInv.length_le {k : Int} {DBL_MAX : R} {S : List (R × Int)} {tau : R}
    {Q : List (R × Int)} (h : SearchInv k DBL_MAX S tau Q) : (Q.length : Int) ≤ k := by
  by_cases hc : (Q.length : Int) = k
  · omega
  · exact (h.notfull hc).2.le

/-- The queue holds `min k |S|` candidates. -/
theorem SearchInv.length_eq {k : Int} {DBL_MAX : R} {S : List (R × Int)} {tau : R}
    {Q : List (R × Int)} (h : SearchInv k DBL_MAX S tau Q) :
    Q.length = min k.toNat S.length := by
  obtain ⟨rest, h1, h2, _⟩ := h.rest
  have hl := h1.length_eq
  rw [List.length_append] at hl
  have hle := h.length_le
  cases rest with
  | nil => simp at hl; omega
  | cons r rest =>
    have := h2 (by simp)
    simp at hl
    omega

/-- Drained in ascending order, the queue holds the `k` least distances of the candidates. -/
theorem SearchInv.distances_eq {k : Int} {DBL_MAX : R} {S : List (R × Int)} {tau : R}
    {Q : List (R × Int)} (h : SearchInv k DBL_MAX S tau Q) :
    (Q.reverse.map Prod.fst) =
      ((S.map Prod.fst).insertionSort (· ≤ ·)).take k.toNat := by
  obtain ⟨rest, h1, h2, h3⟩ := h.rest
  have hs1 : (Q.reverse.map Prod.fst).Sorted (· ≤ ·) := by
    rw [List.Sorted, List.pairwise_map, List.pairwise_reverse]
    exact h.sorted.imp (fun hab => pairGe_fst hab)
  have hs2 : ((rest.map Prod.fst).insertionSort (· ≤ ·)).Sorted (· ≤ ·) :=
    List.sorted_insertionSort _ _
  have hs : (Q.reverse.map Prod.fst ++ (rest.map Prod.fst).insertionSort (· ≤ ·)).Sorted
      (· ≤ ·) := by
    rw [List.Sorted, List.pairwise_append]
    refine ⟨hs1, hs2, ?_⟩
    intro a ha b hb
    obtain ⟨x, hx, rfl⟩ := List.mem_map.1 ha
    obtain ⟨y, hy, rfl⟩ := List.mem_map.1 ((List.perm_insertionSort _ _).mem_iff.1 hb)
    exact (h.le_tau x (List.mem_reverse.1 hx)).trans (h3 y hy)
  have hp : (Q.reverse.map Prod.fst ++ (rest.map Prod.fst).insertionSort (· ≤ ·)).Perm
      (S.map Prod.fst) := by
    refine List.Perm.trans ?_ (h1.map Prod.fst).symm
    rw [List.map_append]
    exact ((List.reverse_perm Q).map _).append (List.perm_insertionSort _ _)
  have he : (S.map Prod.fst).insertionSort (· ≤ ·) =
      Q.reverse.map Prod.fst ++ (rest.map Prod.fst).insertionSort (· ≤ ·) :=
    List.eq_of_perm_of_sorted ((List.perm_insertionSort _ _).trans hp.symm)
      (List.sorted_insertionSort _ _) hs
  rw [he]
  have hle := h.length_le
  cases rest with
  | nil =>
    simp only [List.map_nil, List.insertionSort, List.append_nil]
    rw [List.take_of_length_le]
    simp
    omega
  | cons r rest =>
    have hk := h2 (by simp)
    have hlen : (Q.reverse.map Prod.fst).length = k.toNat := by simp; omega
    rw [← hlen, List.take_left]

end Result

end Kmknn

namespace Kmknn

/-! ## Euclidean distance over the reals -/

section Euclid

theorem euclidean_dist2_loop_eq_sum {R : Type} [LinearOrderedCommRing R] :
    ∀ (d : Nat) (x y : List R) (acc : R),
      euclidean_dist2_loop d x y acc =
        acc + ∑ i in Finset.range d, (x.getD i 0 - y.getD i 0) ^ 2
  | 0, _, _, acc => by simp [euclidean_dist2_loop]
  | d + 1, x, y, acc => by
    rw [euclidean_dist2_loop, euclidean_dist2_loop_eq_sum d, Finset.sum_range_succ']
    have hx : ∀ i, x.tail.getD i 0 = x.getD (i + 1) 0 := by
      intro i; cases x <;> simp
    have hy : ∀ i, y.tail.getD i 0 = y.getD (i + 1) 0 := by
      intro i; cases y <;> simp
    have hx0 : x.headD 0 = x.getD 0 0 := by cases x <;> simp
    have hy0 : y.headD 0 = y.getD 0 0 := by cases y <;> simp
    simp only [hx, hy, hx0, hy0]
    ring

theorem euclidean_dist2_eq_sum {R : Type} [LinearOrderedCommRing R] (x y : List R) (d : Nat) :
    euclidean_dist2 x y d = ∑ i in Finset.range d, (x.getD i 0 - y.getD i 0) ^ 2 := by
  rw [euclidean_dist2, euclidean_dist2_loop_eq_sum, zero_add]

theorem sqrt_euclidean_dist2_eq_dist (x y : List ℝ) (d : Nat) :
    Real.sqrt (euclidean_dist2 x y d) =
      dist ((WithLp.equiv 2 (Fin d → ℝ)).symm (fun i => x.getD i 0))
        ((WithLp.equiv 2 (Fin d → ℝ)).symm (fun i => y.getD i 0)) := by
  rw [EuclideanSpace.dist_eq, euclidean_dist2_eq_sum, Finset.sum_range]
  congr 1
  apply Finset.sum_congr rfl
  intro i _
  simp [Real.dist_eq, sq_abs]

/-- The triangle inequality of the Euclidean distance computed by `vptree.cpp`. -/
theorem sqrt_euclidean_dist2_triangle (d : Nat) (x y z : List ℝ) :
    Real.sqrt (euclidean_dist2 x z d) ≤
      Real.sqrt (euclidean_dist2 x y d) + Real.sqrt (euclidean_dist2 y z d) := by
  rw [sqrt_euclidean_dist2_eq_dist, sqrt_euclidean_dist2_eq_dist, sqrt_euclidean_dist2_eq_dist]
  exact dist_triangle _ _ _

theorem real_sqrt_monotone : Monotone Real.sqrt := fun _ _ h => Real.sqrt_le_sqrt h

end Euclid

end Kmknn

namespace Kmknn

/-! ## The constructor and exactness of the search -/

section Exact

variable {R : Type} [LinearOrderedCommRing R]

theorem nth_element_sort_ok : NthElementOk (R := R) nth_element_sort := by
  intro n pivot ndim l nth _
  have htot : IsTotal (DataPoint R) (fun a b => DistanceComparator pivot ndim b a = false) :=
    ⟨fun a b => by
      simp only [DistanceComparator, decide_eq_false_iff_not, not_lt]
      exact le_total _ _⟩
  have htr : IsTrans (DataPoint R) (fun a b => DistanceComparator pivot ndim b a = false) :=
    ⟨fun a b c => by
      simp only [DistanceComparator, decide_eq_false_iff_not, not_lt]
      exact le_trans⟩
  have hs := List.sorted_insertionSort (fun a b => DistanceComparator pivot ndim b a = false) l
  refine ⟨List.perm_insertionSort _ _, ?_⟩
  intro i j a b hi hj ha hb
  obtain ⟨hi1, rfl⟩ := List.getElem?_eq_some.1 ha
  obtain ⟨hj1, rfl⟩ := List.getElem?_eq_some.1 hb
  rcases Nat.lt_or_ge i j with hij | hij
  · exact List.pairwise_iff_getElem.1 hs i j hi1 hj1 hij
  · have : i = j := by omega
    subst this
    simp [DistanceComparator]

omit [LinearOrderedCommRing R] in
theorem length_fillItems (vals : NumericMatrix R) : (fillItems vals).length = vals.ncol := by
  simp [fillItems, NumericMatrix.ncol]

omit [LinearOrderedCommRing R] in
theorem map_ptr_fillItems (vals : NumericMatrix R) :
    (fillItems vals).map (fun x => x.ptr) = vals.cols := by
  simp only [fillItems, List.map_map]
  exact List.enum_map_snd _

omit [LinearOrderedCommRing R] in
theorem seg_zero_length {α : Type} (l : List α) : seg l 0 l.length = l := by
  simp [seg]

variable [FloorRing R]

/-- The constructor returns a tree: the point array is a rearrangement of the columns, there is
one node per point, and the nodes form the tree described by `Built`. -/
theorem VpTree_of_vals_spec (sqrt : R → R) (unif_rand : Nat → R)
    (nth_element : Nat → (DataPoint R → DataPoint R → Bool) → List (DataPoint R) → Nat →
      List (DataPoint R))
    (hsqrt : Monotone sqrt) (hu : UnifRandOk unif_rand) (hnth : NthElementOk nth_element)
    (fuel : Nat) (vals : NumericMatrix R) (hfuel : vals.ncol < fuel) :
    ∃ t, VpTree_of_vals sqrt unif_rand nth_element fuel vals = .ok t ∧
      t.reference = vals ∧ t.ndim = vals.nrow ∧ t.nearest = [] ∧ t.neighbors = [] ∧
      t.distances = [] ∧ t.items.Perm (fillItems vals) ∧ t.nodes.length = vals.ncol ∧
      Built sqrt vals.nrow t.nodes t.items
        (if vals.ncol = 0 then LEAF_MARKER else 0) 0 vals.ncol := by
  obtain ⟨c, t, rng, h1, post⟩ := buildFromPoints_spec sqrt unif_rand nth_element hsqrt hu hnth
    fuel 0 vals.ncol
    { reference := vals, ndim := vals.nrow, items := fillItems vals, nodes := [],
      tau := 0, nearest := [], neighbors := [], distances := [] } 0 (Nat.zero_le _)
    (by simp [length_fillItems]) rfl (by simpa using hfuel)
  refine ⟨t, ?_, post.reference, post.ndim, post.nearest, post.neighbors, post.distances, ?_,
    post.nodes_length, ?_⟩
  · simp only [VpTree_of_vals, h1]
  · have hp := post.items_perm
    have hl := post.items_length
    dsimp only at hp hl
    have e1 : seg t.items 0 vals.ncol = t.items := by
      rw [← length_fillItems, ← hl, seg_zero_length]
    have e2 : seg (fillItems vals) 0 vals.ncol = fillItems vals := by
      rw [← length_fillItems, seg_zero_length]
    rw [e1, e2] at hp
    exact hp
  · have hb := post.built
    rw [post.root] at hb
    simpa [eq_comm] using hb

omit [FloorRing R] in
theorem map_fst_candidates (sqrt : R → R) (ndim : Nat) (items : List (DataPoint R))
    (target : List R) :
    (candidates sqrt ndim items target).map Prod.fst =
      items.map (fun x => sqrt (euclidean_dist2 x.ptr target ndim)) := by
  apply List.ext_getElem?
  intro n
  rw [List.getElem?_map, getElem?_candidates, List.getElem?_map]
  cases items[n]? <;> rfl

omit [FloorRing R] in
theorem insertionSort_eq_of_perm {l1 l2 : List R} (h : l1.Perm l2) :
    l1.insertionSort (· ≤ ·) = l2.insertionSort (· ≤ ·) :=
  List.eq_of_perm_of_sorted
    (((List.perm_insertionSort _ _).trans h).trans (List.perm_insertionSort _ _).symm)
    (List.sorted_insertionSort _ _) (List.sorted_insertionSort _ _)

omit [FloorRing R] in
/-- The distances of the brute-force scan over the point array of a tree are those over the
columns of the matrix. -/
theorem candidates_perm_cols (sqrt : R → R) (vals : NumericMatrix R) (items : List (DataPoint R))
    (target : List R) (hp : items.Perm (fillItems vals)) :
    ((candidates sqrt vals.nrow items target).map Prod.fst).Perm
      (vals.cols.map (fun col => sqrt (euclidean_dist2 col target vals.nrow))) := by
  rw [map_fst_candidates]
  have h1 := hp.map (fun x => sqrt (euclidean_dist2 x.ptr target vals.nrow))
  refine h1.trans ?_
  have h2 : (fillItems vals).map (fun x => sqrt (euclidean_dist2 x.ptr target vals.nrow)) =
      ((fillItems vals).map (fun x => x.ptr)).map
        (fun col => sqrt (euclidean_dist2 col target vals.nrow)) := by
    rw [List.map_map]; rfl
  rw [h2, map_ptr_fillItems]

/-- A search with capacity `k ≥ 1` in a tree made by the constructor returns, and leaves in the
queue the `k` least candidates of the brute-force scan over the point array. -/
theorem search_of_vals_spec (sqrt : R → R) (unif_rand : Nat → R)
    (nth_element : Nat → (DataPoint R → DataPoint R → Bool) → List (DataPoint R) → Nat →
      List (DataPoint R))
    (hsqrt : Monotone sqrt) (hu : UnifRandOk unif_rand) (hnth : NthElementOk nth_element)
    (DBL_MAX : R) (vals : NumericMatrix R) (hn : 1 ≤ vals.ncol)
    (htri : ∀ x y z : List R, sqrt (euclidean_dist2 x z vals.nrow) ≤
      sqrt (euclidean_dist2 x y vals.nrow) + sqrt (euclidean_dist2 y z vals.nrow))
    (target : List R) (k : Int) (hk : 1 ≤ k)
    (hmax : ∀ col ∈ vals.cols, sqrt (euclidean_dist2 col target vals.nrow) < DBL_MAX)
    (fuel : Nat) (hfuel : vals.ncol < fuel) :
    ∃ t, VpTree_of_vals sqrt unif_rand nth_element fuel vals = .ok t ∧
      t.reference = vals ∧ t.ndim = vals.nrow ∧ t.neighbors = [] ∧ t.distances = [] ∧
      t.items.Perm (fillItems vals) ∧ t.nodes.length = vals.ncol ∧
      ∃ tau1 Q1, search sqrt fuel 0 target k { t with tau := DBL_MAX } =
          .ok { t with tau := tau1, nearest := Q1 } ∧
        SearchInv k DBL_MAX (candidates sqrt vals.nrow t.items target) tau1 Q1 := by
  obtain ⟨t, h1, h2, h3, h4, h5, h6, h7, h8, h9⟩ :=
    VpTree_of_vals_spec sqrt unif_rand nth_element hsqrt hu hnth fuel vals hfuel
  refine ⟨t, h1, h2, h3, h5, h6, h7, h8, ?_⟩
  have hmax1 : ∀ e ∈ candidates sqrt t.ndim t.items target, e.1 < DBL_MAX := by
    intro e he
    rw [h3] at he
    have : e.1 ∈ (candidates sqrt vals.nrow t.items target).map Prod.fst :=
      List.mem_map_of_mem _ he
    obtain ⟨col, hc, hcol⟩ := List.mem_map.1
      ((candidates_perm_cols sqrt vals t.items target h7).mem_iff.1 this)
    rw [← hcol]
    exact hmax col hc
  obtain ⟨tau1, Q1, hs, hinv, _⟩ := search_spec sqrt target k DBL_MAX hk t (h3 ▸ htri)
    (h3 ▸ h9) hmax1 fuel DBL_MAX [] [] (by simpa using hfuel) (SearchInv.at_start k DBL_MAX hk)
  rw [if_neg (by omega)] at hs
  have ht : ({ t with tau := DBL_MAX } : VpTree R) =
      { t with tau := DBL_MAX, nearest := [] } := by rw [← h4]
  refine ⟨tau1, Q1, ht ▸ hs, ?_⟩
  have hcl : (candidates sqrt t.ndim t.items target).length = vals.ncol := by
    rw [← length_fillItems, ← h7.length_eq]
    simp [candidates]
  rw [List.nil_append, ← hcl, seg_zero_length, h3] at hinv
  exact hinv

end Exact

end Kmknn

namespace Kmknn

/-! ## Loading a saved tree -/

section Load

variable {R : Type} [LinearOrderedCommRing R]

theorem fillNodes_ok (node_index node_left node_right : List Int) (node_thresholds : List R)
    (nnodes : Nat) (hl : node_left.length = node_index.length)
    (hr : node_right.length = node_index.length)
    (hth : node_thresholds.length = node_index.length) :
    ∀ (n i : Nat) (nodes : List (Node R)), i + n = node_index.length →
      (∀ j, i ≤ j → j < node_index.length →
        ¬ node_rejected nnodes (node_index.getD j 0) (node_left.getD j 0)
          (node_right.getD j 0)) →
      fillNodes node_index node_left node_right node_thresholds nnodes n i nodes =
        .ok (nodes ++ (List.range' i n).map (fun j =>
          { threshold := node_thresholds.getD j 0, index := node_index.getD j 0,
            left := node_left.getD j 0, right := node_right.getD j 0 }))
  | 0, i, nodes, _, _ => by simp [fillNodes]
  | n + 1, i, nodes, hin, hgood => by
    obtain ⟨a, ha⟩ := exists_getElem? node_index i (by omega)
    obtain ⟨b, hb⟩ := exists_getElem? node_left i (by omega)
    obtain ⟨c, hc⟩ := exists_getElem? node_right i (by omega)
    obtain ⟨d, hd⟩ := exists_getElem? node_thresholds i (by omega)
    have hg := hgood i le_rfl (by omega)
    have ea : node_index.getD i 0 = a := by simp [List.getD_eq_getElem?_getD, ha]
    have eb : node_left.getD i 0 = b := by simp [List.getD_eq_getElem?_getD, hb]
    have ec : node_right.getD i 0 = c := by simp [List.getD_eq_getElem?_getD, hc]
    rw [ea, eb, ec] at hg
    unfold node_rejected at hg
    have hcond : ¬ ((Node.ofIndex a : Node R).index < 0 ∨ (Node.ofIndex a : Node R).index ≥ nnodes ∨
        (b ≠ LEAF_MARKER ∧ (b < 0 ∨ b ≥ nnodes)) ∨ (c ≠ LEAF_MARKER ∧ (c < 0 ∨ c ≥ nnodes))) := by
      simp only [Node.ofIndex]
      intro h
      apply hg
      rcases h with h | h | ⟨h1, h⟩ | ⟨h1, h⟩
      · exact Or.inl (fun pq => by omega)
      · exact Or.inl (fun pq => by omega)
      · exact Or.inr (Or.inl ⟨h1, fun pq => by omega⟩)
      · exact Or.inr (Or.inr ⟨h1, fun pq => by omega⟩)
    rw [fillNodes]
    simp only [ha, hb, hc, hd]
    rw [if_neg hcond, fillNodes_ok node_index node_left node_right node_thresholds nnodes hl hr hth
      n (i + 1) _ (by omega) (fun j h1 h2 => hgood j (by omega) h2)]
    simp [List.range'_succ, List.getD_eq_getElem?_getD, ha, hb, hc, hd, Node.ofIndex]

theorem fillNodes_bad (node_index node_left node_right : List Int) (node_thresholds : List R)
    (nnodes : Nat) (hl : node_left.length = node_index.length)
    (hr : node_right.length = node_index.length)
    (hth : node_thresholds.length = node_index.length) :
    ∀ (n i : Nat) (nodes : List (Node R)), i + n = node_index.length →
      (∃ j, i ≤ j ∧ j < node_index.length ∧
        node_rejected nnodes (node_index.getD j 0) (node_left.getD j 0)
          (node_right.getD j 0)) →
      fillNodes node_index node_left node_right node_thresholds nnodes n i nodes =
        .error .node_indices_out_of_range
  | 0, i, nodes, hin, ⟨j, h1, h2, _⟩ => by omega
  | n + 1, i, nodes, hin, ⟨j, h1, h2, hbad⟩ => by
    obtain ⟨a, ha⟩ := exists_getElem? node_index i (by omega)
    obtain ⟨b, hb⟩ := exists_getElem? node_left i (by omega)
    obtain ⟨c, hc⟩ := exists_getElem? node_right i (by omega)
    obtain ⟨d, hd⟩ := exists_getElem? node_thresholds i (by omega)
    rw [fillNodes]
    simp only [ha, hb, hc, hd]
    by_cases hcond : ((Node.ofIndex a : Node R).index < 0 ∨
        (Node.ofIndex a : Node R).index ≥ nnodes ∨
        (b ≠ LEAF_MARKER ∧ (b < 0 ∨ b ≥ nnodes)) ∨ (c ≠ LEAF_MARKER ∧ (c < 0 ∨ c ≥ nnodes)))
    · rw [if_pos hcond]
    · rw [if_neg hcond]
      apply fillNodes_bad node_index node_left node_right node_thresholds nnodes hl hr hth
        n (i + 1) _ (by omega)
      refine ⟨j, ?_, h2, hbad⟩
      by_contra hji
      have hij : j = i := by omega
      subst hij
      apply hcond
      have ea : node_index.getD j 0 = a := by simp [List.getD_eq_getElem?_getD, ha]
      have eb : node_left.getD j 0 = b := by simp [List.getD_eq_getElem?_getD, hb]
      have ec : node_right.getD j 0 = c := by simp [List.getD_eq_getElem?_getD, hc]
      rw [ea, eb, ec] at hbad
      unfold node_rejected at hbad
      simp only [Node.ofIndex]
      rcases hbad with h | ⟨h1, h⟩ | ⟨h1, h⟩
      · by_cases h0 : a < 0
        · exact Or.inl h0
        · exact Or.inr (Or.inl (by
            by_contra hc2
            exact h ⟨by omega, by omega⟩))
      · refine Or.inr (Or.inr (Or.inl ⟨h1, ?_⟩))
        by_cases h0 : b < 0
        · exact Or.inl h0
        · exact Or.inr (by
            by_contra hc2
            exact h ⟨by omega, by omega⟩)
      · refine Or.inr (Or.inr (Or.inr ⟨h1, ?_⟩))
        by_cases h0 : c < 0
        · exact Or.inl h0
        · exact Or.inr (by
            by_contra hc2
            exact h ⟨by omega, by omega⟩)

end Load

end Kmknn

namespace Kmknn

/-! ## Failures of a search -/

section SearchFaults

variable {R : Type} [LinearOrderedCommRing R]

theorem search_within_tau_error (dist : R) (index k : Int) (t : VpTree R) (e : Fault)
    (h : search_within_tau dist index k t = .error e) : e = .pop_empty := by
  unfold search_within_tau at h
  dsimp only at h
  split at h
  · rename_i e1 heq
    injection h with h
    subst h
    split at heq
    · split at heq
      · exact (Except.error.inj heq).symm
      · cases heq
    · cases heq
  · split at h
    · split at h
      · exact (Except.error.inj h).symm
      · cases h
    · cases h

theorem search_error (sqrt : R → R) : ∀ (fuel : Nat) (c : Int) (target : List R) (k : Int)
    (t : VpTree R) (e : Fault), search sqrt fuel c target k t = .error e →
    e ≠ .cell_out_of_range
  | 0, c, target, k, t, e, h => by
    simp only [search] at h
    injection h with h
    subst h
    decide
  | fuel + 1, c, target, k, t, e, h => by
    have ih := search_error sqrt fuel
    have hchild : ∀ (cond : Prop) [Decidable cond] (ch : Int) (s : VpTree R) (e1 : Fault),
        (if cond then search sqrt fuel ch target k s else .ok s) = .error e1 →
        e1 ≠ .cell_out_of_range := by
      intro cond _ ch s e1 h1
      split at h1
      · exact ih _ _ _ _ _ h1
      · cases h1
    rw [search] at h
    dsimp only at h
    split at h
    · cases h
    · split at h
      · injection h with h; subst h; decide
      · split at h
        · injection h with h; subst h; decide
        · split at h
          · rename_i e1 heq
            injection h with h
            subst h
            split at heq
            · rw [search_within_tau_error _ _ _ _ _ heq]; decide
            · cases heq
          · split at h
            · cases h
            · split at h
              · split at h
                · rename_i e1 heq
                  injection h with h
                  subst h
                  exact hchild _ _ _ _ heq
                · exact hchild _ _ _ _ h
              · split at h
                · rename_i e1 heq
                  injection h with h
                  subst h
                  exact hchild _ _ _ _ heq
                · exact hchild _ _ _ _ h

end SearchFaults

end Kmknn

namespace Kmknn

/-! ## Nodes and points of a built tree -/

section BuiltFacts

variable {R : Type} [LinearOrderedCommRing R]

/-- In a built tree the node at offset `j` has the pivot offset `j`, and its children are `LEAF`
or offsets of later nodes of the same subtree. -/
theorem Built.node_at {sqrt : R → R} {ndim : Nat} {nodes : List (Node R)}
    {items : List (DataPoint R)} {c : Int} {lo hi : Nat}
    (h : Built sqrt ndim nodes items c lo hi) :
    ∀ j, lo ≤ j → j < hi → ∃ nd x, nodes[j]? = some nd ∧ nd.index = (j : Int) ∧
      items[j]? = some x ∧
      (nd.left = LEAF_MARKER ∨ ∃ l : Nat, nd.left = (l : Int) ∧ j < l ∧ l < hi) ∧
      (nd.right = LEAF_MARKER ∨ ∃ r : Nat, nd.right = (r : Int) ∧ j < r ∧ r < hi) := by
  induction h with
  | leaf lo => intro j h1 h2; omega
  | single lo nd p h1 h2 h3 h4 h5 h6 =>
    intro j hj1 hj2
    have : j = lo := by omega
    subst this
    exact ⟨nd, p, h1, h2, h6, Or.inl h3, Or.inl h4⟩
  | node lo hi nd p h1 h2 h3 h4 hl hr hle hge ihl ihr =>
    intro j hj1 hj2
    by_cases hj : j = lo
    · subst hj
      refine ⟨nd, p, h2, h3, h4, ?_, ?_⟩
      · have := hl.root_eq.2
        by_cases he : j + 1 = (hi + j) / 2
        · rw [if_pos he] at this
          exact Or.inl this
        · rw [if_neg he] at this
          exact Or.inr ⟨j + 1, this, by omega, by omega⟩
      · have := hr.root_eq.2
        rw [if_neg (by omega)] at this
        exact Or.inr ⟨(hi + j) / 2, this, by omega, by omega⟩
    · by_cases hm : j < (hi + lo) / 2
      · obtain ⟨nd1, x, e1, e2, e3, e4, e5⟩ := ihl j (by omega) hm
        refine ⟨nd1, x, e1, e2, e3, ?_, ?_⟩
        · rcases e4 with e4 | ⟨l, e4, e6, e7⟩
          · exact Or.inl e4
          · exact Or.inr ⟨l, e4, e6, by omega⟩
        · rcases e5 with e5 | ⟨l, e5, e6, e7⟩
          · exact Or.inl e5
          · exact Or.inr ⟨l, e5, e6, by omega⟩
      · exact ihr j (by omega) hj2

end BuiltFacts

end Kmknn

namespace Kmknn

/-! ## The candidates in the queue -/

section Pairs

variable {R : Type} [LinearOrderedCommRing R]

theorem SearchInv.mem {k : Int} {DBL_MAX : R} {S : List (R × Int)} {tau : R}
    {Q : List (R × Int)} (h : SearchInv k DBL_MAX S tau Q) {e : R × Int} (he : e ∈ Q) :
    e ∈ S := by
  obtain ⟨rest, h1, _, _⟩ := h.rest
  exact h1.mem_iff.2 (List.mem_append_left _ he)

theorem SearchInv.nodup_snd {k : Int} {DBL_MAX : R} {S : List (R × Int)} {tau : R}
    {Q : List (R × Int)} (h : SearchInv k DBL_MAX S tau Q) (hS : (S.map Prod.snd).Nodup) :
    (Q.map Prod.snd).Nodup := by
  obtain ⟨rest, h1, _, _⟩ := h.rest
  have h2 : ((Q ++ rest).map Prod.snd).Nodup := ((h1.map Prod.snd).nodup_iff).1 hS
  rw [List.map_append] at h2
  exact (List.nodup_append.1 h2).1

/-- A queue that is not full holds every candidate. -/
theorem SearchInv.mem_of_not_full {k : Int} {DBL_MAX : R} {S : List (R × Int)} {tau : R}
    {Q : List (R × Int)} (h : SearchInv k DBL_MAX S tau Q) (hlen : (Q.length : Int) ≠ k)
    {e : R × Int} (he : e ∈ S) : e ∈ Q := by
  obtain ⟨rest, h1, h2, _⟩ := h.rest
  have : rest = [] := by
    by_contra hne
    exact hlen (h2 hne)
  subst this
  simpa using h1.mem_iff.1 he

theorem map_snd_candidates (sqrt : R → R) (ndim : Nat) (items : List (DataPoint R))
    (target : List R) :
    (candidates sqrt ndim items target).map Prod.snd =
      List.map (fun j : Nat => (j : Int)) (List.range items.length) := by
  apply List.ext_getElem?
  intro n
  rw [List.getElem?_map, getElem?_candidates, List.getElem?_map]
  by_cases hn : n < items.length
  · rw [List.getElem?_range hn]
    obtain ⟨x, hx⟩ := exists_getElem? items n hn
    rw [hx]
    rfl
  · rw [List.getElem?_eq_none (by omega), List.getElem?_eq_none (by simpa using hn)]
    rfl

theorem nodup_snd_candidates (sqrt : R → R) (ndim : Nat) (items : List (DataPoint R))
    (target : List R) : ((candidates sqrt ndim items target).map Prod.snd).Nodup := by
  rw [map_snd_candidates]
  exact (List.nodup_range _).map (fun a b h => by exact_mod_cast h)

theorem mem_candidates {sqrt : R → R} {ndim : Nat} {items : List (DataPoint R)}
    {target : List R} {e : R × Int} (h : e ∈ candidates sqrt ndim items target) :
    ∃ (j : Nat) (x : DataPoint R), items[j]? = some x ∧
      e = (sqrt (euclidean_dist2 x.ptr target ndim), (j : Int)) := by
  obtain ⟨j, hj⟩ := List.mem_iff_getElem?.1 h
  rw [getElem?_candidates] at hj
  cases hx : items[j]? with
  | none => rw [hx] at hj; cases hj
  | some x =>
    rw [hx] at hj
    exact ⟨j, x, hx, by simpa using hj.symm⟩

omit [LinearOrderedCommRing R] in
/-- A point of the point array is a column of the matrix together with its number. -/
theorem mem_fillItems {vals : NumericMatrix R} {x : DataPoint R} (h : x ∈ fillItems vals) :
    ∃ i : Nat, x.index = (i : Int) ∧ vals.cols[i]? = some x.ptr := by
  simp only [fillItems, List.mem_map] at h
  obtain ⟨⟨i, col⟩, hic, rfl⟩ := h
  obtain ⟨n, hn⟩ := List.mem_iff_getElem?.1 hic
  rw [List.getElem?_enum] at hn
  cases hc : vals.cols[n]? with
  | none => rw [hc] at hn; cases hn
  | some c =>
    rw [hc] at hn
    simp only [Option.map_some', Option.some.injEq, Prod.mk.injEq] at hn
    obtain ⟨rfl, rfl⟩ := hn
    exact ⟨n, rfl, hc⟩

omit [LinearOrderedCommRing R] in
/-- In a list of pairs with distinct second components, at most one pair has a given second
component. -/
theorem length_le_filter_snd_ne_add_one {α : Type} (l : List (α × Int)) (c : Int)
    (h : (l.map Prod.snd).Nodup) :
    l.length ≤ (l.filter (fun e => decide (e.2 ≠ c))).length + 1 := by
  induction l with
  | nil => simp
  | cons a l ih =>
    rw [List.map_cons, List.nodup_cons] at h
    by_cases ha : a.2 = c
    · have hall : ∀ e ∈ l, decide (e.2 ≠ c) = true := by
        intro e he
        simp only [ne_eq, decide_not, Bool.not_eq_true', decide_eq_false_iff_not]
        intro hec
        exact h.1 (List.mem_map.2 ⟨e, he, hec.trans ha.symm⟩)
      rw [List.filter_cons_of_neg (by simp [ha]), List.filter_eq_self.2 hall]
      simp
    · rw [List.filter_cons_of_pos (by simp [ha])]
      have := ih h.2
      simp only [List.length_cons]
      omega

end Pairs

end Kmknn

namespace Kmknn

/-! ## Distances and offsets in the result -/

/-- In the accumulator left by the search of
`find_nearest_neighbors`, every pair `(d, id)` has `id` an offset into the reordered point array
and `d` the Euclidean distance from the query to the point at that offset, a column of the
reference matrix with its identifier; the offsets are distinct and the distances are the `k`
least of the brute-force scan. -/
theorem search_pairs_general (unif_rand : Nat → ℝ)
    (nth_element : Nat → (DataPoint ℝ → DataPoint ℝ → Bool) → List (DataPoint ℝ) → Nat →
      List (DataPoint ℝ))
    (hu : UnifRandOk unif_rand) (hnth : NthElementOk nth_element)
    (DBL_MAX : ℝ) (fuel : Nat) (vals : NumericMatrix ℝ) (hn : 1 ≤ vals.ncol)
    (target : List ℝ) (k : Nat) (hk : 1 ≤ k)
    (hmax : ∀ col ∈ vals.cols, Real.sqrt (euclidean_dist2 col target vals.nrow) < DBL_MAX)
    (hfuel : vals.ncol < fuel) :
    ∃ t, VpTree_of_vals Real.sqrt unif_rand nth_element fuel vals = .ok t ∧
      ∃ t1, search Real.sqrt fuel 0 target (k : Int) { t with tau := DBL_MAX } = .ok t1 ∧
        (∀ index dist, find_nearest_neighbors_current Real.sqrt DBL_MAX fuel target (k : Int)
          index dist t = .ok (queue2deque t1 index dist false 0)) ∧
        (∀ e ∈ t1.nearest, ∃ (j : Nat) (x : DataPoint ℝ) (i : Nat), e.2 = (j : Int) ∧
          t.items[j]? = some x ∧ e.1 = Real.sqrt (euclidean_dist2 x.ptr target vals.nrow) ∧
          x.index = (i : Int) ∧ vals.cols[i]? = some x.ptr) ∧
        (t1.nearest.map Prod.snd).Nodup ∧
        t1.nearest.reverse.map Prod.fst = (brute_force_distances Real.sqrt vals target).take k := by
  obtain ⟨t, h1, _, _, _, _, h7, _, tau1, Q1, hs, hinv⟩ :=
    search_of_vals_spec Real.sqrt unif_rand nth_element real_sqrt_monotone hu hnth DBL_MAX vals
      hn (sqrt_euclidean_dist2_triangle vals.nrow) target (k : Int) (by omega) hmax fuel hfuel
  refine ⟨t, h1, _, hs, ?_, ?_, ?_, ?_⟩
  · intro index dist
    simp only [find_nearest_neighbors_current, hs]
  · intro e he
    obtain ⟨j, x, hx, rfl⟩ := mem_candidates (hinv.mem he)
    obtain ⟨i, hi1, hi2⟩ := mem_fillItems (h7.mem_iff.1 (List.mem_iff_getElem?.2 ⟨j, hx⟩))
    exact ⟨j, x, i, rfl, hx, rfl, hi1, hi2⟩
  · exact hinv.nodup_snd (nodup_snd_candidates _ _ _ _)
  · have h := hinv.distances_eq
    rw [insertionSort_eq_of_perm (candidates_perm_cols Real.sqrt vals t.items target h7)] at h
    simpa [brute_force_distances] using h

theorem sqrt_hundred : Real.sqrt 100 = 10 := by
  rw [show (100 : ℝ) = 10 ^ 2 by norm_num, Real.sqrt_sq (by norm_num)]

theorem scenario_brute_force :
    brute_force_distances Real.sqrt ⟨2, [[0, 0], [10, 0], [0, 10], [1, 1]]⟩ [0, 0] =
      [0, Real.sqrt 2, 10, 10] := by
  have h2 : Real.sqrt 2 ≤ 10 := by
    rw [Real.sqrt_le_left (by norm_num)]
    norm_num
  have h0 : (0 : ℝ) ≤ Real.sqrt 2 := Real.sqrt_nonneg _
  have e1 : euclidean_dist2 [(0 : ℝ), 0] [0, 0] 2 = 0 := by
    norm_num [euclidean_dist2, euclidean_dist2_loop]
  have e2 : euclidean_dist2 [(10 : ℝ), 0] [0, 0] 2 = 100 := by
    norm_num [euclidean_dist2, euclidean_dist2_loop]
  have e3 : euclidean_dist2 [(0 : ℝ), 10] [0, 0] 2 = 100 := by
    norm_num [euclidean_dist2, euclidean_dist2_loop]
  have e4 : euclidean_dist2 [(1 : ℝ), 1] [0, 0] 2 = 2 := by
    norm_num [euclidean_dist2, euclidean_dist2_loop]
  simp only [brute_force_distances, List.map_cons, List.map_nil, e1, e2, e3, e4, Real.sqrt_zero,
    sqrt_hundred, List.insertionSort, List.orderedInsert]
  have h3 : ¬ (10 : ℝ) ≤ Real.sqrt 2 := by
    rw [not_le, Real.sqrt_lt' (by norm_num)]
    norm_num
  simp [List.orderedInsert, h3, h2, h0]

/-- The four points of the scenario of the specification and their distances to the query
`(0, 0)`. -/
theorem scenario_point (i : Nat) (p : List ℝ)
    (h : (⟨2, [[0, 0], [10, 0], [0, 10], [1, 1]]⟩ : NumericMatrix ℝ).cols[i]? = some p) :
    (i = 0 ∧ p = [0, 0] ∧ Real.sqrt (euclidean_dist2 p [0, 0] 2) = 0) ∨
    (Real.sqrt (euclidean_dist2 p [0, 0] 2) = 10) ∨
    (i = 3 ∧ p = [1, 1] ∧ Real.sqrt (euclidean_dist2 p [0, 0] 2) = Real.sqrt 2) := by
  match i, h with
  | 0, h =>
    simp only [List.getElem?_cons_zero, Option.some.injEq] at h
    subst h
    exact Or.inl ⟨rfl, rfl, by norm_num [euclidean_dist2, euclidean_dist2_loop]⟩
  | 1, h =>
    simp only [List.getElem?_cons_succ, List.getElem?_cons_zero, Option.some.injEq] at h
    subst h
    refine Or.inr (Or.inl ?_)
    rw [show euclidean_dist2 [(10 : ℝ), 0] [0, 0] 2 = 100 by
      norm_num [euclidean_dist2, euclidean_dist2_loop]]
    exact sqrt_hundred
  | 2, h =>
    simp only [List.getElem?_cons_succ, List.getElem?_cons_zero, Option.some.injEq] at h
    subst h
    refine Or.inr (Or.inl ?_)
    rw [show euclidean_dist2 [(0 : ℝ), 10] [0, 0] 2 = 100 by
      norm_num [euclidean_dist2, euclidean_dist2_loop]]
    exact sqrt_hundred
  | 3, h =>
    simp only [List.getElem?_cons_succ, List.getElem?_cons_zero, Option.some.injEq] at h
    subst h
    refine Or.inr (Or.inr ⟨rfl, rfl, ?_⟩)
    rw [show euclidean_dist2 [(1 : ℝ), 1] [0, 0] 2 = 2 by
      norm_num [euclidean_dist2, euclidean_dist2_loop]]
  | n + 4, h => simp at h

/-- The scenario of the specification, for every stream of draws and every `nth_element`: the
search for the 2 nearest neighbours of `(0, 0)` leaves the offsets of the points with the
identifiers 0 and 3, at the distances 0 and `√2`. -/
theorem scenario_result (unif_rand : Nat → ℝ)
    (nth_element : Nat → (DataPoint ℝ → DataPoint ℝ → Bool) → List (DataPoint ℝ) → Nat →
      List (DataPoint ℝ))
    (hu : UnifRandOk unif_rand) (hnth : NthElementOk nth_element)
    (DBL_MAX : ℝ) (fuel : Nat) (hD : 10 < DBL_MAX) (hf : 4 < fuel) :
    ∃ t, VpTree_of_vals Real.sqrt unif_rand nth_element fuel
        ⟨2, [[0, 0], [10, 0], [0, 10], [1, 1]]⟩ = .ok t ∧
      ∃ t1 p0 p3, search Real.sqrt fuel 0 [0, 0] ((2 : Nat) : Int) { t with tau := DBL_MAX } =
          .ok t1 ∧
        t1.nearest.reverse = [(0, ((p0 : Nat) : Int)), (Real.sqrt 2, ((p3 : Nat) : Int))] ∧
        t.items[p0]? = some { ptr := [0, 0], index := 0 } ∧
        t.items[p3]? = some { ptr := [1, 1], index := 3 } := by
  have hs2 : Real.sqrt 2 < 10 := by
    rw [Real.sqrt_lt' (by norm_num)]
    norm_num
  have hs0 : 0 < Real.sqrt 2 := Real.sqrt_pos.2 (by norm_num)
  obtain ⟨t, h1, t1, hs, _, hp, _, hd⟩ := search_pairs_general unif_rand nth_element hu hnth
    DBL_MAX fuel ⟨2, [[0, 0], [10, 0], [0, 10], [1, 1]]⟩ (by simp [NumericMatrix.ncol])
    [0, 0] 2 (by omega)
    (by
      intro col hcol
      obtain ⟨i, hi⟩ := List.mem_iff_getElem?.1 hcol
      rcases scenario_point i col hi with ⟨_, _, h⟩ | h | ⟨_, _, h⟩
      · show Real.sqrt (euclidean_dist2 col [0, 0] 2) < DBL_MAX
        rw [h]; linarith
      · show Real.sqrt (euclidean_dist2 col [0, 0] 2) < DBL_MAX
        rw [h]; linarith
      · show Real.sqrt (euclidean_dist2 col [0, 0] 2) < DBL_MAX
        rw [h]; linarith)
    (by simp only [NumericMatrix.ncol, List.length_cons, List.length_nil]; omega)
  refine ⟨t, h1, t1, ?_⟩
  rw [scenario_brute_force] at hd
  simp only [List.take_succ_cons, List.take_zero] at hd
  have hident : ∀ e ∈ t1.nearest, ∃ j : Nat, e.2 = (j : Int) ∧
      ((e.1 = 0 → t.items[j]? = some { ptr := [0, 0], index := 0 }) ∧
       (e.1 = Real.sqrt 2 → t.items[j]? = some { ptr := [1, 1], index := 3 })) := by
    intro e he
    obtain ⟨j, x, i, hj, hx, hdist, hi, hcol⟩ := hp e he
    refine ⟨j, hj, ?_, ?_⟩
    · intro h0
      rcases scenario_point i x.ptr hcol with ⟨e1, e2, _⟩ | h | ⟨_, _, h⟩
      · rw [hx]
        cases x
        simp_all
      · exfalso
        have : Real.sqrt (euclidean_dist2 x.ptr [0, 0] 2) = 0 := hdist ▸ h0
        linarith
      · exfalso
        have : Real.sqrt (euclidean_dist2 x.ptr [0, 0] 2) = 0 := hdist ▸ h0
        linarith
    · intro h0
      rcases scenario_point i x.ptr hcol with ⟨_, _, h⟩ | h | ⟨e1, e2, _⟩
      · exfalso
        have : Real.sqrt (euclidean_dist2 x.ptr [0, 0] 2) = Real.sqrt 2 := hdist ▸ h0
        linarith
      · exfalso
        have : Real.sqrt (euclidean_dist2 x.ptr [0, 0] 2) = Real.sqrt 2 := hdist ▸ h0
        linarith
      · rw [hx]
        cases x
        simp_all
  match hrev : t1.nearest.reverse, hd with
  | [], hd => simp at hd
  | [_], hd => simp at hd
  | _ :: _ :: _ :: _, hd => simp at hd
  | [a, b], hd =>
    simp only [List.map_cons, List.map_nil, List.cons.injEq, and_true] at hd
    obtain ⟨ha, hb⟩ := hd
    have hma : a ∈ t1.nearest := List.mem_reverse.1 (hrev ▸ List.mem_cons_self _ _)
    have hmb : b ∈ t1.nearest :=
      List.mem_reverse.1 (hrev ▸ List.mem_cons_of_mem _ (List.mem_cons_self _ _))
    obtain ⟨p0, e0, f0, _⟩ := hident a hma
    obtain ⟨p3, e3, _, f3⟩ := hident b hmb
    refine ⟨p0, p3, hs, ?_, f0 ha, f3 hb⟩
    rw [← ha, ← hb, ← e0, ← e3]

end Kmknn

namespace Kmknn

/-! ## Searching two objects with the same nodes and coordinates -/

section Congr

variable {R : Type} [LinearOrderedCommRing R]

/-- The body of `if (dist < tau)` changes `tau` and the accumulator only. -/
theorem search_within_tau_frame (dist : R) (index k : Int) (t s : VpTree R)
    (h : search_within_tau dist index k t = .ok s) :
    s = { t with tau := s.tau, nearest := s.nearest } := by
  unfold search_within_tau at h
  dsimp only at h
  split at h
  · cases h
  · split at h
    · split at h
      · cases h
      · injection h with h
        subst h
        rfl
    · injection h with h
      subst h
      rfl

/-- A call of `search` changes `tau` and the accumulator only. -/
theorem search_frame (sqrt : R → R) : ∀ (fuel : Nat) (c : Int) (target : List R) (k : Int)
    (t s : VpTree R), search sqrt fuel c target k t = .ok s →
    s = { t with tau := s.tau, nearest := s.nearest }
  | 0, c, target, k, t, s, h => by
    simp only [search] at h
    cases h
  | fuel + 1, c, target, k, t, s, h => by
    have ih := search_frame sqrt fuel
    have hchild : ∀ (cond : Prop) [Decidable cond] (ch : Int) (t1 s1 : VpTree R),
        (if cond then search sqrt fuel ch target k t1 else .ok t1) = .ok s1 →
        s1 = { t1 with tau := s1.tau, nearest := s1.nearest } := by
      intro cond _ ch t1 s1 h1
      split at h1
      · exact ih _ _ _ _ _ h1
      · injection h1 with h1
        subst h1
        rfl
    have hvisit : ∀ (cond : Prop) [Decidable cond] (d : R) (ix : Int) (s1 : VpTree R),
        (if cond then search_within_tau d ix k t else .ok t) = .ok s1 →
        s1 = { t with tau := s1.tau, nearest := s1.nearest } := by
      intro cond _ d ix s1 h1
      split at h1
      · exact search_within_tau_frame _ _ _ _ _ h1
      · injection h1 with h1
        subst h1
        rfl
    have htrans : ∀ t1 s1 : VpTree R, t1 = { t with tau := t1.tau, nearest := t1.nearest } →
        s1 = { t1 with tau := s1.tau, nearest := s1.nearest } →
        s1 = { t with tau := s1.tau, nearest := s1.nearest } := by
      intro t1 s1 h1 h2
      rw [h2, h1]
    rw [search] at h
    dsimp only at h
    split at h
    · injection h with h
      subst h
      rfl
    · split at h
      · cases h
      · split at h
        · cases h
        · split at h
          · cases h
          · rename_i t1 hv
            have f1 := hvisit _ _ _ _ hv
            split at h
            · injection h with h
              subst h
              exact f1
            · split at h
              · split at h
                · cases h
                · rename_i t2 hc1
                  have f2 := htrans _ _ f1 (hchild _ _ _ _ hc1)
                  exact htrans _ _ f2 (hchild _ _ _ _ h)
              · split at h
                · cases h
                · rename_i t2 hc1
                  have f2 := htrans _ _ f1 (hchild _ _ _ _ hc1)
                  exact htrans _ _ f2 (hchild _ _ _ _ h)

omit [LinearOrderedCommRing R] in
theorem at?_map {α β : Type} (f : α → β) (v : List α) (i : Int) :
    at? (v.map f) i = (at? v i).map f := by
  unfold at?
  split
  · rw [List.getElem?_map]
  · rfl

theorem search_within_tau_congr (d : R) (ix k : Int) (t t1 : VpTree R) (tau : R)
    (Q : List (R × Int)) :
    search_within_tau d ix k { t1 with tau := tau, nearest := Q } =
      transfer_search t1 (search_within_tau d ix k { t with tau := tau, nearest := Q }) := by
  unfold search_within_tau transfer_search
  dsimp only
  by_cases h1 : (Q.length : Int) = k
  · simp only [if_pos h1]
    cases Q with
    | nil => rfl
    | cons e Q =>
      dsimp only
      by_cases h2 : ((pq_push (d, ix) Q).length : Int) = k
      · simp only [if_pos h2]
        cases pq_push (d, ix) Q <;> rfl
      · simp only [if_neg h2]
  · simp only [if_neg h1]
    by_cases h2 : ((pq_push (d, ix) Q).length : Int) = k
    · simp only [if_pos h2]
      cases pq_push (d, ix) Q <;> rfl
    · simp only [if_neg h2]

/-- Two objects with the same dimension, the same nodes and the same coordinates at every offset
of the point array are searched the same way. -/
theorem search_congr (sqrt : R → R) (t t1 : VpTree R) (hnd : t1.ndim = t.ndim)
    (hno : t1.nodes = t.nodes)
    (hit : t1.items.map (fun x => x.ptr) = t.items.map (fun x => x.ptr)) :
    ∀ (fuel : Nat) (c : Int) (target : List R) (k : Int) (tau : R) (Q : List (R × Int)),
      search sqrt fuel c target k { t1 with tau := tau, nearest := Q } =
        transfer_search t1 (search sqrt fuel c target k { t with tau := tau, nearest := Q })
  | 0, c, target, k, tau, Q => by simp [search, transfer_search]
  | fuel + 1, c, target, k, tau, Q => by
    have ih := search_congr sqrt t t1 hnd hno hit fuel
    have hchild : ∀ (cond : Prop) [Decidable cond] (ch : Int) (tau2 : R) (Q2 : List (R × Int)),
        (if cond then search sqrt fuel ch target k { t1 with tau := tau2, nearest := Q2 }
          else .ok { t1 with tau := tau2, nearest := Q2 }) =
        transfer_search t1 (if cond then search sqrt fuel ch target k
          { t with tau := tau2, nearest := Q2 } else .ok { t with tau := tau2, nearest := Q2 }) := by
      intro cond _ ch tau2 Q2
      by_cases hc : cond
      · rw [if_pos hc, if_pos hc, ih]
      · rw [if_neg hc, if_neg hc]
        rfl
    have hvisit : ∀ (cond : Prop) [Decidable cond] (d : R) (ix : Int),
        (if cond then search_within_tau d ix k { t1 with tau := tau, nearest := Q }
          else .ok { t1 with tau := tau, nearest := Q }) =
        transfer_search t1 (if cond then search_within_tau d ix k
          { t with tau := tau, nearest := Q } else .ok { t with tau := tau, nearest := Q }) := by
      intro cond _ d ix
      by_cases hc : cond
      · rw [if_pos hc, if_pos hc, search_within_tau_congr d ix k t t1]
      · rw [if_neg hc, if_neg hc]
        rfl
    rw [search, search]
    dsimp only
    by_cases hc : c = LEAF_MARKER
    · rw [if_pos hc, if_pos hc]
      rfl
    · have hn : at? t1.nodes c = at? t.nodes c := by rw [hno]
      rw [if_neg hc, if_neg hc, hn]
      cases hnode : at? t.nodes c with
      | none => rfl
      | some nd =>
        dsimp only
        have hat : (at? t1.items nd.index).map (fun x => x.ptr) =
            (at? t.items nd.index).map (fun x => x.ptr) := by
          rw [← at?_map, ← at?_map, hit]
        cases hitem : at? t.items nd.index with
        | none =>
          rw [hitem] at hat
          have hitem1 : at? t1.items nd.index = none := by simpa using hat
          rw [hitem1]
          rfl
        | some item =>
          rw [hitem] at hat
          cases hitem1 : at? t1.items nd.index with
          | none => rw [hitem1] at hat; cases hat
          | some item1 =>
            rw [hitem1] at hat
            have hptr : item1.ptr = item.ptr := by simpa using hat
            dsimp only
            have hd : sqrt (euclidean_dist2 item1.ptr target t1.ndim) =
                sqrt (euclidean_dist2 item.ptr target t.ndim) := by rw [hptr, hnd]
            rw [hd, hvisit]
            cases hv : (if sqrt (euclidean_dist2 item.ptr target t.ndim) < tau then
                search_within_tau (sqrt (euclidean_dist2 item.ptr target t.ndim)) nd.index k
                  { t with tau := tau, nearest := Q }
                else .ok { t with tau := tau, nearest := Q }) with
            | error e => rfl
            | ok s1 =>
              have f1 : s1 = { t with tau := s1.tau, nearest := s1.nearest } := by
                split at hv
                · have h := search_within_tau_frame _ _ _ _ _ hv
                  exact h
                · injection hv with hv
                  subst hv
                  rfl
              obtain ⟨tau1, Q1, rfl⟩ : ∃ tau1 Q1, s1 = { t with tau := tau1, nearest := Q1 } :=
                ⟨_, _, f1⟩
              have hframe : ∀ (cond : Prop) [Decidable cond] (ch : Int) (tau2 : R)
                  (Q2 : List (R × Int)) (s2 : VpTree R),
                  (if cond then search sqrt fuel ch target k { t with tau := tau2, nearest := Q2 }
                    else .ok { t with tau := tau2, nearest := Q2 }) = .ok s2 →
                  ∃ tau3 Q3, s2 = { t with tau := tau3, nearest := Q3 } := by
                intro cond _ ch tau2 Q2 s2 h2
                split at h2
                · have h := search_frame sqrt _ _ _ _ _ _ h2
                  exact ⟨_, _, h⟩
                · injection h2 with h2
                  subst h2
                  exact ⟨_, _, rfl⟩
              simp only [transfer_search]
              by_cases hleaf : nd.left = LEAF_MARKER ∧ nd.right = LEAF_MARKER
              · rw [if_pos hleaf, if_pos hleaf]
              · rw [if_neg hleaf, if_neg hleaf]
                by_cases hlt : sqrt (euclidean_dist2 item.ptr target t.ndim) < nd.threshold
                · rw [if_pos hlt, if_pos hlt, hchild]
                  cases hr : (if sqrt (euclidean_dist2 item.ptr target t.ndim) - tau1 ≤
                      nd.threshold then
                      search sqrt fuel nd.left target k { t with tau := tau1, nearest := Q1 }
                      else .ok { t with tau := tau1, nearest := Q1 }) with
                  | error e => rfl
                  | ok s2 =>
                    obtain ⟨tau2, Q2, rfl⟩ := hframe _ _ _ _ _ hr
                    simp only [transfer_search]
                    rw [hchild]
                    rfl
                · rw [if_neg hlt, if_neg hlt, hchild]
                  cases hr : (if sqrt (euclidean_dist2 item.ptr target t.ndim) + tau1 ≥
                      nd.threshold then
                      search sqrt fuel nd.right target k { t with tau := tau1, nearest := Q1 }
                      else .ok { t with tau := tau1, nearest := Q1 }) with
                  | error e => rfl
                  | ok s2 =>
                    obtain ⟨tau2, Q2, rfl⟩ := hframe _ _ _ _ _ hr
                    simp only [transfer_search]
                    rw [hchild]
                    rfl


end Congr

end Kmknn

namespace Kmknn

/-! ## Saving and loading -/

section RoundTrip

variable {R : Type} [LinearOrderedCommRing R] [FloorRing R]

/-- The loading constructor accepts the node arrays saved from a built tree together with the
matrix in the saved point order, and yields the same nodes and the same coordinates. -/
theorem load_saved (sqrt : R → R) (vals : NumericMatrix R) (t : VpTree R) (c : Int)
    (hndim : t.ndim = vals.nrow) (hp : t.items.Perm (fillItems vals))
    (hb : Built sqrt vals.nrow t.nodes t.items c 0 t.nodes.length) :
    ∃ t1, VpTree_of_node_data (reorder_columns vals (t.items.map (fun I => I.index + 1)))
        ((save t).drop 1) = .ok t1 ∧
      t1.ndim = t.ndim ∧ t1.nodes = t.nodes ∧
      t1.items.map (fun x => x.ptr) = t.items.map (fun x => x.ptr) ∧
      t1.nearest = [] ∧ t1.neighbors = [] ∧ t1.distances = [] := by
  have hgood : ∀ j, 0 ≤ j → j < (t.nodes.map (fun N => N.index)).length →
      ¬ node_rejected (t.nodes.map (fun N => N.index)).length
        ((t.nodes.map (fun N => N.index)).getD j 0) ((t.nodes.map (fun N => N.left)).getD j 0)
        ((t.nodes.map (fun N => N.right)).getD j 0) := by
    intro j _ hj
    rw [List.length_map] at hj ⊢
    obtain ⟨nd, x, e1, e2, _, e4, e5⟩ := hb.node_at j (Nat.zero_le _) hj
    have g1 : (t.nodes.map (fun N => N.index)).getD j 0 = nd.index := by
      simp [List.getD_eq_getElem?_getD, List.getElem?_map, e1]
    have g2 : (t.nodes.map (fun N => N.left)).getD j 0 = nd.left := by
      simp [List.getD_eq_getElem?_getD, List.getElem?_map, e1]
    have g3 : (t.nodes.map (fun N => N.right)).getD j 0 = nd.right := by
      simp [List.getD_eq_getElem?_getD, List.getElem?_map, e1]
    rw [g1, g2, g3]
    unfold node_rejected
    rintro (h | ⟨h1, h⟩ | ⟨h1, h⟩)
    · exact h ⟨by omega, by omega⟩
    · rcases e4 with e4 | ⟨l, e4, _, e6⟩
      · exact h1 e4
      · exact h ⟨by omega, by omega⟩
    · rcases e5 with e5 | ⟨l, e5, _, e6⟩
      · exact h1 e5
      · exact h ⟨by omega, by omega⟩
  have hfill := fillNodes_ok (t.nodes.map (fun N => N.index)) (t.nodes.map (fun N => N.left))
    (t.nodes.map (fun N => N.right)) (t.nodes.map (fun N => N.threshold))
    (t.nodes.map (fun N => N.index)).length (by simp) (by simp) (by simp)
    (t.nodes.map (fun N => N.index)).length 0 [] (by omega) hgood
  have hnodes : (List.range' 0 (t.nodes.map (fun N => N.index)).length).map (fun j =>
      ({ threshold := (t.nodes.map (fun N => N.threshold)).getD j 0,
         index := (t.nodes.map (fun N => N.index)).getD j 0,
         left := (t.nodes.map (fun N => N.left)).getD j 0,
         right := (t.nodes.map (fun N => N.right)).getD j 0 } : Node R)) = t.nodes := by
    apply List.ext_getElem?
    intro j
    rw [List.getElem?_map, List.length_map]
    by_cases hj : j < t.nodes.length
    · rw [List.getElem?_range' _ _ hj]
      obtain ⟨nd, hnd⟩ := exists_getElem? t.nodes j hj
      simp [List.getD_eq_getElem?_getD, List.getElem?_map, hnd]
    · rw [List.getElem?_eq_none (by simpa using hj), List.getElem?_eq_none (by omega)]
      rfl
  rw [List.nil_append, hnodes] at hfill
  refine ⟨
    { reference := reorder_columns vals (t.items.map (fun I => I.index + 1))
      ndim := vals.nrow
      items := fillItems (reorder_columns vals (t.items.map (fun I => I.index + 1)))
      nodes := t.nodes
      tau := 0
      nearest := []
      neighbors := []
      distances := [] }, ?_, ?_, ?_, ?_, rfl, rfl, rfl⟩
  · simp only [save, List.drop_succ_cons, List.drop_zero, VpTree_of_node_data, asIntegerVector,
      asNumericVector]
    rw [if_neg (by simp), hfill]
    rfl
  · exact hndim.symm
  · rfl
  · show (fillItems (reorder_columns vals (t.items.map (fun I => I.index + 1)))).map
      (fun x => x.ptr) = _
    rw [map_ptr_fillItems]
    simp only [reorder_columns, List.map_map]
    apply List.map_congr_left
    intro x hx
    obtain ⟨i, hi1, hi2⟩ := mem_fillItems (hp.mem_iff.1 hx)
    simp [hi1, List.getD_eq_getElem?_getD, hi2]

omit [FloorRing R] in
/-- Two freshly made objects that are searched the same way answer every query by a point the
same way. -/
theorem find_nearest_neighbors_current_congr (sqrt : R → R) (t t1 : VpTree R)
    (hnd : t1.ndim = t.ndim) (hno : t1.nodes = t.nodes)
    (hit : t1.items.map (fun x => x.ptr) = t.items.map (fun x => x.ptr))
    (hq : t.nearest = []) (hq1 : t1.nearest = [])
    (hn : t.neighbors = []) (hn1 : t1.neighbors = [])
    (hd : t.distances = []) (hd1 : t1.distances = [])
    (DBL_MAX : R) (fuel : Nat) (target : List R) (k : Int) (index dist : Bool) :
    query_result (find_nearest_neighbors_current sqrt DBL_MAX fuel target k index dist t1) =
      query_result (find_nearest_neighbors_current sqrt DBL_MAX fuel target k index dist t) := by
  have e1 : ({ t1 with tau := DBL_MAX } : VpTree R) =
      { t1 with tau := DBL_MAX, nearest := [] } := by rw [← hq1]
  have e2 : ({ t with tau := DBL_MAX } : VpTree R) =
      { t with tau := DBL_MAX, nearest := [] } := by rw [← hq]
  unfold find_nearest_neighbors_current
  dsimp only
  rw [e1, e2, search_congr sqrt t t1 hnd hno hit]
  cases hs : search sqrt fuel 0 target k { t with tau := DBL_MAX, nearest := [] } with
  | error e => rfl
  | ok s =>
    have hf := search_frame sqrt _ _ _ _ _ _ hs
    have hsn : s.neighbors = [] := by rw [hf]; exact hn
    have hsd : s.distances = [] := by rw [hf]; exact hd
    simp only [transfer_search, query_result, queue2deque, hsn, hsd, hn1, hd1]

end RoundTrip

end Kmknn

namespace Kmknn

/-! ## The pruning radius -/

section Tau

variable {R : Type} [LinearOrderedCommRing R]

/-- The body of `if (dist < tau)` returns when `k ≥ 1`, and does not raise `tau`. -/
theorem search_within_tau_tau {k : Int} (hk : 1 ≤ k) (t : VpTree R)
    (h : TauInv k t.tau t.nearest) (d : R) (j : Int) (hd : d < t.tau) :
    ∃ s, search_within_tau d j k t = .ok s ∧ s.tau ≤ t.tau ∧ TauInv k s.tau s.nearest := by
  unfold search_within_tau
  by_cases hfull : (t.nearest.length : Int) = k
  · obtain ⟨e, Q, hQ, htau⟩ := h.top hfull
    have hs : (e :: Q).Sorted pairGe := hQ ▸ h.sorted
    have hfull1 : ((e :: Q).length : Int) = k := hQ ▸ hfull
    have hlen : ((pq_push (d, j) Q).length : Int) = k := by
      rw [pq_push, List.orderedInsert_length, ← hfull, hQ]
      simp
    simp only [hQ, hfull1, if_true, hlen]
    have hs1 : (pq_push (d, j) Q).Sorted pairGe := hs.of_cons.orderedInsert _ _
    have hp1 : (pq_push (d, j) Q).Perm ((d, j) :: Q) := List.perm_orderedInsert _ _ _
    cases hq1 : pq_push (d, j) Q with
    | nil => rw [hq1] at hlen; simp at hlen; omega
    | cons e1 Q1 =>
      rw [hq1] at hs1 hp1
      have he1 : e1.1 ≤ t.tau := by
        have : e1 ∈ (d, j) :: Q := hp1.mem_iff.1 (List.mem_cons_self _ _)
        rcases List.mem_cons.1 this with rfl | hm
        · exact hd.le
        · exact h.le_tau e1 (hQ ▸ List.mem_cons_of_mem _ hm)
      refine ⟨_, rfl, he1, ?_⟩
      exact { sorted := hs1
              top := fun _ => ⟨e1, Q1, rfl, rfl⟩
              le_tau := sorted_head_fst hs1
              length_le := by rw [← hq1, hlen] }
  · simp only [hfull, if_false]
    have hs1 : (pq_push (d, j) t.nearest).Sorted pairGe := h.sorted.orderedInsert _ _
    have hp1 : (pq_push (d, j) t.nearest).Perm ((d, j) :: t.nearest) :=
      List.perm_orderedInsert _ _ _
    have hl1 : (pq_push (d, j) t.nearest).length = t.nearest.length + 1 :=
      List.orderedInsert_length _ _ _
    have hle := h.length_le
    by_cases hfull1 : ((pq_push (d, j) t.nearest).length : Int) = k
    · simp only [hfull1, if_true]
      cases hq1 : pq_push (d, j) t.nearest with
      | nil => rw [hq1] at hl1; simp at hl1
      | cons e1 Q1 =>
        rw [hq1] at hs1 hp1
        have he1 : e1.1 ≤ t.tau := by
          have : e1 ∈ (d, j) :: t.nearest := hp1.mem_iff.1 (List.mem_cons_self _ _)
          rcases List.mem_cons.1 this with rfl | hm
          · exact hd.le
          · exact h.le_tau e1 hm
        refine ⟨_, rfl, he1, ?_⟩
        exact { sorted := hs1
                top := fun _ => ⟨e1, Q1, rfl, rfl⟩
                le_tau := sorted_head_fst hs1
                length_le := by rw [← hq1, hfull1] }
    · simp only [hfull1, if_false]
      refine ⟨_, rfl, le_rfl, ?_⟩
      refine { sorted := hs1
               top := fun hc => absurd hc hfull1
               le_tau := ?_
               length_le := ?_ }
      · intro x hx
        rcases List.mem_cons.1 (hp1.mem_iff.1 hx) with rfl | hm
        · exact hd.le
        · exact h.le_tau x hm
      · show ((pq_push (d, j) t.nearest).length : Int) ≤ k
        rw [hl1]
        push_cast
        omega

/-- A call of `search` that returns does not raise `tau`. -/
theorem search_tau (sqrt : R → R) {k : Int} (hk : 1 ≤ k) : ∀ (fuel : Nat) (c : Int)
    (target : List R) (t s : VpTree R), TauInv k t.tau t.nearest →
    search sqrt fuel c target k t = .ok s → s.tau ≤ t.tau ∧ TauInv k s.tau s.nearest
  | 0, c, target, t, s, _, h => by
    simp only [search] at h
    cases h
  | fuel + 1, c, target, t, s, hinv, h => by
    have ih := search_tau sqrt hk fuel
    have hchild : ∀ (cond : Prop) [Decidable cond] (ch : Int) (t1 s1 : VpTree R),
        TauInv k t1.tau t1.nearest →
        (if cond then search sqrt fuel ch target k t1 else .ok t1) = .ok s1 →
        s1.tau ≤ t1.tau ∧ TauInv k s1.tau s1.nearest := by
      intro cond _ ch t1 s1 hi h1
      split at h1
      · exact ih _ _ _ _ hi h1
      · injection h1 with h1
        subst h1
        exact ⟨le_rfl, hi⟩
    have hvisit : ∀ (d : R) (ix : Int) (s1 : VpTree R),
        (if d < t.tau then search_within_tau d ix k t else .ok t) = .ok s1 →
        s1.tau ≤ t.tau ∧ TauInv k s1.tau s1.nearest := by
      intro d ix s1 h1
      split at h1
      · rename_i hd
        obtain ⟨s2, e1, e2, e3⟩ := search_within_tau_tau hk t hinv d ix hd
        rw [e1] at h1
        injection h1 with h1
        subst h1
        exact ⟨e2, e3⟩
      · injection h1 with h1
        subst h1
        exact ⟨le_rfl, hinv⟩
    rw [search] at h
    dsimp only at h
    split at h
    · injection h with h
      subst h
      exact ⟨le_rfl, hinv⟩
    · split at h
      · cases h
      · split at h
        · cases h
        · split at h
          · cases h
          · rename_i t1 hv
            obtain ⟨f1, g1⟩ := hvisit _ _ _ hv
            split at h
            · injection h with h
              subst h
              exact ⟨f1, g1⟩
            · split at h
              · split at h
                · cases h
                · rename_i t2 hc1
                  obtain ⟨f2, g2⟩ := hchild _ _ _ _ g1 hc1
                  obtain ⟨f3, g3⟩ := hchild _ _ _ _ g2 h
                  exact ⟨(f3.trans f2).trans f1, g3⟩
              · split at h
                · cases h
                · rename_i t2 hc1
                  obtain ⟨f2, g2⟩ := hchild _ _ _ _ g1 hc1
                  obtain ⟨f3, g3⟩ := hchild _ _ _ _ g2 h
                  exact ⟨(f3.trans f2).trans f1, g3⟩

theorem TauInv.at_entry (k : Int) (DBL_MAX : R) (hk : 1 ≤ k) :
    TauInv k DBL_MAX ([] : List (R × Int)) :=
  { sorted := List.sorted_nil
    top := fun h => by simp at h; omega
    le_tau := fun e he => by simp at he
    length_le := by simp; omega }

end Tau

end Kmknn

namespace Kmknn

/-! ## The nodes of a built tree, call by call -/

section Calls

variable {R : Type} [LinearOrderedCommRing R]

theorem BuildCall.bounds {lo hi lower upper : Nat} (h : BuildCall lo hi lower upper) :
    lo ≤ lower ∧ lower < upper ∧ upper ≤ hi := by
  induction h with
  | root lo hi h => exact ⟨le_rfl, h, le_rfl⟩
  | left lo hi lower upper h _ ih => omega
  | right lo hi lower upper h _ ih => omega

/-- The subtree of a call: the node allocated by `buildFromPoints(lower, upper)` is the root of
a built subtree over `[lower, upper)`. -/
theorem Built.of_call {sqrt : R → R} {ndim : Nat} {nodes : List (Node R)}
    {items : List (DataPoint R)} {lo hi lower upper : Nat} (hc : BuildCall lo hi lower upper) :
    ∀ {c : Int}, Built sqrt ndim nodes items c lo hi →
      Built sqrt ndim nodes items (lower : Int) lower upper := by
  induction hc with
  | root lo hi h =>
    intro c hb
    have := hb.root_eq.2
    rw [if_neg (by omega)] at this
    rw [← this]
    exact hb
  | left lo hi lower upper h _ ih =>
    intro c hb
    cases hb with
    | leaf => omega
    | single => omega
    | node _ _ nd p h1 h2 h3 h4 hl hr hle hge => exact ih hl
  | right lo hi lower upper h _ ih =>
    intro c hb
    cases hb with
    | leaf => omega
    | single => omega
    | node _ _ nd p h1 h2 h3 h4 hl hr hle hge => exact ih hr

/-- The partition around the root of a built subtree of more than one point. -/
theorem Built.partition_at {sqrt : R → R} {ndim : Nat} {nodes : List (Node R)}
    {items : List (DataPoint R)} {c : Int} {lower upper : Nat}
    (hb : Built sqrt ndim nodes items c lower upper) (h : upper - lower > 1) :
    ∃ nd pivot, nodes[lower]? = some nd ∧ nd.index = (lower : Int) ∧
      items[lower]? = some pivot ∧
      (∀ j x, lower + 1 ≤ j → j < (upper + lower) / 2 → items[j]? = some x →
        sqrt (euclidean_dist2 pivot.ptr x.ptr ndim) ≤ nd.threshold) ∧
      (∀ j x, (upper + lower) / 2 ≤ j → j < upper → items[j]? = some x →
        nd.threshold ≤ sqrt (euclidean_dist2 pivot.ptr x.ptr ndim)) := by
  cases hb with
  | leaf => omega
  | single => omega
  | node _ _ nd p h1 h2 h3 h4 hl hr hle hge => exact ⟨nd, p, h2, h3, h4, hle, hge⟩

variable [FloorRing R]

/-- What line 78 stores: a partition step that returns has set the threshold of the node at
`pos` to the distance from the point at `lower` to the point at `median`. -/
theorem buildFromPoints_partition_threshold (sqrt : R → R) (unif_rand : Nat → R)
    (nth_element : Nat → (DataPoint R → DataPoint R → Bool) → List (DataPoint R) → Nat →
      List (DataPoint R))
    (lower upper pos : Nat) (t t2 : VpTree R) (rng : Nat)
    (h : buildFromPoints_partition sqrt unif_rand nth_element lower upper pos t rng = .ok t2) :
    ∃ p m, t2.items[lower]? = some p ∧ t2.items[(upper + lower) / 2]? = some m ∧
      t2.nodes = modifyNode t.nodes pos (fun nd =>
        { nd with threshold := sqrt (euclidean_dist2 p.ptr m.ptr t.ndim) }) := by
  unfold buildFromPoints_partition at h
  dsimp only at h
  split at h
  · split at h
    · cases h
    · split at h
      · cases h
      · split at h
        · rename_i p m hp hm
          injection h with h
          subst h
          exact ⟨p, m, hp, hm, rfl⟩
        · cases h
  · cases h

end Calls

end Kmknn

namespace Kmknn

section Threshold

variable {R : Type} [LinearOrderedCommRing R] [FloorRing R]

/-- Every threshold stored by `buildFromPoints(lower, upper)` is still the distance from the
pivot of its node to a point of the node's right range when the call returns. -/
theorem buildFromPoints_threshold (sqrt : R → R) (unif_rand : Nat → R)
    (nth_element : Nat → (DataPoint R → DataPoint R → Bool) → List (DataPoint R) → Nat →
      List (DataPoint R))
    (hsqrt : Monotone sqrt) (hu : UnifRandOk unif_rand) (hnth : NthElementOk nth_element) :
    ∀ (fuel lower upper : Nat) (t : VpTree R) (rng : Nat), lower ≤ upper →
      upper ≤ t.items.length → t.nodes.length = lower → upper - lower < fuel →
      ∀ c t1 rng1,
        buildFromPoints sqrt unif_rand nth_element fuel lower upper (t, rng) =
          .ok (c, (t1, rng1)) →
        ThresholdAtMedian sqrt t.ndim t1.nodes t1.items lower upper := by
  intro fuel
  induction fuel with
  | zero => intro lower upper t rng h1 h2 h3 h4; omega
  | succ fuel ih =>
    intro lower upper t rng h1 h2 h3 h4 c t1 rng1 h
    unfold buildFromPoints at h
    simp only [h3] at h
    by_cases he : upper = lower
    · intro p q hc hq
      have := hc.bounds
      omega
    · simp only [if_neg he] at h
      by_cases hgt : upper - lower > 1
      · simp only [if_pos hgt] at h
        have hpos : (t.nodes ++ [(Node.ofIndex (lower : Int) : Node R)])[lower]? =
            some (Node.ofIndex (lower : Int)) := by simp [← h3]
        obtain ⟨items2, thr, p, hpart, hlen2, hout2, hperm2, hp2, hle, hge⟩ :=
          buildFromPoints_partition_spec sqrt unif_rand nth_element hsqrt hu hnth lower upper
            lower { t with nodes := t.nodes ++ [Node.ofIndex (lower : Int)] } rng
            (by omega) h2 _ hpos
        obtain ⟨p', m, hp', hm, hnodes⟩ := buildFromPoints_partition_threshold sqrt unif_rand
          nth_element lower upper lower _ _ rng hpart
        simp only [hpart] at h
        simp only at hlen2 hout2 hperm2 hle hge hp' hm hnodes
        rw [hp2] at hp'
        injection hp' with hp'
        subst hp'
        rw [modifyNode_eq _ _ _ _ hpos] at hnodes
        have hthr : thr = sqrt (euclidean_dist2 p.ptr m.ptr t.ndim) := by
          have e := congrArg (fun l : List (Node R) => (l[lower]?).map (fun nd => nd.threshold))
            hnodes
          simpa [List.getElem?_set, h3] using e
        clear hnodes
        set nd1 : Node R := { (Node.ofIndex (lower : Int) : Node R) with threshold := thr }
          with hnd1
        set nodes2 := (t.nodes ++ [Node.ofIndex (lower : Int)]).set lower nd1 with hnodes2
        set t2 : VpTree R := { t with items := items2, nodes := nodes2 } with ht2
        have hn2 : t2.nodes[lower]? = some nd1 := by
          simp [ht2, hnodes2, h3, List.getElem?_set]
        have c1 : lower + 1 ≤ (upper + lower) / 2 := by omega
        have c2 : (upper + lower) / 2 ≤ t2.items.length := by simp only [ht2]; omega
        have c3 : t2.nodes.length = lower + 1 := by simp [ht2, hnodes2, h3]
        have c4 : (upper + lower) / 2 - (lower + 1) < fuel := by omega
        obtain ⟨l, t3, rng3, hl, post3⟩ := buildFromPoints_spec sqrt unif_rand nth_element hsqrt
          hu hnth fuel (lower + 1) ((upper + lower) / 2) t2 (rng + 1) c1 c2 c3 c4
        have thr3 := ih (lower + 1) ((upper + lower) / 2) t2 (rng + 1) c1 c2 c3 c4 _ _ _ hl
        simp only [hl] at h
        have hn3 : t3.nodes[lower]? = some nd1 := by
          rw [post3.nodes_old lower (by omega), hn2]
        rw [modifyNode_eq _ _ _ _ hn3] at h
        set nd2 : Node R := { nd1 with left := l } with hnd2
        set t4 : VpTree R := { t3 with nodes := t3.nodes.set lower nd2 } with ht4
        have hlen3 := post3.nodes_length
        have hn4 : t4.nodes[lower]? = some nd2 := by
          simp [ht4, List.getElem?_set, hlen3]
          omega
        have d1 : (upper + lower) / 2 ≤ upper := by omega
        have d2 : upper ≤ t4.items.length := by
          simp only [ht4, post3.items_length, ht2, hlen2]; omega
        have d3 : t4.nodes.length = (upper + lower) / 2 := by simp [ht4, hlen3]
        have d4 : upper - (upper + lower) / 2 < fuel := by omega
        obtain ⟨r, t5, rng5, hr, post5⟩ := buildFromPoints_spec sqrt unif_rand nth_element hsqrt
          hu hnth fuel ((upper + lower) / 2) upper t4 rng3 d1 d2 d3 d4
        have thr5 := ih ((upper + lower) / 2) upper t4 rng3 d1 d2 d3 d4 _ _ _ hr
        simp only [hr] at h
        have hn5 : t5.nodes[lower]? = some nd2 := by
          rw [post5.nodes_old lower (by omega), hn4]
        rw [modifyNode_eq _ _ _ _ hn5] at h
        set nd3 : Node R := { nd2 with right := r } with hnd3
        injection h with h
        injection h with _ h
        injection h with h _
        subst h
        have hlen5 := post5.nodes_length
        have hi53 : ∀ j, j < (upper + lower) / 2 → t5.items[j]? = t3.items[j]? := fun j hj =>
          post5.items_out j (Or.inl hj)
        have hi32 : ∀ j, j < lower + 1 ∨ (upper + lower) / 2 ≤ j → t3.items[j]? = items2[j]? :=
          fun j hj => post3.items_out j hj
        have hndim3 : t2.ndim = t.ndim := rfl
        have hndim4 : t4.ndim = t.ndim := post3.ndim
        rw [hndim3] at thr3
        rw [hndim4] at thr5
        intro lo1 hi1 hc hq
        cases hc with
        | root _ _ _ =>
          have hm3 : t3.items[(upper + lower) / 2]? = some m := by
            rw [hi32 _ (Or.inr le_rfl)]; exact hm
          have hmem : m ∈ seg t3.items ((upper + lower) / 2) upper :=
            mem_seg.2 ⟨_, le_rfl, by omega, hm3⟩
          obtain ⟨j, hj1, hj2, hj3⟩ := mem_seg.1 (post5.items_perm.mem_iff.2 hmem)
          refine ⟨nd3, p, j, m, ?_, ?_, hj1, hj2, hj3, hthr⟩
          · show (t5.nodes.set lower nd3)[lower]? = _
            rw [List.getElem?_set, if_pos rfl, if_pos (by omega)]
          · show t5.items[lower]? = _
            rw [hi53 lower (by omega), hi32 lower (by omega), hp2]
        | left _ _ _ _ _ hc1 =>
          obtain ⟨b1, b2, b3⟩ := hc1.bounds
          obtain ⟨nd, pv, j, x, e1, e2, e3, e4, e5, e6⟩ := thr3 lo1 hi1 hc1 hq
          refine ⟨nd, pv, j, x, ?_, ?_, e3, e4, ?_, e6⟩
          · show (t5.nodes.set lower nd3)[lo1]? = _
            rw [List.getElem?_set, if_neg (by omega), post5.nodes_old lo1 (by omega)]
            show (t3.nodes.set lower nd2)[lo1]? = _
            rw [List.getElem?_set, if_neg (by omega)]
            exact e1
          · show t5.items[lo1]? = _
            rw [hi53 lo1 (by omega)]; exact e2
          · show t5.items[j]? = _
            rw [hi53 j (by omega)]; exact e5
        | right _ _ _ _ _ hc1 =>
          obtain ⟨b1, b2, b3⟩ := hc1.bounds
          obtain ⟨nd, pv, j, x, e1, e2, e3, e4, e5, e6⟩ := thr5 lo1 hi1 hc1 hq
          refine ⟨nd, pv, j, x, ?_, e2, e3, e4, e5, e6⟩
          show (t5.nodes.set lower nd3)[lo1]? = _
          rw [List.getElem?_set, if_neg (by omega)]
          exact e1
      · intro p q hc hq
        have hb := hc.bounds
        cases hc with
        | root _ _ _ => omega
        | left _ _ _ _ hh _ => omega
        | right _ _ _ _ hh _ => omega

end Threshold

end Kmknn

namespace Kmknn

section CallsOfTheConstructor

/-- Every offset of a non-empty range is the `lower` bound of one of the calls. -/
theorem BuildCall.exists_call : ∀ (n lo hi p : Nat), hi - lo ≤ n → lo ≤ p → p < hi →
    ∃ upper, BuildCall lo hi p upper := by
  intro n
  induction n with
  | zero => intro lo hi p h1 h2 h3; omega
  | succ n ih =>
    intro lo hi p h1 h2 h3
    by_cases hp : p = lo
    · subst hp
      exact ⟨hi, BuildCall.root p hi h3⟩
    · by_cases hm : p < (hi + lo) / 2
      · obtain ⟨q, hq⟩ := ih (lo + 1) ((hi + lo) / 2) p (by omega) (by omega) hm
        exact ⟨q, BuildCall.left lo hi p q (by omega) hq⟩
      · obtain ⟨q, hq⟩ := ih ((hi + lo) / 2) hi p (by omega) (by omega) h3
        exact ⟨q, BuildCall.right lo hi p q (by omega) hq⟩

variable {R : Type} [LinearOrderedCommRing R] [FloorRing R]

/-- The thresholds of the tree the constructor returns. -/
theorem VpTree_of_vals_threshold (sqrt : R → R) (unif_rand : Nat → R)
    (nth_element : Nat → (DataPoint R → DataPoint R → Bool) → List (DataPoint R) → Nat →
      List (DataPoint R))
    (hsqrt : Monotone sqrt) (hu : UnifRandOk unif_rand) (hnth : NthElementOk nth_element)
    (fuel : Nat) (vals : NumericMatrix R) (hfuel : vals.ncol < fuel) (t : VpTree R)
    (h : VpTree_of_vals sqrt unif_rand nth_element fuel vals = .ok t) :
    ThresholdAtMedian sqrt vals.nrow t.nodes t.items 0 vals.ncol := by
  unfold VpTree_of_vals at h
  dsimp only at h
  split at h
  · cases h
  · rename_i c t1 rng1 heq
    injection h with h
    subst h
    exact buildFromPoints_threshold sqrt unif_rand nth_element hsqrt hu hnth fuel 0 vals.ncol
      { reference := vals, ndim := vals.nrow, items := fillItems vals, nodes := [],
        tau := 0, nearest := [], neighbors := [], distances := [] } 0
      (Nat.zero_le _) (by simp [length_fillItems]) rfl (by simpa using hfuel) _ _ _ heq

end CallsOfTheConstructor

end Kmknn

namespace Kmknn

section Draw

variable {R : Type} [LinearOrderedCommRing R] [FloorRing R]

/-- The partition step makes the point at the drawn index the pivot. -/
theorem buildFromPoints_partition_pivot (sqrt : R → R) (unif_rand : Nat → R)
    (nth_element : Nat → (DataPoint R → DataPoint R → Bool) → List (DataPoint R) → Nat →
      List (DataPoint R))
    (lower upper pos : Nat) (t t2 : VpTree R) (rng : Nat)
    (h : buildFromPoints_partition sqrt unif_rand nth_element lower upper pos t rng = .ok t2) :
    t2.items[lower]? = at? t.items (buildFromPoints_i (unif_rand rng) lower upper) := by
  unfold buildFromPoints_partition at h
  unfold buildFromPoints_i
  dsimp only at h
  generalize (static_cast_int (unif_rand rng *
    (((upper - lower - 1 : Nat) : Int) : R)) + (lower : Int)) = i at h ⊢
  split at h
  · rename_i a b ha hb
    rw [hb]
    split at h
    · cases h
    · split at h
      · cases h
      · rename_i pivot hpiv
        split at h
        · rename_i p m hp hm
          injection h with h
          subst h
          show _ = some b
          have hlen : lower < t.items.length := by
            by_contra hc
            rw [List.getElem?_eq_none (by omega)] at ha
            cases ha
          rw [List.append_assoc, List.getElem?_append_left (by simp; omega),
            List.getElem?_take, if_pos (by omega)]
          unfold at? at hb
          split at hb
          · by_cases hi : i.toNat = lower
            · rw [hi] at hb ⊢
              rw [ha] at hb
              injection hb with hb
              subst hb
              simp [List.getElem?_set, hlen]
            · rw [List.getElem?_set, if_neg hi, List.getElem?_set, if_pos rfl, if_pos hlen]
          · cases hb
        · cases h
  · cases h

end Draw

end Kmknn

namespace Kmknn

/-! ## Termination of a search -/

section Termination

variable {R : Type} [LinearOrderedCommRing R]

/-- A search along links that go forward never exhausts a budget greater than the number of
nodes still ahead, whatever the query, the capacity and the state of the accumulator. -/
theorem search_fuel (sqrt : R → R) (nodes : List (Node R)) (hf : LinksForward nodes) :
    ∀ (fuel : Nat) (c : Int) (target : List R) (k : Int) (t : VpTree R), t.nodes = nodes →
      0 < fuel → (c = LEAF_MARKER ∨ (0 ≤ c ∧ nodes.length < fuel + c.toNat)) →
      search sqrt fuel c target k t ≠ .error .out_of_fuel
  | 0, c, target, k, t, hn, h0, hc => by omega
  | fuel + 1, c, target, k, t, hn, _, hc => by
    intro h
    have ih := search_fuel sqrt nodes hf fuel
    rw [search] at h
    dsimp only at h
    split at h
    · cases h
    · rename_i hleaf
      obtain ⟨hc0, hlt⟩ : 0 ≤ c ∧ nodes.length < fuel + 1 + c.toNat := by
        rcases hc with hc | hc
        · exact absurd hc hleaf
        · exact hc
      split at h
      · cases h
      · rename_i curnode hcur
        have hcur' : nodes[c.toNat]? = some curnode := by
          rw [← hn]
          simpa [at?, hc0] using hcur
        obtain ⟨hl, hr⟩ := hf c.toNat curnode hcur'
        have hclt : c.toNat < nodes.length := by
          by_contra hcon
          rw [List.getElem?_eq_none (by omega)] at hcur'
          cases hcur'
        have hchild : ∀ (cond : Prop) [Decidable cond] (ch : Int) (s : VpTree R),
            s.nodes = nodes →
            (ch = LEAF_MARKER ∨ (((c.toNat : Nat) : Int) < ch ∧ ch < (nodes.length : Int))) →
            (if cond then search sqrt fuel ch target k s else .ok s) ≠ .error .out_of_fuel := by
          intro cond _ ch s hs hch h1
          split at h1
          · refine ih ch target k s hs (by omega) ?_ h1
            rcases hch with hch | hch
            · exact Or.inl hch
            · exact Or.inr ⟨by omega, by omega⟩
          · cases h1
        have hnodes : ∀ (cond : Prop) [Decidable cond] (ch : Int) (s s1 : VpTree R),
            s.nodes = nodes →
            (if cond then search sqrt fuel ch target k s else .ok s) = .ok s1 →
            s1.nodes = nodes := by
          intro cond _ ch s s1 hs h1
          split at h1
          · rw [search_frame sqrt _ _ _ _ _ _ h1]
            exact hs
          · injection h1 with h1
            rw [← h1]
            exact hs
        split at h
        · cases h
        · split at h
          · rename_i e1 heq
            injection h with h
            subst h
            split at heq
            · have := search_within_tau_error _ _ _ _ _ heq
              cases this
            · cases heq
          · rename_i t1 heq
            have ht1 : t1.nodes = nodes := by
              split at heq
              · rw [search_within_tau_frame _ _ _ _ _ heq]
                exact hn
              · injection heq with heq
                rw [← heq]
                exact hn
            split at h
            · cases h
            · split at h
              · split at h
                · rename_i e1 heq1
                  injection h with h
                  subst h
                  exact hchild _ _ _ ht1 hl heq1
                · rename_i t2 heq1
                  exact hchild _ _ _ (hnodes _ _ _ _ ht1 heq1) hr h
              · split at h
                · rename_i e1 heq1
                  injection h with h
                  subst h
                  exact hchild _ _ _ ht1 hr heq1
                · rename_i t2 heq1
                  exact hchild _ _ _ (hnodes _ _ _ _ ht1 heq1) hl h

/-- The links of a built tree go forward. -/
theorem Built.links_forward {sqrt : R → R} {ndim : Nat} {nodes : List (Node R)}
    {items : List (DataPoint R)} {c : Int}
    (h : Built sqrt ndim nodes items c 0 nodes.length) : LinksForward nodes := by
  intro p nd hp
  have hlt : p < nodes.length := by
    by_contra hc
    rw [List.getElem?_eq_none (by omega)] at hp
    cases hp
  obtain ⟨nd1, x, e1, _, _, e4, e5⟩ := h.node_at p (Nat.zero_le _) hlt
  rw [hp] at e1
  injection e1 with e1
  subst e1
  constructor
  · rcases e4 with e4 | ⟨l, e4, e6, e7⟩
    · exact Or.inl e4
    · exact Or.inr (by omega)
  · rcases e5 with e5 | ⟨l, e5, e6, e7⟩
    · exact Or.inl e5
    · exact Or.inr (by omega)

end Termination

end Kmknn

namespace Kmknn

/-! ## What the loading constructor accepts -/

section Accepted

variable {R : Type} [LinearOrderedCommRing R] [FloorRing R]

/-- The arrays the loading constructor accepts have equal lengths and no rejected node, and the
nodes of the loaded tree are the entries of the arrays. -/
theorem VpTree_of_node_data_accepted (vals : NumericMatrix R) (node_data : List (RVector R))
    (t : VpTree R) (h : VpTree_of_node_data vals node_data = .ok t) :
    ∃ d0 d1 d2 d3, node_data = [d0, d1, d2, d3] ∧
      (∀ i, i < (asIntegerVector d0).length →
        ¬ node_rejected (asIntegerVector d0).length ((asIntegerVector d0).getD i 0)
          ((asIntegerVector d1).getD i 0) ((asIntegerVector d2).getD i 0)) ∧
      t.nodes = (List.range' 0 (asIntegerVector d0).length).map (fun j =>
        { threshold := (asNumericVector d3).getD j 0, index := (asIntegerVector d0).getD j 0,
          left := (asIntegerVector d1).getD j 0, right := (asIntegerVector d2).getD j 0 }) ∧
      t.items = fillItems vals ∧ t.ndim = vals.nrow := by
  match node_data, h with
  | [], h => simp [VpTree_of_node_data] at h
  | [_], h => simp [VpTree_of_node_data] at h
  | [_, _], h => simp [VpTree_of_node_data] at h
  | [_, _, _], h => simp [VpTree_of_node_data] at h
  | _ :: _ :: _ :: _ :: _ :: _, h => simp [VpTree_of_node_data] at h
  | [d0, d1, d2, d3], h =>
    refine ⟨d0, d1, d2, d3, rfl, ?_⟩
    simp only [VpTree_of_node_data] at h
    split at h
    · cases h
    · rename_i hlen
      simp only [not_or, not_not] at hlen
      obtain ⟨c1, c2, c3⟩ := hlen
      by_cases hb : ∃ i, i < (asIntegerVector d0).length ∧
          node_rejected (asIntegerVector d0).length ((asIntegerVector d0).getD i 0)
            ((asIntegerVector d1).getD i 0) ((asIntegerVector d2).getD i 0)
      · obtain ⟨i, hi, hbad⟩ := hb
        rw [fillNodes_bad _ _ _ _ _ c1 c2 c3 _ 0 [] (by omega) ⟨i, Nat.zero_le _, hi, hbad⟩] at h
        cases h
      · rw [fillNodes_ok _ _ _ _ _ c1 c2 c3 _ 0 [] (by omega)
          (fun j _ hj hbad => hb ⟨j, hj, hbad⟩)] at h
        injection h with h
        subst h
        exact ⟨fun i hi hbad => hb ⟨i, hi, hbad⟩, by simp, rfl, rfl⟩

/-- The links of an accepted tree are `LEAF` or offsets into its node array. -/
theorem VpTree_of_node_data_links (vals : NumericMatrix R) (node_data : List (RVector R))
    (t : VpTree R) (h : VpTree_of_node_data vals node_data = .ok t) (p : Nat) (nd : Node R)
    (hp : t.nodes[p]? = some nd) :
    (0 ≤ nd.index ∧ nd.index < (t.nodes.length : Int)) ∧
    (nd.left = LEAF_MARKER ∨ (0 ≤ nd.left ∧ nd.left < (t.nodes.length : Int))) ∧
    (nd.right = LEAF_MARKER ∨ (0 ≤ nd.right ∧ nd.right < (t.nodes.length : Int))) := by
  obtain ⟨d0, d1, d2, d3, _, hgood, hnodes, _, _⟩ := VpTree_of_node_data_accepted vals node_data t h
  have hlen : t.nodes.length = (asIntegerVector d0).length := by rw [hnodes]; simp
  have hlt : p < (asIntegerVector d0).length := by
    by_contra hc
    rw [List.getElem?_eq_none (by omega)] at hp
    cases hp
  have hg := hgood p hlt
  rw [hnodes, List.getElem?_map, List.getElem?_range' _ _ hlt] at hp
  simp only [Option.map_some', Option.some.injEq, Nat.zero_add, Nat.one_mul] at hp
  subst hp
  rw [hlen]
  unfold node_rejected at hg
  simp only [not_or, not_not] at hg
  obtain ⟨g1, g2, g3⟩ := hg
  refine ⟨g1, ?_, ?_⟩
  · by_cases hl : (asIntegerVector d1).getD p 0 = LEAF_MARKER
    · exact Or.inl hl
    · refine Or.inr ?_
      by_contra hc
      exact g2 ⟨hl, hc⟩
  · by_cases hr : (asIntegerVector d2).getD p 0 = LEAF_MARKER
    · exact Or.inl hr
    · refine Or.inr ?_
      by_contra hc
      exact g3 ⟨hr, hc⟩

/-- Whether the loading constructor accepts the node arrays does not depend on the matrix. -/
theorem VpTree_of_node_data_matrix (vals vals1 : NumericMatrix R) (node_data : List (RVector R))
    (t : VpTree R) (h : VpTree_of_node_data vals node_data = .ok t) :
    VpTree_of_node_data vals1 node_data =
      .ok { t with reference := vals1, ndim := vals1.nrow, items := fillItems vals1 } := by
  match node_data, h with
  | [], h => simp [VpTree_of_node_data] at h
  | [_], h => simp [VpTree_of_node_data] at h
  | [_, _], h => simp [VpTree_of_node_data] at h
  | [_, _, _], h => simp [VpTree_of_node_data] at h
  | _ :: _ :: _ :: _ :: _ :: _, h => simp [VpTree_of_node_data] at h
  | [d0, d1, d2, d3], h =>
    simp only [VpTree_of_node_data] at h ⊢
    split at h
    · cases h
    · rename_i hlen
      rw [if_neg hlen]
      split at h
      · cases h
      · rename_i nodes heq
        injection h with h
        subst h
        rfl

end Accepted

end Kmknn

namespace Kmknn

/-! ## A node array with a cycle -/

/-- A search that follows a link from node 0 back to node 0 exhausts every budget: the state
after the first visit. -/
theorem search_self_loop : ∀ fuel : Nat,
    search int_sqrt fuel 0 [0] 1
      { reference := ⟨1, [[0]]⟩, ndim := 1, items := [{ ptr := [0], index := 0 }],
        nodes := [{ threshold := 5, index := 0, left := 0, right := -1 }],
        tau := 0, nearest := [(0, 0)], neighbors := [], distances := [] } =
      .error .out_of_fuel
  | 0 => rfl
  | fuel + 1 => by
    have ih := search_self_loop fuel
    rw [search]
    have e : int_sqrt (euclidean_dist2 [0] [0] 1) = 0 := by decide
    simp only [at?, LEAF_MARKER]
    simp [e, ih, -Prod.mk_zero_zero]

/-- The first visit of the same search. -/
theorem search_self_loop_start (fuel : Nat) :
    search int_sqrt fuel 0 [0] 1
      { reference := ⟨1, [[0]]⟩, ndim := 1, items := [{ ptr := [0], index := 0 }],
        nodes := [{ threshold := 5, index := 0, left := 0, right := -1 }],
        tau := 1000, nearest := [], neighbors := [], distances := [] } =
      .error .out_of_fuel := by
  cases fuel with
  | zero => rfl
  | succ fuel =>
    have ih := search_self_loop fuel
    rw [search]
    have e : int_sqrt (euclidean_dist2 [0] [0] 1) = 0 := by decide
    simp only [at?, LEAF_MARKER]
    simp [e, search_within_tau, pq_push, ih, -Prod.mk_zero_zero]

end Kmknn

namespace Kmknn

/-! ## The claims -/

/-- Exactness of the algorithm over exact numbers. Over the reals with the Euclidean distance,
for every stream of random draws in `[0, 1)` and every `nth_element` that meets its
postcondition, the constructor builds a tree from `n ≥ 1` points, and for every query point all
of whose distances are below `DBL_MAX` and every `k ≥ 1` (also `k ≥ n`) the search started by
`find_nearest_neighbors` returns with `min k n` candidates in the accumulator whose distances,
read in ascending order, are the `k` least distances of the brute-force scan. The rounding and
the overflow of `double` are outside this statement. -/
theorem search_exact_distances (unif_rand : Nat → ℝ)
    (nth_element : Nat → (DataPoint ℝ → DataPoint ℝ → Bool) → List (DataPoint ℝ) → Nat →
      List (DataPoint ℝ))
    (hu : UnifRandOk unif_rand) (hnth : NthElementOk nth_element)
    (DBL_MAX : ℝ) (vals : NumericMatrix ℝ) (hn : 1 ≤ vals.ncol)
    (target : List ℝ) (k : Nat) (hk : 1 ≤ k)
    (hmax : ∀ col ∈ vals.cols, Real.sqrt (euclidean_dist2 col target vals.nrow) < DBL_MAX)
    (fuel : Nat) (hfuel : vals.ncol < fuel) :
    ∃ t, VpTree_of_vals Real.sqrt unif_rand nth_element fuel vals = .ok t ∧
      ∃ t1, search Real.sqrt fuel 0 target (k : Int) { t with tau := DBL_MAX } = .ok t1 ∧
        (∀ index dist, find_nearest_neighbors_current Real.sqrt DBL_MAX fuel target (k : Int)
          index dist t = .ok (queue2deque t1 index dist false 0)) ∧
        t1.nearest.length = min k vals.ncol ∧
        t1.nearest.reverse.map Prod.fst = (brute_force_distances Real.sqrt vals target).take k := by
  obtain ⟨t, h1, _, _, _, _, h7, _, tau1, Q1, hs, hinv⟩ :=
    search_of_vals_spec Real.sqrt unif_rand nth_element real_sqrt_monotone hu hnth DBL_MAX vals
      hn (sqrt_euclidean_dist2_triangle vals.nrow) target (k : Int) (by omega) hmax fuel hfuel
  refine ⟨t, h1, _, hs, ?_, ?_, ?_⟩
  · intro index dist
    simp only [find_nearest_neighbors_current, hs]
  · have h := hinv.length_eq
    have hl : (candidates Real.sqrt vals.nrow t.items target).length = vals.ncol := by
      rw [← length_fillItems, ← h7.length_eq]
      simp [candidates]
    rw [hl] at h
    simpa using h
  · have h := hinv.distances_eq
    rw [insertionSort_eq_of_perm (candidates_perm_cols Real.sqrt vals t.items target h7)] at h
    simpa [brute_force_distances] using h

/-- An instance of `search_exact_distances`: the points 0 and 3 on the line, the query 1,
`k = 1`. -/
theorem search_exact_distances_witness :
    ∃ t, VpTree_of_vals Real.sqrt (fun _ => (0 : ℝ)) nth_element_sort 3 ⟨1, [[0], [3]]⟩ = .ok t ∧
      ∃ t1, search Real.sqrt 3 0 [1] ((1 : Nat) : Int) { t with tau := 10 } = .ok t1 ∧
        (∀ index dist, find_nearest_neighbors_current Real.sqrt 10 3 [1] ((1 : Nat) : Int)
          index dist t = .ok (queue2deque t1 index dist false 0)) ∧
        t1.nearest.length = min 1 (NumericMatrix.ncol (⟨1, [[0], [3]]⟩ : NumericMatrix ℝ)) ∧
        t1.nearest.reverse.map Prod.fst =
          (brute_force_distances Real.sqrt ⟨1, [[0], [3]]⟩ [1]).take 1 :=
  search_exact_distances (fun _ => 0) nth_element_sort (fun _ => ⟨le_rfl, zero_lt_one⟩)
    nth_element_sort_ok 10 ⟨1, [[0], [3]]⟩ (by simp [NumericMatrix.ncol]) [1] 1 le_rfl
    (by
      intro col hcol
      rw [Real.sqrt_lt' (by norm_num)]
      simp only [List.mem_cons, List.mem_singleton, List.not_mem_nil, or_false] at hcol
      rcases hcol with rfl | rfl <;> norm_num [euclidean_dist2, euclidean_dist2_loop])
    3 (by simp [NumericMatrix.ncol])

/-- The pairs of the algorithm over exact numbers. For every stream of random draws in `[0, 1)`
and every `nth_element` that meets its postcondition: (1) for every tree built by the
constructor, every query point and every `k ≥ 1`, each pair `(d, id)` left by the search of
`find_nearest_neighbors` has `d` the Euclidean distance from the query to the point at offset
`id` of the reordered point array, which is the column of the reference matrix whose number is
that point's identifier; the offsets are distinct and the distances are the `k` least of the
brute-force scan; (2) for the reference `(0,0), (10,0), (0,10), (1,1)`, the query `(0,0)` and
`k = 2` the result is `[(0, p0), (√2, p3)]`, `p0` and `p3` being the offsets of the points with
the identifiers 0 and 3. The rounding and the overflow of `double` are outside this statement. -/
theorem knn_pairs_are_offsets (unif_rand : Nat → ℝ)
    (nth_element : Nat → (DataPoint ℝ → DataPoint ℝ → Bool) → List (DataPoint ℝ) → Nat →
      List (DataPoint ℝ))
    (hu : UnifRandOk unif_rand) (hnth : NthElementOk nth_element)
    (DBL_MAX : ℝ) (fuel : Nat) :
    (∀ (vals : NumericMatrix ℝ) (target : List ℝ) (k : Nat), 1 ≤ vals.ncol → 1 ≤ k →
      (∀ col ∈ vals.cols, Real.sqrt (euclidean_dist2 col target vals.nrow) < DBL_MAX) →
      vals.ncol < fuel →
      ∃ t, VpTree_of_vals Real.sqrt unif_rand nth_element fuel vals = .ok t ∧
        ∃ t1, search Real.sqrt fuel 0 target (k : Int) { t with tau := DBL_MAX } = .ok t1 ∧
          (∀ index dist, find_nearest_neighbors_current Real.sqrt DBL_MAX fuel target (k : Int)
            index dist t = .ok (queue2deque t1 index dist false 0)) ∧
          (∀ e ∈ t1.nearest, ∃ (j : Nat) (x : DataPoint ℝ) (i : Nat), e.2 = (j : Int) ∧
            t.items[j]? = some x ∧ e.1 = Real.sqrt (euclidean_dist2 x.ptr target vals.nrow) ∧
            x.index = (i : Int) ∧ vals.cols[i]? = some x.ptr) ∧
          (t1.nearest.map Prod.snd).Nodup ∧
          t1.nearest.reverse.map Prod.fst =
            (brute_force_distances Real.sqrt vals target).take k) ∧
    (10 < DBL_MAX → 4 < fuel →
      ∃ t, VpTree_of_vals Real.sqrt unif_rand nth_element fuel
          ⟨2, [[0, 0], [10, 0], [0, 10], [1, 1]]⟩ = .ok t ∧
        ∃ t1 p0 p3, search Real.sqrt fuel 0 [0, 0] ((2 : Nat) : Int) { t with tau := DBL_MAX } =
            .ok t1 ∧
          t1.nearest.reverse = [(0, ((p0 : Nat) : Int)), (Real.sqrt 2, ((p3 : Nat) : Int))] ∧
          t.items[p0]? = some { ptr := [0, 0], index := 0 } ∧
          t.items[p3]? = some { ptr := [1, 1], index := 3 }) :=
  ⟨fun vals target k hn hk hmax hfuel =>
      search_pairs_general unif_rand nth_element hu hnth DBL_MAX fuel vals hn target k hk hmax
        hfuel,
    fun hD hf => scenario_result unif_rand nth_element hu hnth DBL_MAX fuel hD hf⟩

/-- An instance of `knn_pairs_are_offsets`: the scenario of the specification with all draws 0
and `nth_element` sorting. -/
theorem knn_pairs_are_offsets_witness :
    ∃ t, VpTree_of_vals Real.sqrt (fun _ => (0 : ℝ)) nth_element_sort 5
        ⟨2, [[0, 0], [10, 0], [0, 10], [1, 1]]⟩ = .ok t ∧
      ∃ t1 p0 p3, search Real.sqrt 5 0 [0, 0] ((2 : Nat) : Int) { t with tau := 11 } = .ok t1 ∧
        t1.nearest.reverse = [(0, ((p0 : Nat) : Int)), (Real.sqrt 2, ((p3 : Nat) : Int))] ∧
        t.items[p0]? = some { ptr := [0, 0], index := 0 } ∧
        t.items[p3]? = some { ptr := [1, 1], index := 3 } :=
  (knn_pairs_are_offsets (fun _ => 0) nth_element_sort (fun _ => ⟨le_rfl, zero_lt_one⟩)
    nth_element_sort_ok 11 5).2 (by norm_num) (by norm_num)

/-- Claim C2 (code evaluated at the failing input). For the tree built from the points 0, 10,
1, 20 of the line with the identifiers 0 to 3 (draws 0, `nth_element` sorting), the query 1 and
`k = 2`, the search returns the pair `(0, 1)`, but the reference point with the identifier 1 is
10, at distance 9 from the query; the point at distance 0 has the identifier 2 and sits at
offset 1 of the reordered point array: `search` pushes the offset `curnode.index`, not the
identifier `items[curnode.index].index`. All numbers are small integers and perfect squares. -/
theorem knn_pair_id_is_not_the_identifier :
    ∃ t t1 t2, VpTree_of_vals int_sqrt (fun _ => (0 : Int)) nth_element_sort 5
        ⟨1, [[0], [10], [1], [20]]⟩ = .ok t ∧
      search int_sqrt 5 0 [1] 2 { t with tau := 1000 } = .ok t1 ∧
      t1.nearest = [(1, 0), (0, 1)] ∧
      find_nearest_neighbors_current int_sqrt 1000 5 [1] 2 true true t = .ok t2 ∧
      t2.neighbors = [1, 0] ∧ t2.distances = [0, 1] ∧
      t.reference.cols[1]? = some [10] ∧
      int_sqrt (euclidean_dist2 [10] [1] 1) = 9 ∧
      t.items[1]? = some { ptr := [1], index := 2 } :=
  ⟨_, _, _, rfl, rfl, rfl, rfl, rfl, rfl, rfl, rfl, rfl⟩

/-- Claim C3 (code evaluated at the failing input). On the tree built from the single point 5
of the line, the query 7 with `k = 0` performs `nearest.pop()` on the empty accumulator: the
call is undefined behaviour instead of returning an empty result. -/
theorem find_nearest_neighbors_k_zero_pops_empty :
    ∃ t, VpTree_of_vals int_sqrt (fun _ => (0 : Int)) nth_element_sort 2 ⟨1, [[5]]⟩ = .ok t ∧
      t.nodes.length = 1 ∧ t.nearest = [] ∧
      ∃ s, find_nearest_neighbors_current int_sqrt 1000 2 [7] 0 true true t =
        .error (Fault.pop_empty, s) :=
  ⟨_, rfl, rfl, rfl, _, rfl⟩


/-- Claim C5 as amended (round trip). For every tree built by the constructor, the loading
constructor given the node arrays emitted by `save()` and the reference matrix with its columns
in the saved point order (the first array of `save()`) succeeds, and the loaded tree answers
every query by a point, for every `k`, with the same neighbors and distances in the same order
as the original tree, or fails the same way. -/
theorem save_load_round_trip (unif_rand : Nat → ℝ)
    (nth_element : Nat → (DataPoint ℝ → DataPoint ℝ → Bool) → List (DataPoint ℝ) → Nat →
      List (DataPoint ℝ))
    (hu : UnifRandOk unif_rand) (hnth : NthElementOk nth_element)
    (vals : NumericMatrix ℝ) (fuel : Nat) (hfuel : vals.ncol < fuel) :
    ∃ t, VpTree_of_vals Real.sqrt unif_rand nth_element fuel vals = .ok t ∧
      ∃ item_index t1, (save t).head? = some (.IntegerVector item_index) ∧
        VpTree_of_node_data (reorder_columns vals item_index) ((save t).drop 1) = .ok t1 ∧
        ∀ (DBL_MAX : ℝ) (fuel1 : Nat) (target : List ℝ) (k : Int) (index dist : Bool),
          query_result (find_nearest_neighbors_current Real.sqrt DBL_MAX fuel1 target k
            index dist t1) =
          query_result (find_nearest_neighbors_current Real.sqrt DBL_MAX fuel1 target k
            index dist t) := by
  obtain ⟨t, h1, _, h3, h4, h5, h6, h7, h8, h9⟩ :=
    VpTree_of_vals_spec Real.sqrt unif_rand nth_element real_sqrt_monotone hu hnth fuel vals hfuel
  rw [← h8] at h9
  obtain ⟨t1, e1, e2, e3, e4, e5, e6, e7⟩ := load_saved Real.sqrt vals t _ h3 h7 h9
  refine ⟨t, h1, _, t1, rfl, e1, ?_⟩
  intro DBL_MAX fuel1 target k index dist
  exact find_nearest_neighbors_current_congr Real.sqrt t t1 e2 e3 e4 h4 e5 h5 e6 h6 e7
    DBL_MAX fuel1 target k index dist

/-- Witness of `save_load_round_trip`: three points of the line, all draws 0 and `nth_element`
sorting. -/
theorem save_load_round_trip_witness :
    ∃ t, VpTree_of_vals Real.sqrt (fun _ => (0 : ℝ)) nth_element_sort 4
        ⟨1, [[0], [10], [1]]⟩ = .ok t ∧
      ∃ item_index t1, (save t).head? = some (.IntegerVector item_index) ∧
        VpTree_of_node_data (reorder_columns ⟨1, [[0], [10], [1]]⟩ item_index)
          ((save t).drop 1) = .ok t1 ∧
        ∀ (DBL_MAX : ℝ) (fuel1 : Nat) (target : List ℝ) (k : Int) (index dist : Bool),
          query_result (find_nearest_neighbors_current Real.sqrt DBL_MAX fuel1 target k
            index dist t1) =
          query_result (find_nearest_neighbors_current Real.sqrt DBL_MAX fuel1 target k
            index dist t) :=
  save_load_round_trip (fun _ => 0) nth_element_sort (fun _ => ⟨le_rfl, zero_lt_one⟩)
    nth_element_sort_ok ⟨1, [[0], [10], [1]]⟩ 4 (by simp [NumericMatrix.ncol])

/-- Claim C5 refuted as stated: for the points 0, 10, 1, 20 of the line, the tree loaded from
the same reference matrix and the saved node arrays answers the query 1, `k = 1`, with the
offset 0 at distance 1, while the original tree answers with the offset 1 at distance 0. -/
theorem load_with_same_matrix_differs :
    ∃ t t1, VpTree_of_vals int_sqrt (fun _ => (0 : Int)) nth_element_sort 5
        ⟨1, [[0], [10], [1], [20]]⟩ = .ok t ∧
      VpTree_of_node_data ⟨1, [[0], [10], [1], [20]]⟩ ((save t).drop 1) = .ok t1 ∧
      query_result (find_nearest_neighbors_current int_sqrt 1000 5 [1] 1 true true t) =
        .ok ([1], [0]) ∧
      query_result (find_nearest_neighbors_current int_sqrt 1000 5 [1] 1 true true t1) =
        .ok ([0], [1]) :=
  ⟨_, _, rfl, rfl, rfl, rfl⟩

/-- Claim C6 (rejection by the loading constructor). The constructor fails exactly when the node
list does not have 4 elements, or the four arrays have unequal lengths, or some node has a pivot
offset outside `[0, nodeCount)` or a child that is neither `LEAF` nor inside `[0, nodeCount)`;
when it succeeds, node `i` has exactly the supplied pivot offset, left, right and threshold; and
arrays of lengths 3, 3, 2, 3 are rejected. -/
theorem VpTree_of_node_data_fails_iff {R : Type} [LinearOrderedCommRing R] [FloorRing R]
    (vals : NumericMatrix R) (node_data : List (RVector R)) :
    ((∃ e, VpTree_of_node_data vals node_data = .error e) ↔
      node_data.length ≠ 4 ∨ ∃ d0 d1 d2 d3, node_data = [d0, d1, d2, d3] ∧
        ((asIntegerVector d1).length ≠ (asIntegerVector d0).length ∨
          (asIntegerVector d2).length ≠ (asIntegerVector d0).length ∨
          (asNumericVector d3).length ≠ (asIntegerVector d0).length ∨
          ∃ i, i < (asIntegerVector d0).length ∧
            node_rejected (asIntegerVector d0).length ((asIntegerVector d0).getD i 0)
              ((asIntegerVector d1).getD i 0) ((asIntegerVector d2).getD i 0))) ∧
    (∀ d0 d1 d2 d3 t, node_data = [d0, d1, d2, d3] →
      VpTree_of_node_data vals node_data = .ok t →
      t.nodes.length = (asIntegerVector d0).length ∧
      ∀ i, i < (asIntegerVector d0).length → t.nodes[i]? = some
        { threshold := (asNumericVector d3).getD i 0, index := (asIntegerVector d0).getD i 0,
          left := (asIntegerVector d1).getD i 0, right := (asIntegerVector d2).getD i 0 }) ∧
    (∀ d0 d1 d2 d3, node_data = [d0, d1, d2, d3] → (asIntegerVector d0).length = 3 →
      (asIntegerVector d1).length = 3 → (asIntegerVector d2).length = 2 →
      (asNumericVector d3).length = 3 →
      VpTree_of_node_data vals node_data = .error .lengths_not_consistent) := by
  have key : ∀ d0 d1 d2 d3 : RVector R,
      ((asIntegerVector d1).length ≠ (asIntegerVector d0).length ∨
        (asIntegerVector d2).length ≠ (asIntegerVector d0).length ∨
        (asNumericVector d3).length ≠ (asIntegerVector d0).length →
        VpTree_of_node_data vals [d0, d1, d2, d3] = .error .lengths_not_consistent) ∧
      ((asIntegerVector d1).length = (asIntegerVector d0).length →
        (asIntegerVector d2).length = (asIntegerVector d0).length →
        (asNumericVector d3).length = (asIntegerVector d0).length →
        ((∃ i, i < (asIntegerVector d0).length ∧
            node_rejected (asIntegerVector d0).length ((asIntegerVector d0).getD i 0)
              ((asIntegerVector d1).getD i 0) ((asIntegerVector d2).getD i 0)) →
          VpTree_of_node_data vals [d0, d1, d2, d3] = .error .node_indices_out_of_range) ∧
        ((¬ ∃ i, i < (asIntegerVector d0).length ∧
            node_rejected (asIntegerVector d0).length ((asIntegerVector d0).getD i 0)
              ((asIntegerVector d1).getD i 0) ((asIntegerVector d2).getD i 0)) →
          ∃ t, VpTree_of_node_data vals [d0, d1, d2, d3] = .ok t ∧
            t.nodes = (List.range' 0 (asIntegerVector d0).length).map (fun j =>
              { threshold := (asNumericVector d3).getD j 0,
                index := (asIntegerVector d0).getD j 0,
                left := (asIntegerVector d1).getD j 0,
                right := (asIntegerVector d2).getD j 0 }))) := by
    intro d0 d1 d2 d3
    refine ⟨fun h => ?_, fun h1 h2 h3 => ⟨fun hb => ?_, fun hg => ?_⟩⟩
    · simp only [VpTree_of_node_data]
      rw [if_pos h]
    · obtain ⟨i, hi, hbad⟩ := hb
      simp only [VpTree_of_node_data]
      rw [if_neg (by rintro (h | h | h) <;> contradiction),
        fillNodes_bad _ _ _ _ _ h1 h2 h3 _ 0 [] (by omega) ⟨i, Nat.zero_le _, hi, hbad⟩]
    · simp only [VpTree_of_node_data]
      rw [if_neg (by rintro (h | h | h) <;> contradiction),
        fillNodes_ok _ _ _ _ _ h1 h2 h3 _ 0 [] (by omega)
          (fun j _ hj hbad => hg ⟨j, hj, hbad⟩)]
      exact ⟨_, rfl, by simp⟩
  refine ⟨⟨?_, ?_⟩, ?_, ?_⟩
  · rintro ⟨e, he⟩
    by_cases hlen : node_data.length = 4
    · right
      match node_data, hlen with
      | [d0, d1, d2, d3], _ =>
        refine ⟨d0, d1, d2, d3, rfl, ?_⟩
        by_contra hc
        simp only [not_or, not_not] at hc
        obtain ⟨c1, c2, c3, c4⟩ := hc
        obtain ⟨t, ht, _⟩ := ((key d0 d1 d2 d3).2 c1 c2 c3).2 c4
        rw [ht] at he
        cases he
    · exact Or.inl hlen
  · rintro (hlen | ⟨d0, d1, d2, d3, rfl, h⟩)
    · refine ⟨.index_list_size, ?_⟩
      match node_data, hlen with
      | [], _ => rfl
      | [_], _ => rfl
      | [_, _], _ => rfl
      | [_, _, _], _ => rfl
      | [_, _, _, _], h => exact absurd rfl h
      | _ :: _ :: _ :: _ :: _ :: _, _ => rfl
    · by_cases c1 : (asIntegerVector d1).length = (asIntegerVector d0).length
      · by_cases c2 : (asIntegerVector d2).length = (asIntegerVector d0).length
        · by_cases c3 : (asNumericVector d3).length = (asIntegerVector d0).length
          · rcases h with h | h | h | h
            · exact absurd c1 h
            · exact absurd c2 h
            · exact absurd c3 h
            · exact ⟨_, ((key d0 d1 d2 d3).2 c1 c2 c3).1 h⟩
          · exact ⟨_, (key d0 d1 d2 d3).1 (Or.inr (Or.inr c3))⟩
        · exact ⟨_, (key d0 d1 d2 d3).1 (Or.inr (Or.inl c2))⟩
      · exact ⟨_, (key d0 d1 d2 d3).1 (Or.inl c1)⟩
  · rintro d0 d1 d2 d3 t rfl ht
    by_cases c1 : (asIntegerVector d1).length = (asIntegerVector d0).length
    · by_cases c2 : (asIntegerVector d2).length = (asIntegerVector d0).length
      · by_cases c3 : (asNumericVector d3).length = (asIntegerVector d0).length
        · by_cases hb : ∃ i, i < (asIntegerVector d0).length ∧
              node_rejected (asIntegerVector d0).length ((asIntegerVector d0).getD i 0)
                ((asIntegerVector d1).getD i 0) ((asIntegerVector d2).getD i 0)
          · rw [((key d0 d1 d2 d3).2 c1 c2 c3).1 hb] at ht
            cases ht
          · obtain ⟨t1, ht1, hn⟩ := ((key d0 d1 d2 d3).2 c1 c2 c3).2 hb
            rw [ht1] at ht
            injection ht with ht
            subst ht
            rw [hn]
            refine ⟨by simp, fun i hi => ?_⟩
            rw [List.getElem?_map, List.getElem?_range' _ _ hi]
            simp
        · rw [(key d0 d1 d2 d3).1 (Or.inr (Or.inr c3))] at ht
          cases ht
      · rw [(key d0 d1 d2 d3).1 (Or.inr (Or.inl c2))] at ht
        cases ht
    · rw [(key d0 d1 d2 d3).1 (Or.inl c1)] at ht
      cases ht
  · rintro d0 d1 d2 d3 rfl h0 h1 h2 h3
    exact (key d0 d1 d2 d3).1 (Or.inr (Or.inl (by omega)))

/-- Claim C7 (query by an identifier out of range). `find_nearest_neighbors(cell, k)` throws
"cell index out of range" exactly when `cell ≥ n`, the number of columns of the reference matrix,
and then the object is exactly as it was before the call. -/
theorem find_nearest_neighbors_cell_out_of_range {R : Type} [LinearOrderedCommRing R]
    (sqrt : R → R) (DBL_MAX : R) (fuel : Nat) (cell : Nat) (k : Int) (index dist : Bool)
    (t : VpTree R) :
    ((∃ s, find_nearest_neighbors_cell sqrt DBL_MAX fuel cell k index dist t =
        .error (Fault.cell_out_of_range, s)) ↔ cell ≥ t.reference.ncol) ∧
    (∀ s, find_nearest_neighbors_cell sqrt DBL_MAX fuel cell k index dist t =
        .error (Fault.cell_out_of_range, s) → s = t) := by
  have main : ∀ s, find_nearest_neighbors_cell sqrt DBL_MAX fuel cell k index dist t =
      .error (Fault.cell_out_of_range, s) → cell ≥ t.reference.ncol ∧ s = t := by
    intro s h
    unfold find_nearest_neighbors_cell at h
    split at h
    · rename_i hc
      injection h with h
      injection h with _ h2
      exact ⟨hc, h2.symm⟩
    · dsimp only at h
      split at h
      · injection h with h
        injection h with h1 _
        cases h1
      · split at h
        · rename_i e heq
          injection h with h
          injection h with h1 _
          exact absurd h1 (search_error sqrt _ _ _ _ _ _ heq)
        · cases h
  refine ⟨⟨fun ⟨s, h⟩ => (main s h).1, fun hc => ⟨t, ?_⟩⟩, fun s h => (main s h).2⟩
  unfold find_nearest_neighbors_cell
  rw [if_pos hc]

/-- Claim C8 as amended (what `save()` emits). The first of the five arrays has one entry per
point, the entry at offset `j` being the original identifier of the point at offset `j` of the
point array plus one; the other four have one entry per node, the pivot offset, left child,
right child and threshold of node `i` at offset `i`. -/
theorem save_arrays {R : Type} [LinearOrderedCommRing R] (t : VpTree R) :
    ∃ item_index node_index node_left node_right node_thresholds,
      save t = [.IntegerVector item_index, .IntegerVector node_index, .IntegerVector node_left,
        .IntegerVector node_right, .NumericVector node_thresholds] ∧
      item_index.length = t.items.length ∧
      (∀ (j : Nat) (I : DataPoint R), t.items[j]? = some I →
        item_index[j]? = some (I.index + 1)) ∧
      node_index.length = t.nodes.length ∧ node_left.length = t.nodes.length ∧
      node_right.length = t.nodes.length ∧ node_thresholds.length = t.nodes.length ∧
      (∀ (i : Nat) (N : Node R), t.nodes[i]? = some N → node_index[i]? = some N.index ∧
        node_left[i]? = some N.left ∧ node_right[i]? = some N.right ∧
        node_thresholds[i]? = some N.threshold) := by
  refine ⟨_, _, _, _, _, rfl, by simp, ?_, by simp, by simp, by simp, by simp, ?_⟩
  · intro j I h
    simp [h]
  · intro i N h
    simp [h]

/-- Claim C8 refuted as stated: for the tree built from the single point 5 of the line, whose
identifier is 0, the first array of `save()` is `[1]`, not `[0]`. -/
theorem save_item_index_is_one_based :
    ∃ t, VpTree_of_vals int_sqrt (fun _ => (0 : Int)) nth_element_sort 2 ⟨1, [[5]]⟩ = .ok t ∧
      t.items = [{ ptr := [5], index := 0 }] ∧
      (save t).head? = some (.IntegerVector [1]) :=
  ⟨_, rfl, rfl, rfl⟩

/-- Claim C9 (what `buildFromPoints(0, n)` leaves). For every matrix of `n ≥ 0` points, every
stream of random draws in `[0, 1)` and every `nth_element` that meets its postcondition, the
constructor returns a tree whose point array is a permutation of the input points and which has
exactly `n` nodes, every offset `p < n` of the point array being the pivot offset of exactly one
node; and in a call on `[lower, upper)` with more than one point every offset other than `lower`
lies in exactly one of `[lower + 1, median)` and `[median, upper)`. -/
theorem buildFromPoints_permutation_nodes (unif_rand : Nat → ℝ)
    (nth_element : Nat → (DataPoint ℝ → DataPoint ℝ → Bool) → List (DataPoint ℝ) → Nat →
      List (DataPoint ℝ))
    (hu : UnifRandOk unif_rand) (hnth : NthElementOk nth_element)
    (vals : NumericMatrix ℝ) (fuel : Nat) (hfuel : vals.ncol < fuel) :
    ∃ t, VpTree_of_vals Real.sqrt unif_rand nth_element fuel vals = .ok t ∧
      t.items.Perm (fillItems vals) ∧ t.nodes.length = vals.ncol ∧
      (∀ p, p < vals.ncol →
        ∃! i, i < t.nodes.length ∧ (t.nodes[i]?).map (fun N => N.index) = some (p : Int)) ∧
      (∀ lower upper j : Nat, upper - lower > 1 → lower < j → j < upper →
        Xor' (lower + 1 ≤ j ∧ j < (upper + lower) / 2) ((upper + lower) / 2 ≤ j ∧ j < upper)) := by
  obtain ⟨t, h1, _, _, _, _, _, h7, h8, h9⟩ :=
    VpTree_of_vals_spec Real.sqrt unif_rand nth_element real_sqrt_monotone hu hnth fuel vals hfuel
  refine ⟨t, h1, h7, h8, ?_, ?_⟩
  · intro p hp
    refine ⟨p, ⟨by omega, ?_⟩, ?_⟩
    · obtain ⟨nd, _, e1, e2, _⟩ := h9.node_at p (Nat.zero_le _) hp
      rw [e1]
      simp [e2]
    · rintro i ⟨hi, hi2⟩
      obtain ⟨nd, _, e1, e2, _⟩ := h9.node_at i (Nat.zero_le _) (by omega)
      rw [e1] at hi2
      simp only [Option.map_some', Option.some.injEq] at hi2
      omega
  · intro lower upper j h1 h2 h3
    by_cases hm : j < (upper + lower) / 2
    · exact Or.inl ⟨⟨by omega, hm⟩, fun h => by omega⟩
    · exact Or.inr ⟨⟨by omega, h3⟩, fun h => by omega⟩

/-- Witness of `buildFromPoints_permutation_nodes`: three points of the line, all draws 0 and
`nth_element` sorting. -/
theorem buildFromPoints_permutation_nodes_witness :
    ∃ t, VpTree_of_vals Real.sqrt (fun _ => (0 : ℝ)) nth_element_sort 4
        ⟨1, [[0], [10], [1]]⟩ = .ok t ∧
      t.items.Perm (fillItems (⟨1, [[0], [10], [1]]⟩ : NumericMatrix ℝ)) ∧
      t.nodes.length = NumericMatrix.ncol (⟨1, [[0], [10], [1]]⟩ : NumericMatrix ℝ) ∧
      (∀ p, p < NumericMatrix.ncol (⟨1, [[0], [10], [1]]⟩ : NumericMatrix ℝ) →
        ∃! i, i < t.nodes.length ∧ (t.nodes[i]?).map (fun N => N.index) = some (p : Int)) ∧
      (∀ lower upper j : Nat, upper - lower > 1 → lower < j → j < upper →
        Xor' (lower + 1 ≤ j ∧ j < (upper + lower) / 2) ((upper + lower) / 2 ≤ j ∧ j < upper)) :=
  buildFromPoints_permutation_nodes (fun _ => 0) nth_element_sort
    (fun _ => ⟨le_rfl, zero_lt_one⟩) nth_element_sort_ok ⟨1, [[0], [10], [1]]⟩ 4
    (by simp [NumericMatrix.ncol])

/-- Claim C10 (monotonicity of `tau`). For a search with capacity `k ≥ 1`: the relation `TauInv`
holds when `find_nearest_neighbors` starts the search (`tau = DBL_MAX`, empty accumulator); from a
state in that relation every execution of the body of `if (dist < tau)`, the only place that
assigns `tau`, returns, leaves a `tau` that is not greater, and keeps the relation; every call of
`search` that returns leaves a `tau` not greater than at its entry and keeps the relation; so
after `find_nearest_neighbors` `tau` is at most `DBL_MAX`. -/
theorem tau_non_increasing {R : Type} [LinearOrderedCommRing R] (sqrt : R → R) (DBL_MAX : R)
    (k : Int) (hk : 1 ≤ k) :
    TauInv k DBL_MAX ([] : List (R × Int)) ∧
    (∀ (t : VpTree R) (d : R) (j : Int), TauInv k t.tau t.nearest → d < t.tau →
      ∃ s, search_within_tau d j k t = .ok s ∧ s.tau ≤ t.tau ∧ TauInv k s.tau s.nearest) ∧
    (∀ (fuel : Nat) (c : Int) (target : List R) (t s : VpTree R), TauInv k t.tau t.nearest →
      search sqrt fuel c target k t = .ok s → s.tau ≤ t.tau ∧ TauInv k s.tau s.nearest) ∧
    (∀ (fuel : Nat) (target : List R) (index dist : Bool) (t s : VpTree R), t.nearest = [] →
      find_nearest_neighbors_current sqrt DBL_MAX fuel target k index dist t = .ok s →
      s.tau ≤ DBL_MAX) := by
  refine ⟨TauInv.at_entry k DBL_MAX hk, fun t d j h hd => search_within_tau_tau hk t h d j hd,
    fun fuel c target t s h hs => search_tau sqrt hk fuel c target t s h hs, ?_⟩
  intro fuel target index dist t s hq h
  unfold find_nearest_neighbors_current at h
  dsimp only at h
  split at h
  · cases h
  · rename_i t2 hs
    injection h with h
    subst h
    have := (search_tau sqrt hk fuel 0 target { t with tau := DBL_MAX } t2
      (by rw [hq]; exact TauInv.at_entry k DBL_MAX hk) hs).1
    exact this

/-- Witness of `tau_non_increasing`: capacity 1 over the integers. -/
theorem tau_non_increasing_witness :
    TauInv 1 (1000 : Int) ([] : List (Int × Int)) ∧
    (∀ (t : VpTree Int) (d : Int) (j : Int), TauInv 1 t.tau t.nearest → d < t.tau →
      ∃ s, search_within_tau d j 1 t = .ok s ∧ s.tau ≤ t.tau ∧ TauInv 1 s.tau s.nearest) ∧
    (∀ (fuel : Nat) (c : Int) (target : List Int) (t s : VpTree Int), TauInv 1 t.tau t.nearest →
      search int_sqrt fuel c target 1 t = .ok s → s.tau ≤ t.tau ∧ TauInv 1 s.tau s.nearest) ∧
    (∀ (fuel : Nat) (target : List Int) (index dist : Bool) (t s : VpTree Int), t.nearest = [] →
      find_nearest_neighbors_current int_sqrt 1000 fuel target 1 index dist t = .ok s →
      s.tau ≤ 1000) :=
  tau_non_increasing int_sqrt 1000 1 le_rfl

end Kmknn

namespace Kmknn

/-! ## The claims on the build, the links, the empty tree and the driver -/

/-- Claim C11 (building from one point). For every matrix of exactly one column, whatever the
random draws and `nth_element` are, the constructor returns a tree with exactly one node, whose
pivot offset is 0, whose children are both `LEAF` and whose threshold is 0; the call
`buildFromPoints(0, 1)` leaves the point array and the number of random draws made as they were,
so no draw and no partition step is performed. -/
theorem buildFromPoints_single_point {R : Type} [LinearOrderedCommRing R] [FloorRing R]
    (sqrt : R → R) (unif_rand : Nat → R)
    (nth_element : Nat → (DataPoint R → DataPoint R → Bool) → List (DataPoint R) → Nat →
      List (DataPoint R))
    (fuel nrow : Nat) (col : List R) :
    (∃ t, VpTree_of_vals sqrt unif_rand nth_element (fuel + 1) ⟨nrow, [col]⟩ = .ok t ∧
      t.nodes = [{ threshold := 0, index := 0, left := LEAF_MARKER, right := LEAF_MARKER }] ∧
      t.items = [{ ptr := col, index := 0 }]) ∧
    (∀ (t : VpTree R) (rng : Nat), t.nodes = [] →
      buildFromPoints sqrt unif_rand nth_element (fuel + 1) 0 1 (t, rng) =
        .ok (0, ({ t with nodes := [{ threshold := 0, index := 0, left := LEAF_MARKER,
                                      right := LEAF_MARKER }] }, rng))) := by
  refine ⟨⟨_, rfl, rfl, rfl⟩, ?_⟩
  intro t rng ht
  simp [buildFromPoints, ht, Node.ofIndex]

/-- Claim C12 (partition invariant). Over the reals, for every stream of random draws in
`[0, 1)` and every `nth_element` that meets its postcondition: (1) a partition step that returns
has set the threshold of its node to the distance from the pivot, the point at `lower`, to the
point it placed at `median = (lower + upper) / 2`; (2) in the tree the constructor returns, every
offset below `n` is that of a node, and for every node whose range `[lower, upper)` has more than
one point, after all recursive calls, the threshold is the distance from the pivot to a point of
`[median, upper)`, every point at an offset of `[lower + 1, median)` is at a distance from the
pivot that is at most the threshold, and every point at an offset of `[median, upper)` at a
distance that is at least the threshold. -/
theorem partition_invariant (unif_rand : Nat → ℝ)
    (nth_element : Nat → (DataPoint ℝ → DataPoint ℝ → Bool) → List (DataPoint ℝ) → Nat →
      List (DataPoint ℝ))
    (hu : UnifRandOk unif_rand) (hnth : NthElementOk nth_element)
    (vals : NumericMatrix ℝ) (fuel : Nat) (hfuel : vals.ncol < fuel) :
    (∀ (lower upper pos rng : Nat) (t0 t2 : VpTree ℝ),
      buildFromPoints_partition Real.sqrt unif_rand nth_element lower upper pos t0 rng = .ok t2 →
      ∃ p m, t2.items[lower]? = some p ∧ t2.items[(upper + lower) / 2]? = some m ∧
        t2.nodes = modifyNode t0.nodes pos (fun nd =>
          { nd with threshold := Real.sqrt (euclidean_dist2 p.ptr m.ptr t0.ndim) })) ∧
    ∃ t, VpTree_of_vals Real.sqrt unif_rand nth_element fuel vals = .ok t ∧
      (∀ p, p < vals.ncol → ∃ upper, BuildCall 0 vals.ncol p upper) ∧
      ∀ lower upper, BuildCall 0 vals.ncol lower upper → upper - lower > 1 →
        ∃ nd pivot, t.nodes[lower]? = some nd ∧ nd.index = (lower : Int) ∧
          t.items[lower]? = some pivot ∧
          (∃ j x, (upper + lower) / 2 ≤ j ∧ j < upper ∧ t.items[j]? = some x ∧
            nd.threshold = Real.sqrt (euclidean_dist2 pivot.ptr x.ptr vals.nrow)) ∧
          (∀ j x, lower + 1 ≤ j → j < (upper + lower) / 2 → t.items[j]? = some x →
            Real.sqrt (euclidean_dist2 pivot.ptr x.ptr vals.nrow) ≤ nd.threshold) ∧
          (∀ j x, (upper + lower) / 2 ≤ j → j < upper → t.items[j]? = some x →
            nd.threshold ≤ Real.sqrt (euclidean_dist2 pivot.ptr x.ptr vals.nrow)) := by
  refine ⟨fun lower upper pos rng t0 t2 h =>
    buildFromPoints_partition_threshold Real.sqrt unif_rand nth_element lower upper pos t0 t2 rng
      h, ?_⟩
  obtain ⟨t, h1, _, _, _, _, _, _, _, h9⟩ :=
    VpTree_of_vals_spec Real.sqrt unif_rand nth_element real_sqrt_monotone hu hnth fuel vals hfuel
  have hthr := VpTree_of_vals_threshold Real.sqrt unif_rand nth_element real_sqrt_monotone hu
    hnth fuel vals hfuel t h1
  refine ⟨t, h1, fun p hp => BuildCall.exists_call vals.ncol 0 vals.ncol p (by omega)
    (Nat.zero_le _) hp, ?_⟩
  intro lower upper hc hgt
  obtain ⟨nd, pivot, e1, e2, e3, e4, e5⟩ := (Built.of_call hc h9).partition_at hgt
  obtain ⟨nd1, pivot1, j, x, f1, f2, f3, f4, f5, f6⟩ := hthr lower upper hc hgt
  rw [e1] at f1
  rw [e3] at f2
  injection f1 with f1
  injection f2 with f2
  subst f1 f2
  exact ⟨nd, pivot, e1, e2, e3, ⟨j, x, f3, f4, f5, f6⟩, e4, e5⟩

/-- Witness of `partition_invariant`: three points of the line, all draws 0 and `nth_element`
sorting. -/
theorem partition_invariant_witness :
    (∀ (lower upper pos rng : Nat) (t0 t2 : VpTree ℝ),
      buildFromPoints_partition Real.sqrt (fun _ => (0 : ℝ)) nth_element_sort lower upper pos t0
        rng = .ok t2 →
      ∃ p m, t2.items[lower]? = some p ∧ t2.items[(upper + lower) / 2]? = some m ∧
        t2.nodes = modifyNode t0.nodes pos (fun nd =>
          { nd with threshold := Real.sqrt (euclidean_dist2 p.ptr m.ptr t0.ndim) })) ∧
    ∃ t, VpTree_of_vals Real.sqrt (fun _ => (0 : ℝ)) nth_element_sort 4
        ⟨1, [[0], [10], [1]]⟩ = .ok t ∧
      (∀ p, p < NumericMatrix.ncol (⟨1, [[0], [10], [1]]⟩ : NumericMatrix ℝ) →
        ∃ upper, BuildCall 0 (NumericMatrix.ncol (⟨1, [[0], [10], [1]]⟩ : NumericMatrix ℝ)) p
          upper) ∧
      ∀ lower upper,
        BuildCall 0 (NumericMatrix.ncol (⟨1, [[0], [10], [1]]⟩ : NumericMatrix ℝ)) lower upper →
        upper - lower > 1 →
        ∃ nd pivot, t.nodes[lower]? = some nd ∧ nd.index = (lower : Int) ∧
          t.items[lower]? = some pivot ∧
          (∃ j x, (upper + lower) / 2 ≤ j ∧ j < upper ∧ t.items[j]? = some x ∧
            nd.threshold = Real.sqrt (euclidean_dist2 pivot.ptr x.ptr 1)) ∧
          (∀ j x, lower + 1 ≤ j → j < (upper + lower) / 2 → t.items[j]? = some x →
            Real.sqrt (euclidean_dist2 pivot.ptr x.ptr 1) ≤ nd.threshold) ∧
          (∀ j x, (upper + lower) / 2 ≤ j → j < upper → t.items[j]? = some x →
            nd.threshold ≤ Real.sqrt (euclidean_dist2 pivot.ptr x.ptr 1)) :=
  partition_invariant (fun _ => 0) nth_element_sort (fun _ => ⟨le_rfl, zero_lt_one⟩)
    nth_element_sort_ok ⟨1, [[0], [10], [1]]⟩ 4 (by simp [NumericMatrix.ncol])

/-- Claim C13 as amended (ties). Over the reals, for every stream of random draws in `[0, 1)`
and every `nth_element` that meets its postcondition, in the tree the constructor returns, for
every node whose range `[lower, upper)` has more than one point: a point of the range other than
the pivot that is farther from the pivot than the threshold lies in the right subtree
`[median, upper)`, a point that is nearer lies in the left subtree `[lower + 1, median)`, so the
left subtree holds only points at a distance that is at most the threshold; and a point at a
distance equal to the threshold lies in the right subtree. -/
theorem threshold_ties (unif_rand : Nat → ℝ)
    (nth_element : Nat → (DataPoint ℝ → DataPoint ℝ → Bool) → List (DataPoint ℝ) → Nat →
      List (DataPoint ℝ))
    (hu : UnifRandOk unif_rand) (hnth : NthElementOk nth_element)
    (vals : NumericMatrix ℝ) (fuel : Nat) (hfuel : vals.ncol < fuel) :
    ∃ t, VpTree_of_vals Real.sqrt unif_rand nth_element fuel vals = .ok t ∧
      ∀ lower upper, BuildCall 0 vals.ncol lower upper → upper - lower > 1 →
        ∃ nd pivot, t.nodes[lower]? = some nd ∧ t.items[lower]? = some pivot ∧
          (∀ j x, lower + 1 ≤ j → j < upper → t.items[j]? = some x →
            (nd.threshold < Real.sqrt (euclidean_dist2 pivot.ptr x.ptr vals.nrow) →
              (upper + lower) / 2 ≤ j) ∧
            (Real.sqrt (euclidean_dist2 pivot.ptr x.ptr vals.nrow) < nd.threshold →
              j < (upper + lower) / 2) ∧
            (j < (upper + lower) / 2 →
              Real.sqrt (euclidean_dist2 pivot.ptr x.ptr vals.nrow) ≤ nd.threshold)) ∧
          ∃ j x, (upper + lower) / 2 ≤ j ∧ j < upper ∧ t.items[j]? = some x ∧
            Real.sqrt (euclidean_dist2 pivot.ptr x.ptr vals.nrow) = nd.threshold := by
  obtain ⟨t, h1, _, _, _, _, _, _, _, h9⟩ :=
    VpTree_of_vals_spec Real.sqrt unif_rand nth_element real_sqrt_monotone hu hnth fuel vals hfuel
  have hthr := VpTree_of_vals_threshold Real.sqrt unif_rand nth_element real_sqrt_monotone hu
    hnth fuel vals hfuel t h1
  refine ⟨t, h1, ?_⟩
  intro lower upper hc hgt
  obtain ⟨nd, pivot, e1, _, e3, e4, e5⟩ := (Built.of_call hc h9).partition_at hgt
  obtain ⟨nd1, pivot1, j, x, f1, f2, f3, f4, f5, f6⟩ := hthr lower upper hc hgt
  rw [e1] at f1
  rw [e3] at f2
  injection f1 with f1
  injection f2 with f2
  subst f1 f2
  refine ⟨nd, pivot, e1, e3, ?_, ⟨j, x, f3, f4, f5, f6.symm⟩⟩
  intro j1 x1 hj1 hj2 hx
  refine ⟨fun hlt => ?_, fun hlt => ?_, fun hj => e4 j1 x1 hj1 hj hx⟩
  · by_contra hcon
    exact absurd (e4 j1 x1 hj1 (by omega) hx) (not_le.2 hlt)
  · by_contra hcon
    exact absurd (e5 j1 x1 (by omega) hj2 hx) (not_le.2 hlt)

/-- Witness of `threshold_ties`: three points of the line, all draws 0 and `nth_element`
sorting. -/
theorem threshold_ties_witness :
    ∃ t, VpTree_of_vals Real.sqrt (fun _ => (0 : ℝ)) nth_element_sort 4
        ⟨1, [[0], [10], [1]]⟩ = .ok t ∧
      ∀ lower upper,
        BuildCall 0 (NumericMatrix.ncol (⟨1, [[0], [10], [1]]⟩ : NumericMatrix ℝ)) lower upper →
        upper - lower > 1 →
        ∃ nd pivot, t.nodes[lower]? = some nd ∧ t.items[lower]? = some pivot ∧
          (∀ j x, lower + 1 ≤ j → j < upper → t.items[j]? = some x →
            (nd.threshold < Real.sqrt (euclidean_dist2 pivot.ptr x.ptr 1) →
              (upper + lower) / 2 ≤ j) ∧
            (Real.sqrt (euclidean_dist2 pivot.ptr x.ptr 1) < nd.threshold →
              j < (upper + lower) / 2) ∧
            (j < (upper + lower) / 2 →
              Real.sqrt (euclidean_dist2 pivot.ptr x.ptr 1) ≤ nd.threshold)) ∧
          ∃ j x, (upper + lower) / 2 ≤ j ∧ j < upper ∧ t.items[j]? = some x ∧
            Real.sqrt (euclidean_dist2 pivot.ptr x.ptr 1) = nd.threshold :=
  threshold_ties (fun _ => 0) nth_element_sort (fun _ => ⟨le_rfl, zero_lt_one⟩)
    nth_element_sort_ok ⟨1, [[0], [10], [1]]⟩ 4 (by simp [NumericMatrix.ncol])

/-- Claim C13 refuted as stated: in the tree built from the points 0, 1, -1, 1 of the line
(draws 0, `nth_element` sorting) the root has the pivot 0, the threshold 1 and the left subtree
`[1, 2)`, and the point at offset 1 is at distance 1 from the pivot: a point at a distance equal
to the threshold lies in the left subtree. -/
theorem tie_in_left_subtree :
    ∃ t nd pivot x, VpTree_of_vals int_sqrt (fun _ => (0 : Int)) nth_element_sort 5
        ⟨1, [[0], [1], [-1], [1]]⟩ = .ok t ∧
      t.nodes[0]? = some nd ∧ t.items[0]? = some pivot ∧ t.items[1]? = some x ∧
      nd.left = 1 ∧ nd.right = 2 ∧ (4 + 0) / 2 = 2 ∧ nd.threshold = 1 ∧
      int_sqrt (euclidean_dist2 pivot.ptr x.ptr 1) = nd.threshold :=
  ⟨_, _, _, _, rfl, rfl, rfl, rfl, rfl, rfl, rfl, rfl, rfl⟩

/-- Claim C14 as amended (range of the drawn index). In a call of `buildFromPoints` on a range
with `upper - lower > 1`: for every draw `u` in `[0, 1)` the index `i` that is swapped with
position `lower` satisfies `lower ≤ i < upper - 1`; every index of `[lower, upper - 1)` is
selected for some `u` in `[0, 1)`; and the point at index `i` is the pivot the partition step
leaves at `lower`. -/
theorem drawn_index_range (lower upper : Nat) (h : upper - lower > 1) :
    (∀ u : ℝ, 0 ≤ u → u < 1 →
      (lower : Int) ≤ buildFromPoints_i u lower upper ∧
      buildFromPoints_i u lower upper < (upper : Int) - 1) ∧
    (∀ i : Nat, lower ≤ i → i + 1 < upper →
      ∃ u : ℝ, 0 ≤ u ∧ u < 1 ∧ buildFromPoints_i u lower upper = (i : Int)) ∧
    (∀ (unif_rand : Nat → ℝ)
      (nth_element : Nat → (DataPoint ℝ → DataPoint ℝ → Bool) → List (DataPoint ℝ) → Nat →
        List (DataPoint ℝ)) (pos rng : Nat) (t t2 : VpTree ℝ),
      buildFromPoints_partition Real.sqrt unif_rand nth_element lower upper pos t rng = .ok t2 →
      t2.items[lower]? = at? t.items (buildFromPoints_i (unif_rand rng) lower upper)) := by
  refine ⟨fun u h0 h1 => ?_, fun i hi1 hi2 => ?_, fun unif_rand nth_element pos rng t t2 h2 =>
    buildFromPoints_partition_pivot Real.sqrt unif_rand nth_element lower upper pos t t2 rng h2⟩
  · obtain ⟨b0, b1⟩ := static_cast_int_bounds u h0 h1 (upper - lower - 1) (by omega)
    unfold buildFromPoints_i
    constructor
    · omega
    · omega
  · have hN : (0 : ℝ) < ((upper - lower - 1 : Nat) : ℝ) := by
      have : 0 < upper - lower - 1 := by omega
      exact_mod_cast this
    refine ⟨((i - lower : Nat) : ℝ) / ((upper - lower - 1 : Nat) : ℝ), ?_, ?_, ?_⟩
    · exact div_nonneg (Nat.cast_nonneg _) hN.le
    · rw [div_lt_one hN]
      have : i - lower < upper - lower - 1 := by omega
      exact_mod_cast this
    · unfold buildFromPoints_i static_cast_int
      have e : ((i - lower : Nat) : ℝ) / ((upper - lower - 1 : Nat) : ℝ) *
          ((((upper - lower - 1 : Nat) : Int)) : ℝ) = ((i - lower : Nat) : ℝ) := by
        rw [Int.cast_natCast]
        exact div_mul_cancel₀ _ hN.ne'
      rw [e, if_pos (Nat.cast_nonneg _), Int.floor_natCast]
      omega

/-- Witness of `drawn_index_range`: the range `[0, 4)`. -/
theorem drawn_index_range_witness :
    (∀ u : ℝ, 0 ≤ u → u < 1 →
      ((0 : Nat) : Int) ≤ buildFromPoints_i u 0 4 ∧
      buildFromPoints_i u 0 4 < ((4 : Nat) : Int) - 1) ∧
    (∀ i : Nat, 0 ≤ i → i + 1 < 4 →
      ∃ u : ℝ, 0 ≤ u ∧ u < 1 ∧ buildFromPoints_i u 0 4 = (i : Int)) ∧
    (∀ (unif_rand : Nat → ℝ)
      (nth_element : Nat → (DataPoint ℝ → DataPoint ℝ → Bool) → List (DataPoint ℝ) → Nat →
        List (DataPoint ℝ)) (pos rng : Nat) (t t2 : VpTree ℝ),
      buildFromPoints_partition Real.sqrt unif_rand nth_element 0 4 pos t rng = .ok t2 →
      t2.items[0]? = at? t.items (buildFromPoints_i (unif_rand rng) 0 4)) :=
  drawn_index_range 0 4 (by decide)

/-- Claim C14 refuted as stated: on the range `[0, 4)` the draw `u = 0` gives the index 0, which
is `lower` and not in `[lower + 1, upper)`, and no draw in `[0, 1)` gives the index 3 of
`[lower + 1, upper)`. -/
theorem drawn_index_may_be_lower :
    buildFromPoints_i (0 : ℝ) 0 4 = 0 ∧ ¬ ((0 : Int) + 1 ≤ buildFromPoints_i (0 : ℝ) 0 4) ∧
      ∀ u : ℝ, 0 ≤ u → u < 1 → buildFromPoints_i u 0 4 ≠ 3 := by
  have h0 : buildFromPoints_i (0 : ℝ) 0 4 = 0 := by
    simp [buildFromPoints_i, static_cast_int]
  refine ⟨h0, by rw [h0]; decide, fun u hu0 hu1 => ?_⟩
  obtain ⟨_, b1⟩ := static_cast_int_bounds u hu0 hu1 (4 - 0 - 1) (by decide)
  unfold buildFromPoints_i
  omega

/-- Claim C15 (links after the build). For every matrix of `n ≥ 0` points, every stream of
random draws in `[0, 1)` and every `nth_element` that meets its postcondition, in the tree the
constructor returns each child of the node at offset `p` is `LEAF` or an offset of the node
array that is greater than `p`, so no node is its own ancestor; and the search from node 0
terminates for every query, every `k` and every `tau`: a budget greater than the number of nodes
is never exhausted. -/
theorem build_links_forward (unif_rand : Nat → ℝ)
    (nth_element : Nat → (DataPoint ℝ → DataPoint ℝ → Bool) → List (DataPoint ℝ) → Nat →
      List (DataPoint ℝ))
    (hu : UnifRandOk unif_rand) (hnth : NthElementOk nth_element)
    (vals : NumericMatrix ℝ) (fuel : Nat) (hfuel : vals.ncol < fuel) :
    ∃ t, VpTree_of_vals Real.sqrt unif_rand nth_element fuel vals = .ok t ∧
      (∀ (p : Nat) (nd : Node ℝ), t.nodes[p]? = some nd →
        (nd.left = LEAF_MARKER ∨ ((p : Int) < nd.left ∧ nd.left < (t.nodes.length : Int))) ∧
        (nd.right = LEAF_MARKER ∨ ((p : Int) < nd.right ∧ nd.right < (t.nodes.length : Int)))) ∧
      (∀ (fuel1 : Nat) (target : List ℝ) (k : Int) (tau : ℝ), t.nodes.length < fuel1 →
        search Real.sqrt fuel1 0 target k { t with tau := tau } ≠ .error .out_of_fuel) ∧
      (∀ (fuel1 : Nat) (target : List ℝ) (k : Int) (DBL_MAX : ℝ) (index dist : Bool)
        (s : VpTree ℝ), t.nodes.length < fuel1 →
        find_nearest_neighbors_current Real.sqrt DBL_MAX fuel1 target k index dist t ≠
          .error (.out_of_fuel, s)) := by
  obtain ⟨t, h1, _, _, _, _, _, _, h8, h9⟩ :=
    VpTree_of_vals_spec Real.sqrt unif_rand nth_element real_sqrt_monotone hu hnth fuel vals hfuel
  rw [← h8] at h9
  have hf : LinksForward t.nodes := h9.links_forward
  have hs : ∀ (fuel1 : Nat) (target : List ℝ) (k : Int) (tau : ℝ), t.nodes.length < fuel1 →
      search Real.sqrt fuel1 0 target k { t with tau := tau } ≠ .error .out_of_fuel :=
    fun fuel1 target k tau hlt =>
      search_fuel Real.sqrt t.nodes hf fuel1 0 target k _ rfl (by omega)
        (Or.inr ⟨le_rfl, by simpa using hlt⟩)
  refine ⟨t, h1, hf, hs, ?_⟩
  intro fuel1 target k DBL_MAX index dist s hlt h
  unfold find_nearest_neighbors_current at h
  dsimp only at h
  split at h
  · rename_i e heq
    injection h with h
    injection h with h _
    subst h
    exact hs fuel1 target k DBL_MAX hlt heq
  · cases h

/-- Witness of `build_links_forward`: three points of the line, all draws 0 and `nth_element`
sorting. -/
theorem build_links_forward_witness :
    ∃ t, VpTree_of_vals Real.sqrt (fun _ => (0 : ℝ)) nth_element_sort 4
        ⟨1, [[0], [10], [1]]⟩ = .ok t ∧
      (∀ (p : Nat) (nd : Node ℝ), t.nodes[p]? = some nd →
        (nd.left = LEAF_MARKER ∨ ((p : Int) < nd.left ∧ nd.left < (t.nodes.length : Int))) ∧
        (nd.right = LEAF_MARKER ∨ ((p : Int) < nd.right ∧ nd.right < (t.nodes.length : Int)))) ∧
      (∀ (fuel1 : Nat) (target : List ℝ) (k : Int) (tau : ℝ), t.nodes.length < fuel1 →
        search Real.sqrt fuel1 0 target k { t with tau := tau } ≠ .error .out_of_fuel) ∧
      (∀ (fuel1 : Nat) (target : List ℝ) (k : Int) (DBL_MAX : ℝ) (index dist : Bool)
        (s : VpTree ℝ), t.nodes.length < fuel1 →
        find_nearest_neighbors_current Real.sqrt DBL_MAX fuel1 target k index dist t ≠
          .error (.out_of_fuel, s)) :=
  build_links_forward (fun _ => 0) nth_element_sort (fun _ => ⟨le_rfl, zero_lt_one⟩)
    nth_element_sort_ok ⟨1, [[0], [10], [1]]⟩ 4 (by simp [NumericMatrix.ncol])

/-- Claim C16 as amended (links of a loaded tree). For every set of node arrays the loading
constructor accepts, each child of a node of the resulting tree is `LEAF` or an offset into the
node array; that no node is its own ancestor is not checked. When moreover the links go forward
(every child that is not `LEAF` has an offset greater than its parent, as in the arrays saved
from a built tree), the search from node 0 terminates for every query, every `k` and every
`tau`. -/
theorem load_links_in_range {R : Type} [LinearOrderedCommRing R] [FloorRing R] (sqrt : R → R)
    (vals : NumericMatrix R) (node_data : List (RVector R)) (t : VpTree R)
    (h : VpTree_of_node_data vals node_data = .ok t) :
    (∀ (p : Nat) (nd : Node R), t.nodes[p]? = some nd →
      (nd.left = LEAF_MARKER ∨ (0 ≤ nd.left ∧ nd.left < (t.nodes.length : Int))) ∧
      (nd.right = LEAF_MARKER ∨ (0 ≤ nd.right ∧ nd.right < (t.nodes.length : Int)))) ∧
    (LinksForward t.nodes →
      ∀ (fuel : Nat) (target : List R) (k : Int) (tau : R), t.nodes.length < fuel →
        search sqrt fuel 0 target k { t with tau := tau } ≠ .error .out_of_fuel) :=
  ⟨fun p nd hp => (VpTree_of_node_data_links vals node_data t h p nd hp).2,
    fun hf fuel target k tau hlt =>
      search_fuel sqrt t.nodes hf fuel 0 target k _ rfl (by omega)
        (Or.inr ⟨le_rfl, by simpa using hlt⟩)⟩

/-- Witness of `load_links_in_range`: the arrays of a tree of two nodes, the second the right
child of the first. -/
theorem load_links_in_range_witness :
    ∃ t, VpTree_of_node_data (⟨1, [[0], [3]]⟩ : NumericMatrix Int)
        [.IntegerVector [0, 1], .IntegerVector [-1, -1], .IntegerVector [1, -1],
          .NumericVector [3, 0]] = .ok t ∧
      (∀ (p : Nat) (nd : Node Int), t.nodes[p]? = some nd →
        (nd.left = LEAF_MARKER ∨ (0 ≤ nd.left ∧ nd.left < (t.nodes.length : Int))) ∧
        (nd.right = LEAF_MARKER ∨ (0 ≤ nd.right ∧ nd.right < (t.nodes.length : Int)))) ∧
      (LinksForward t.nodes →
        ∀ (fuel : Nat) (target : List Int) (k : Int) (tau : Int), t.nodes.length < fuel →
          search int_sqrt fuel 0 target k { t with tau := tau } ≠ .error .out_of_fuel) :=
  ⟨_, rfl, load_links_in_range int_sqrt ⟨1, [[0], [3]]⟩
    [.IntegerVector [0, 1], .IntegerVector [-1, -1], .IntegerVector [1, -1],
      .NumericVector [3, 0]] _ (by exact rfl)⟩

/-- Claim C16 refuted as stated: the loading constructor accepts the arrays of one node whose
left child is the node itself, and on the resulting tree the search from node 0 for the query 0
with `k = 1` exhausts every budget: it does not terminate. -/
theorem load_accepts_cycle :
    ∃ t, VpTree_of_node_data (⟨1, [[0]]⟩ : NumericMatrix Int)
        [.IntegerVector [0], .IntegerVector [0], .IntegerVector [-1], .NumericVector [5]] =
        .ok t ∧
      t.nodes = [{ threshold := 5, index := 0, left := 0, right := -1 }] ∧
      ∀ fuel, search int_sqrt fuel 0 [0] 1 { t with tau := 1000 } = .error .out_of_fuel :=
  ⟨_, rfl, rfl, fun fuel => search_self_loop_start fuel⟩

/-- Claim C17 (code evaluated at the failing input). For the tree built from a matrix without
columns, which has no node, `find_nearest_neighbors` by a point calls `search(0, ...)`, which
reads `nodes[0]` outside the empty node array, for every query point and every `k`: the call is
undefined behaviour instead of returning an empty result. -/
theorem find_nearest_neighbors_empty_tree {R : Type} [LinearOrderedCommRing R] [FloorRing R]
    (sqrt : R → R) (unif_rand : Nat → R)
    (nth_element : Nat → (DataPoint R → DataPoint R → Bool) → List (DataPoint R) → Nat →
      List (DataPoint R))
    (DBL_MAX : R) (fuel nrow : Nat) (target : List R) (k : Int) (index dist : Bool) :
    ∃ t, VpTree_of_vals sqrt unif_rand nth_element (fuel + 1) ⟨nrow, []⟩ = .ok t ∧
      t.nodes = [] ∧ t.items = [] ∧
      find_nearest_neighbors_current sqrt DBL_MAX (fuel + 1) target k index dist t =
        .error (.nodes_out_of_range, { t with tau := DBL_MAX }) := by
  refine ⟨_, rfl, rfl, rfl, ?_⟩
  simp [find_nearest_neighbors_current, search, at?, LEAF_MARKER]

/-- Claim C18 (a node sits at its pivot offset). For every matrix of `n ≥ 0` points, every stream
of random draws in `[0, 1)` and every `nth_element` that meets its postcondition, in the tree the
constructor returns the node at offset `p` of the node array has the pivot offset `p`, which lies
in `[0, nodeCount)` and so passes the range check of the loading constructor; the loading
constructor accepts the node arrays saved from the tree, with any matrix, and yields the same
nodes. -/
theorem node_offset_is_pivot_offset (unif_rand : Nat → ℝ)
    (nth_element : Nat → (DataPoint ℝ → DataPoint ℝ → Bool) → List (DataPoint ℝ) → Nat →
      List (DataPoint ℝ))
    (hu : UnifRandOk unif_rand) (hnth : NthElementOk nth_element)
    (vals : NumericMatrix ℝ) (fuel : Nat) (hfuel : vals.ncol < fuel) :
    ∃ t, VpTree_of_vals Real.sqrt unif_rand nth_element fuel vals = .ok t ∧
      (∀ (p : Nat) (nd : Node ℝ), t.nodes[p]? = some nd →
        nd.index = (p : Int) ∧ (0 ≤ nd.index ∧ nd.index < (t.nodes.length : Int)) ∧
        ¬ (nd.index < 0 ∨ nd.index ≥ (t.nodes.length : Int))) ∧
      ∀ vals1 : NumericMatrix ℝ,
        ∃ t1, VpTree_of_node_data vals1 ((save t).drop 1) = .ok t1 ∧ t1.nodes = t.nodes := by
  obtain ⟨t, h1, _, h3, _, _, _, h7, h8, h9⟩ :=
    VpTree_of_vals_spec Real.sqrt unif_rand nth_element real_sqrt_monotone hu hnth fuel vals hfuel
  rw [← h8] at h9
  refine ⟨t, h1, ?_, ?_⟩
  · intro p nd hp
    have hlt : p < t.nodes.length := by
      by_contra hc
      rw [List.getElem?_eq_none (by omega)] at hp
      cases hp
    obtain ⟨nd1, _, e1, e2, _⟩ := h9.node_at p (Nat.zero_le _) hlt
    rw [hp] at e1
    injection e1 with e1
    subst e1
    refine ⟨e2, ⟨by omega, by omega⟩, ?_⟩
    rintro (h | h)
    · omega
    · omega
  · intro vals1
    obtain ⟨t1, e1, _, e3, _⟩ := load_saved Real.sqrt vals t _ h3 h7 h9
    exact ⟨_, VpTree_of_node_data_matrix _ vals1 _ t1 e1, e3⟩

/-- Witness of `node_offset_is_pivot_offset`: three points of the line, all draws 0 and
`nth_element` sorting. -/
theorem node_offset_is_pivot_offset_witness :
    ∃ t, VpTree_of_vals Real.sqrt (fun _ => (0 : ℝ)) nth_element_sort 4
        ⟨1, [[0], [10], [1]]⟩ = .ok t ∧
      (∀ (p : Nat) (nd : Node ℝ), t.nodes[p]? = some nd →
        nd.index = (p : Int) ∧ (0 ≤ nd.index ∧ nd.index < (t.nodes.length : Int)) ∧
        ¬ (nd.index < 0 ∨ nd.index ≥ (t.nodes.length : Int))) ∧
      ∀ vals1 : NumericMatrix ℝ,
        ∃ t1, VpTree_of_node_data vals1 ((save t).drop 1) = .ok t1 ∧ t1.nodes = t.nodes :=
  node_offset_is_pivot_offset (fun _ => 0) nth_element_sort (fun _ => ⟨le_rfl, zero_lt_one⟩)
    nth_element_sort_ok ⟨1, [[0], [10], [1]]⟩ 4 (by simp [NumericMatrix.ncol])

/-- Claim C19 (code evaluated at the failing input). The loading constructor accepts, with a
matrix of one column, the arrays of two nodes of which the first has the pivot offset 1: the
offset is below the number of nodes, 2, but not below the number of points, 1. The search from
node 0 then reads `items[1]` outside the point array. -/
theorem load_accepts_pivot_beyond_points :
    ∃ t s, VpTree_of_node_data (⟨1, [[0]]⟩ : NumericMatrix Int)
        [.IntegerVector [1, 0], .IntegerVector [-1, -1], .IntegerVector [-1, -1],
          .NumericVector [0, 0]] = .ok t ∧
      t.items.length = 1 ∧ t.nodes.length = 2 ∧
      (t.nodes[0]?).map (fun nd => nd.index) = some 1 ∧
      search int_sqrt 3 0 [0] 1 { t with tau := 1000 } = .error .items_out_of_range ∧
      find_nearest_neighbors_current int_sqrt 1000 3 [0] 1 true true t =
        .error (.items_out_of_range, s) :=
  ⟨_, _, rfl, rfl, rfl, rfl, rfl, rfl⟩

/-- Claim C20 (code evaluated at the failing input). With a searcher of three points and the
queries 0 and 1: for `get_index = false` and `get_distance = true` the driver returns a distance
list of two empty (`NULL`) elements, not the distance vectors of the queries; for
`get_index = true` and `get_distance = false` it assigns to element 0 of the distance list, which
is empty; with both flags set it returns both lists filled, and with neither both empty. -/
theorem find_neighbors_distances_follow_get_index :
    find_neighbors example_searcher 0 [0, 1] 1 false true = .ok ([], [none, none]) ∧
    find_neighbors example_searcher 0 [0, 1] 1 true false = .error .list_out_of_range ∧
    find_neighbors example_searcher 0 [0, 1] 1 true true =
      .ok ([some [1, 2], some [2, 3]], [some [0, 1], some [0, 1]]) ∧
    find_neighbors example_searcher 0 [0, 1] 1 false false = .ok ([], []) :=
  ⟨rfl, rfl, rfl, rfl⟩

end Kmknn
